import Mathlib

/-!
Verification of `basic_repeating_timer`

A shallow embedding of `asio/basic_repeating_timer.hpp`: the facade
`basic_repeating_timer` (start / stop / cancel / change_interval) and its
engine `internal_timer` (create / start / cancel / change_interval /
handle_timeout), over an explicit heap of reference-counted objects.

* `shared_ptr` / `weak_ptr` are object indices; a `handler_impl` carries the
  number of `shared_ptr` owners (`use_count`), and a `weak_ptr` resolves iff
  that number is positive.
* The single-shot `deadline_timer` is the external primitive; it is modelled
  from its contract (expires_from_now / async_wait / cancel).
* The user's callable is foreign code: what it does when it is invoked (the
  calls it makes back into the timer, and whether it returns or throws) is an
  input of the completion step.
* Every `async_wait` submission and every handler invocation is appended to
  an event log, so that temporal properties can be stated over runs.
-/

namespace RepTimer

/-- Points in time (`ptime`) and durations (`time_duration`), in clock ticks. -/
abbrev Time := Int

/-- Signed tick count of a `time_duration`. -/
abbrev Duration := Int

/-- The completion status `boost::system::error_code`: value 0 is success. -/
structure error_code where
  value : Nat
deriving DecidableEq

/-- The status of a wait whose deadline elapsed. -/
def error_code.success : error_code := ⟨0⟩

/-- The status of a wait that was cancelled (`asio::error::operation_aborted`). -/
def error_code.operation_aborted : error_code := ⟨125⟩

/-- The test `if( !error )` of the source. -/
def error_code.ok (e : error_code) : Bool := e.value == 0

/-- What a C++ callable can throw, as far as `catch( std::exception const & )`
can tell: an object derived from `std::exception`, or anything else. -/
inductive thrown where
  | std_exception
  | other
deriving DecidableEq

/-- A call on the facade's control surface. The handler of `start` is named by
a number. -/
inductive Call where
  | start (repeat_interval : Duration) (handler : Nat)
  | stop
  | cancel
  | change_interval (repeat_interval : Duration)
deriving DecidableEq

/-- What the user's callable does during one invocation: the calls it makes
back into its own timer, in order, and then how it ends (`none`: it returns). -/
structure handler_action where
  calls : List Call
  outcome : Option thrown
deriving DecidableEq

/-- The object `handler_impl<HandlerFunc>`: the wrapped callable, and the number
of `shared_ptr`s that own the object. At zero the object is destroyed and
every `weak_ptr` to it is expired. -/
structure handler_impl where
  handler_func_ : Nat
  use_count : Nat
deriving DecidableEq

/-- One `async_wait` submitted to a single-shot timer and not completed yet. -/
structure wait_op where
  deadline : Option Time
  cancelled : Bool
deriving DecidableEq

/-- Modelled from the spec: the single-shot timer primitive
`boost::asio::basic_deadline_timer` (its code is not part of the repository).
It has an expiry time, unset at construction, and the waits submitted to it
whose callback has not run yet, oldest first. -/
structure deadline_timer where
  expiry : Option Time
  waits : List wait_op
deriving DecidableEq

/-- Modelled from the spec: `expires_from_now(duration)` sets the deadline to
now + duration. -/
def deadline_timer.expires_from_now (t : deadline_timer) (now : Time) (d : Duration) :
    deadline_timer :=
  { t with expiry := some (now + d) }

/-- Modelled from the spec: `async_wait(callback)` submits one wait for the
current deadline; its callback runs exactly once, later. -/
def deadline_timer.async_wait (t : deadline_timer) : deadline_timer :=
  { t with waits := t.waits ++ [{ deadline := t.expiry, cancelled := false }] }

/-- Modelled from the spec: `cancel()` is a request; every pending wait stays
outstanding and still gets its callback, marked as cancelled. -/
def deadline_timer.cancel (t : deadline_timer) : deadline_timer :=
  { t with waits := t.waits.map (fun w => { w with cancelled := true }) }

/-- The object `internal_timer` (the engine): its single-shot timer, the
`weak_ptr` to the handler (an object index, or empty), and the interval. -/
structure internal_timer where
  timer_ : deadline_timer
  handler_ : Option Nat
  interval_ : Duration
deriving DecidableEq

/-- The facade `basic_repeating_timer`: the two `shared_ptr` members. -/
structure basic_repeating_timer where
  timer_ : Option Nat
  handler_ : Option Nat
deriving DecidableEq

/-- An observable event of a run. -/
inductive Event where
  /-- The engine `engine` called `Handler->handler(error)` on the handler
  object `handler`, which wraps the callable `func`, at time `time`. -/
  | invoke (engine handler func : Nat) (error : error_code) (time : Time)
  /-- The engine `engine` submitted an `async_wait` at time `time`. -/
  | wait (engine : Nat) (deadline : Option Time) (time : Time)
deriving DecidableEq

/-- One facade, the heap of the objects it has created, the clock, and the
events so far. -/
structure World where
  now : Time
  facade : basic_repeating_timer
  engines : List internal_timer
  handlers : List handler_impl
  log : List Event
deriving DecidableEq

/-- The world right after `basic_repeating_timer( ex )`: both members empty. -/
def World.init : World :=
  { now := 0, facade := { timer_ := none, handler_ := none },
    engines := [], handlers := [], log := [] }

/-- Apply `f` to the object at index `i`, when there is one. -/
def modify_at {α : Type} (xs : List α) (i : Nat) (f : α → α) : List α :=
  match xs[i]? with
  | some x => xs.set i (f x)
  | none => xs

/-- Number of `shared_ptr` owners of handler object `h` (0 once destroyed). -/
def World.use_count (w : World) (h : Nat) : Nat :=
  match w.handlers[h]? with
  | some o => o.use_count
  | none => 0

/-- Whether `weak_ptr::lock()` on the reference `r` yields an object: the
reference is not empty and the object still has an owner. -/
def World.lock (w : World) (r : Option Nat) : Option Nat :=
  match r with
  | some h => if 0 < w.use_count h then some h else none
  | none => none

/-- One more `shared_ptr` owns handler object `h`. -/
def World.acquire (w : World) (h : Nat) : World :=
  { w with handlers := modify_at w.handlers h (fun o => { o with use_count := o.use_count + 1 }) }

/-- A `shared_ptr` to handler object `h` is reset or leaves scope. -/
def World.release (w : World) (h : Nat) : World :=
  { w with handlers := modify_at w.handlers h (fun o => { o with use_count := o.use_count - 1 }) }

/-- Apply `f` to the engine object `e`. -/
def World.with_engine (w : World) (e : Nat) (f : internal_timer → internal_timer) : World :=
  { w with engines := modify_at w.engines e f }

/-- The statements `timer_.expires_from_now( interval_ ); timer_.async_wait( bind(
&internal_timer::handle_timeout, shared_from_this(), _1 ) )` executed by engine
`self`; the submission is logged. -/
def internal_timer.arm (w : World) (self : Nat) : World :=
  match w.engines[self]? with
  | none => w
  | some t =>
    let timer := (t.timer_.expires_from_now w.now t.interval_).async_wait
    { w with
      engines := w.engines.set self { t with timer_ := timer },
      log := w.log ++ [Event.wait self timer.expiry w.now] }

/-- Method `internal_timer::start`: record the interval and the weak handler
reference, then arm. -/
def internal_timer.start (w : World) (self : Nat) (repeat_interval : Duration)
    (handler : Option Nat) : World :=
  internal_timer.arm
    (w.with_engine self (fun t =>
      { t with interval_ := repeat_interval, handler_ := handler }))
    self

/-- Method `internal_timer::create`: allocate a new engine (timer unset, empty
weak reference, zero interval), start it, and return its index. -/
def internal_timer.create (w : World) (repeat_interval : Duration) (handler : Option Nat) :
    World × Nat :=
  let self := w.engines.length
  let w1 := { w with engines := w.engines ++
    [{ timer_ := { expiry := none, waits := [] }, handler_ := none, interval_ := 0 }] }
  (internal_timer.start w1 self repeat_interval handler, self)

/-- Method `internal_timer::cancel`: cancel the single-shot timer. -/
def internal_timer.cancel (w : World) (self : Nat) : World :=
  w.with_engine self (fun t => { t with timer_ := t.timer_.cancel })

/-- Method `internal_timer::change_interval`: overwrite the stored interval. -/
def internal_timer.change_interval (w : World) (self : Nat) (repeat_interval : Duration) :
    World :=
  w.with_engine self (fun t => { t with interval_ := repeat_interval })

/-- The statement `handler_.reset()` of the facade. -/
def basic_repeating_timer.reset_handler (w : World) : World :=
  match w.facade.handler_ with
  | some h => { w.release h with facade := { w.facade with handler_ := none } }
  | none => w

/-- The cleanup block shared by `start` and `stop`:
`handler_.reset(); if( timer_ ) timer_->cancel(); timer_.reset();`. -/
def basic_repeating_timer.cleanup (w : World) : World :=
  let w1 := basic_repeating_timer.reset_handler w
  let w2 := match w1.facade.timer_ with
    | some e => internal_timer.cancel w1 e
    | none => w1
  { w2 with facade := { w2.facade with timer_ := none } }

/-- Method `basic_repeating_timer::stop`. -/
def basic_repeating_timer.stop (w : World) : World :=
  basic_repeating_timer.cleanup w

/-- Method `basic_repeating_timer::cancel`: `{stop();}`. -/
def basic_repeating_timer.cancel (w : World) : World :=
  basic_repeating_timer.stop w

/-- Method `basic_repeating_timer::start`: cleanup, then a new handler object
owned by the facade, then a new engine created with a reference to it. -/
def basic_repeating_timer.start (w : World) (repeat_interval : Duration) (handler : Nat) :
    World :=
  let w1 := basic_repeating_timer.cleanup w
  let h := w1.handlers.length
  let w2 := { w1 with
    handlers := w1.handlers ++ [{ handler_func_ := handler, use_count := 1 }],
    facade := { w1.facade with handler_ := some h } }
  let r := internal_timer.create w2 repeat_interval w2.facade.handler_
  { r.1 with facade := { r.1.facade with timer_ := some r.2 } }

/-- Method `basic_repeating_timer::change_interval`. -/
def basic_repeating_timer.change_interval (w : World) (repeat_interval : Duration) : World :=
  match w.facade.timer_ with
  | some e => internal_timer.change_interval w e repeat_interval
  | none => w

/-- Execute one call on the facade. -/
def World.call (w : World) : Call → World
  | .start repeat_interval handler => basic_repeating_timer.start w repeat_interval handler
  | .stop => basic_repeating_timer.stop w
  | .cancel => basic_repeating_timer.cancel w
  | .change_interval repeat_interval => basic_repeating_timer.change_interval w repeat_interval

/-- Execute calls on the facade, in order. -/
def World.calls (w : World) (cs : List Call) : World :=
  cs.foldl World.call w

/-- The body of `handler_impl::handler( result )`, that is `handler_func_(result)`:
the invocation is logged, then the callable does what `act` says. The outcome
is what leaves the call: nothing, or the object thrown. -/
def handler_impl.handler (w : World) (engine h : Nat) (result : error_code)
    (act : handler_action) : World × Option thrown :=
  let func := match w.handlers[h]? with
    | some o => o.handler_func_
    | none => 0
  let w1 := { w with log := w.log ++ [Event.invoke engine h func result w.now] }
  (w1.calls act.calls, act.outcome)

/-- The first block of `internal_timer::handle_timeout` ("do the fire"): lock the
weak reference; when it resolves, call the handler inside
`try ... catch( std::exception const & )`. The local `shared_ptr` owns the handler
object during the call and is released when the block is left, normally or by
an exception that is not caught. -/
def internal_timer.fire (w : World) (self : Nat) (error : error_code)
    (act : handler_action) : World × Option thrown :=
  match w.engines[self]? with
  | none => (w, none)
  | some t =>
    match w.lock t.handler_ with
    | none => (w, none)
    | some h =>
      let r := handler_impl.handler (w.acquire h) self h error act
      match r.2 with
      | none => (r.1.release h, none)
      | some thrown.std_exception => (r.1.release h, none)
      | some thrown.other => (r.1.release h, some thrown.other)

/-- The second block of `internal_timer::handle_timeout` ("check if we need to
reschedule"): when there was no error and the weak reference resolves, arm
again with the stored interval. The local `shared_ptr` is released at the end
of the block. -/
def internal_timer.reschedule (w : World) (self : Nat) (error : error_code) : World :=
  if error.ok then
    match w.engines[self]? with
    | none => w
    | some t =>
      match w.lock t.handler_ with
      | none => w
      | some h => (internal_timer.arm (w.acquire h) self).release h
  else w

/-- Method `internal_timer::handle_timeout`, the completion callback of the wait.
The second component is the exception that leaves the callback, if any; an
exception that is not caught skips the rest of the body. -/
def internal_timer.handle_timeout (w : World) (self : Nat) (error : error_code)
    (act : handler_action) : World × Option thrown :=
  let r := internal_timer.fire w self error act
  match r.2 with
  | some x => (r.1, some x)
  | none => (internal_timer.reschedule r.1 self error, none)

/-- A step of the system: a call on the facade from outside any callback; the
execution context running the callback of the oldest outstanding wait of an
engine, with a status, the callable behaving as `act` if it is invoked; or
time passing. -/
inductive Action where
  | call (c : Call)
  | complete (engine : Nat) (error : error_code) (act : handler_action)
  | advance (d : Nat)
deriving DecidableEq

/-- Modelled from the spec: the execution context takes the oldest outstanding
wait of engine `e` off its timer in order to run its callback (each callback
runs exactly once per submission). `none` when there is no such wait. -/
def World.take_wait (w : World) (e : Nat) : Option (wait_op × World) :=
  match w.engines[e]? with
  | none => none
  | some t =>
    match t.timer_.waits with
    | [] => none
    | op :: rest =>
      some (op, w.with_engine e (fun t => { t with timer_ := { t.timer_ with waits := rest } }))

/-- The step function; `none` when the action is not possible (a completion
for an engine without an outstanding wait). An exception that leaves the
callback is handed to the execution context and does not alter the timer. -/
def World.step (w : World) : Action → Option World
  | .call c => some (w.call c)
  | .complete e error act =>
    match w.take_wait e with
    | none => none
    | some (_, w1) => some (internal_timer.handle_timeout w1 e error act).1
  | .advance d => some { w with now := w.now + d }

/-- Run a sequence of steps. -/
def World.exec (w : World) : List Action → Option World
  | [] => some w
  | a :: as =>
    match w.step a with
    | none => none
    | some w1 => w1.exec as

/-- The states reachable from construction. -/
inductive Reachable : World → Prop where
  | init : Reachable World.init
  | step {w w1 : World} (a : Action) : Reachable w → w.step a = some w1 → Reachable w1

/-- The engine object that `start` creates. -/
def fresh_engine (now : Time) (repeat_interval : Duration) (handler : Nat) : internal_timer :=
  { timer_ := { expiry := some (now + repeat_interval),
                waits := [{ deadline := some (now + repeat_interval), cancelled := false }] },
    handler_ := some handler, interval_ := repeat_interval }

/-- The ownership invariant. `held` is the handler object owned by the local
`shared_ptr` of a completion callback in progress (`none` between steps).
* `counts`: the owners of a handler object are the facade member and that local.
* `paired`: the two facade members are set or empty together.
* `owned`: the engine of the facade refers to the handler of the facade.
* `unique`: an engine that refers to the handler of the facade is its engine.
* `valid`: a weak reference designates an object that was created.
* `single`: an engine has at most one outstanding wait. -/
structure Coherent (held : Option Nat) (w : World) : Prop where
  counts : ∀ h, w.use_count h =
    (if w.facade.handler_ = some h then 1 else 0) + (if held = some h then 1 else 0)
  paired : w.facade.handler_.isSome = w.facade.timer_.isSome
  owned : ∀ e, w.facade.timer_ = some e →
    ∃ t : internal_timer, w.engines[e]? = some t ∧ t.handler_ = w.facade.handler_
  unique : ∀ (e : Nat) (t : internal_timer), w.engines[e]? = some t →
    t.handler_.isSome = true → t.handler_ = w.facade.handler_ → w.facade.timer_ = some e
  valid : ∀ (e : Nat) (t : internal_timer) (h : Nat), w.engines[e]? = some t →
    t.handler_ = some h → h < w.handlers.length
  single : ∀ (e : Nat) (t : internal_timer), w.engines[e]? = some t →
    t.timer_.waits.length ≤ 1

/-- The engine an event belongs to. -/
def Event.engine : Event → Nat
  | .invoke e _ _ _ _ => e
  | .wait e _ _ => e

/-- Whether the event is a handler invocation. -/
def Event.is_invoke : Event → Bool
  | .invoke _ _ _ _ _ => true
  | .wait _ _ _ => false

/-- What every operation keeps of an earlier world `w` in a later world `w1`:
objects are never removed, the weak reference of an engine never changes, a
destroyed handler object stays destroyed, and a handler object keeps its
callable. -/
structure Frame (w w1 : World) : Prop where
  engines_le : w.engines.length ≤ w1.engines.length
  handlers_le : w.handlers.length ≤ w1.handlers.length
  engine : ∀ (e : Nat) (t : internal_timer), w.engines[e]? = some t →
    ∃ t1 : internal_timer, w1.engines[e]? = some t1 ∧ t1.handler_ = t.handler_
  dead : ∀ h : Nat, h < w.handlers.length → w.use_count h = 0 → w1.use_count h = 0
  func : ∀ (h : Nat) (o : handler_impl), w.handlers[h]? = some o →
    ∃ o1 : handler_impl, w1.handlers[h]? = some o1 ∧ o1.handler_func_ = o.handler_func_

/-- The callables of the handler objects created so far, in creation order. -/
def World.funcs (w : World) : List Nat :=
  w.handlers.map (fun o => o.handler_func_)

/-- The callable that a call registers, if it is a `start`. -/
def Call.started : Call → List Nat
  | .start _ handler => [handler]
  | _ => []

/-- The callables that a step can register: by its call, or by the calls that
the handler makes during a completion. -/
def Action.started : Action → List Nat
  | .call c => c.started
  | .complete _ _ act => act.calls.flatMap Call.started
  | .advance _ => []

/-! ## Sample worlds, for the closed instances of the theorems -/

/-- A handler invocation that makes no call and returns. -/
def handler_action.plain : handler_action := { calls := [], outcome := none }

/-- The world after `start(1000, 7)` at time 0 and one tick at time 1000. -/
def sample_running : World :=
  { now := 1000, facade := { timer_ := some 0, handler_ := some 0 },
    engines := [{ timer_ := { expiry := some 2000,
                              waits := [{ deadline := some 2000, cancelled := false }] },
                  handler_ := some 0, interval_ := 1000 }],
    handlers := [{ handler_func_ := 7, use_count := 1 }],
    log := [Event.wait 0 (some 1000) 0, Event.invoke 0 0 7 error_code.success 1000,
            Event.wait 0 (some 2000) 1000] }

/-- The world `sample_running` after `stop()` and the completion of the wait that
was outstanding. -/
def sample_stopped : World :=
  { now := 1000, facade := { timer_ := none, handler_ := none },
    engines := [{ timer_ := { expiry := some 2000, waits := [] },
                  handler_ := some 0, interval_ := 1000 }],
    handlers := [{ handler_func_ := 7, use_count := 0 }],
    log := [Event.wait 0 (some 1000) 0, Event.invoke 0 0 7 error_code.success 1000,
            Event.wait 0 (some 2000) 1000] }

/-- A step that makes no call on the facade: time passing, or a completion
during which the handler makes no call back into the timer. -/
def Action.quiet : Action → Bool
  | .call _ => false
  | .complete _ _ act => act.calls.isEmpty
  | .advance _ => true

/-- The cycle that `start(T, f)` began is the current one: the facade owns the
engine `e` and the handler object `h`, the engine refers to `h` and stores the
interval `T`, and `h` wraps `f` and is owned by the facade alone. -/
structure Active (w : World) (e h f : Nat) (T : Duration) : Prop where
  facade : w.facade = { timer_ := some e, handler_ := some h }
  engine : ∃ t : internal_timer, w.engines[e]? = some t ∧ t.handler_ = some h ∧ t.interval_ = T
  handler : w.handlers[h]? = some { handler_func_ := f, use_count := 1 }


/-! ## Locks -/

/-- The `boost::recursive_mutex` objects of the program: the member `lock_` of the
facade, and the member `lock_` of each engine. -/
inductive mutex_id where
  | facade
  | engine (e : Nat)
deriving DecidableEq

/-- A `scoped_lock` on a mutex is constructed (`acquire`) or destroyed
(`release`). -/
inductive lock_op where
  | acquire (m : mutex_id)
  | release (m : mutex_id)
deriving DecidableEq

/-- The `scoped_lock` operations of one call on the facade, in program order.
Every method holds a guard on the facade's `lock_` for its whole body. Inside,
`start`, `stop` and `cancel` call `timer_->cancel()` when `timer_` is set, and
`change_interval` calls `timer_->change_interval()` when `timer_` is set; both
engine methods hold a guard on the engine's `lock_`. `internal_timer::create` and
`internal_timer::start` take no lock. -/
def basic_repeating_timer.lock_ops (w : World) : Call → List lock_op
  | .start _ _ | .stop | .cancel | .change_interval _ =>
    [lock_op.acquire mutex_id.facade] ++
    (match w.facade.timer_ with
      | some e => [lock_op.acquire (mutex_id.engine e), lock_op.release (mutex_id.engine e)]
      | none => []) ++
    [lock_op.release mutex_id.facade]

/-- The `scoped_lock` operations of a sequence of calls, each call in the world
that the calls before it have left. -/
def World.calls_lock_ops (w : World) : List Call → List lock_op
  | [] => []
  | c :: cs => basic_repeating_timer.lock_ops w c ++ (w.call c).calls_lock_ops cs

/-- The `scoped_lock` operations of `internal_timer::handle_timeout`: the guard on
the engine's `lock_` for the whole body (released also when an exception
leaves the callback), and inside, when the handler is invoked, the operations
of the calls that the handler makes. -/
def internal_timer.lock_ops (w : World) (self : Nat) (act : handler_action) : List lock_op :=
  [lock_op.acquire (mutex_id.engine self)] ++
  (match w.engines[self]? with
    | none => []
    | some t =>
      match w.lock t.handler_ with
      | none => []
      | some h => (w.acquire h).calls_lock_ops act.calls) ++
  [lock_op.release (mutex_id.engine self)]

/-- Modelled from the spec: the locks, seen from the thread that runs the
operations, every mutex that it does not hold being free. `held` lists the
guards of the thread, innermost first. With a reentrant mutex (the
`boost::recursive_mutex` of the source) the thread can acquire a mutex that it
already holds; with a plain mutex (`reentrant = false`) that acquisition never
returns, which is the result `none`. Guards are destroyed in reverse order of
construction. -/
def run_lock_ops (reentrant : Bool) : List mutex_id → List lock_op → Option (List mutex_id)
  | held, [] => some held
  | held, lock_op.acquire m :: ops =>
    if reentrant || !(held.contains m) then run_lock_ops reentrant (m :: held) ops else none
  | held, lock_op.release m :: ops =>
    match held with
    | m1 :: rest => if m1 = m then run_lock_ops reentrant rest ops else none
    | [] => none

/-- Whether a call drops the facade's owning reference to the current handler. -/
def Call.revokes : Call → Bool
  | .start _ _ => true
  | .stop => true
  | .cancel => true
  | .change_interval _ => false

/-! ## Statuses that come from `cancel()` only -/

/-- Whether a step respects the contract of the single-shot timer as far as
cancellation goes: a completion carries a status other than ok only if the wait
that completes was cancelled. -/
def World.honest (w : World) : Action → Bool
  | .complete e error _ =>
    error.ok ||
      (match w.take_wait e with
        | some (op, _) => op.cancelled
        | none => false)
  | _ => true

/-- Whether all the steps of a run respect that contract, each in the world
where it takes place. -/
def World.honest_run (w : World) : List Action → Bool
  | [] => true
  | a :: as =>
    w.honest a &&
      (match w.step a with
        | some w1 => w1.honest_run as
        | none => true)

/-- Cancellation comes after revocation. `held` is the handler object owned by
the local `shared_ptr` of a completion callback in progress (`none` between
steps).
* `revoked`: a cancelled wait belongs to an engine whose handler object is
  destroyed.
* `idle`: an engine that refers to the handler object of the callback in
  progress has no outstanding wait. -/
structure CancelSafe (held : Option Nat) (w : World) : Prop where
  revoked : ∀ (e : Nat) (t : internal_timer) (op : wait_op) (h : Nat),
    w.engines[e]? = some t → op ∈ t.timer_.waits → op.cancelled = true →
    t.handler_ = some h → w.use_count h = 0
  idle : ∀ (e : Nat) (t : internal_timer) (h : Nat), w.engines[e]? = some t →
    t.handler_ = some h → held = some h → t.timer_.waits = []

/-! ## Timed runs of one cycle

In a step of `World.step` the callback of a completion takes no time. In the
source the callable runs (`Handler->handler(error)`) before the second block
reads the clock (`timer_.expires_from_now( interval_ )`). The timed runs below
let time pass in between. -/

/-- The completion callback of engine `self` when the callable makes no call on
the timer, returns, and takes the time `busy`: the first block executes at the
time at which the callback begins, the clock moves on by `busy` while the
callable runs, and the second block executes after that, so that
`expires_from_now` reads the later clock. The body is that of
`internal_timer.handle_timeout`, with the clock moved between the two blocks. -/
def internal_timer.handle_timeout_busy (w : World) (self : Nat) (error : error_code)
    (busy : Nat) : World × Option thrown :=
  let r := internal_timer.fire w self error handler_action.plain
  let w1 := { r.1 with now := r.1.now + busy }
  match r.2 with
  | some x => (w1, some x)
  | none => (internal_timer.reschedule w1 self error, none)

/-- The execution context runs the callback of the oldest outstanding wait of
engine `e`, with status ok, `late` after the deadline of that wait, and the
callable takes the time `busy`: the clock moves forward to deadline + `late`,
the wait is taken off the timer, and the callback runs. `none` when there is no
such wait, or when that time is already past. -/
def World.dispatch (w : World) (e : Nat) (late busy : Nat) : Option World :=
  match w.engines[e]? with
  | none => none
  | some t =>
    match t.timer_.waits with
    | [] => none
    | op :: _ =>
      match op.deadline with
      | none => none
      | some D =>
        if w.now ≤ D + late then
          match World.take_wait { w with now := D + late } e with
          | none => none
          | some (_, w1) =>
            some (internal_timer.handle_timeout_busy w1 e error_code.success busy).1
        else none

/-- One item of a timed run of the cycle of an engine: a tick dispatched `late`
after its deadline, the callable taking the time `busy`; or a `change_interval`
call from outside, between two ticks. -/
inductive Beat where
  | tick (late busy : Nat)
  | retune (T : Duration)
deriving DecidableEq

/-- One item of a timed run, for the engine `e`. -/
def World.beat (w : World) (e : Nat) : Beat → Option World
  | .tick late busy => w.dispatch e late busy
  | .retune T => w.step (Action.call (Call.change_interval T))

/-- A timed run, for the engine `e`. -/
def World.beats (w : World) (e : Nat) : List Beat → Option World
  | [] => some w
  | b :: bs =>
    match w.beat e b with
    | none => none
    | some w1 => w1.beats e bs

/-- The invocation times of a timed run, given the interval `I` now stored and
the deadline `D` of the outstanding wait: a tick dispatched `late` after its
deadline is an invocation at `D + late`; its re-arm comes `busy` later, and the
next deadline is the time of the re-arm plus the interval then stored; a
`change_interval` replaces the stored interval and leaves the deadline of the
outstanding wait alone. -/
def beat_times (I : Duration) (D : Time) : List Beat → List Time
  | [] => []
  | Beat.retune T :: bs => beat_times T D bs
  | Beat.tick late busy :: bs => (D + late) :: beat_times I (D + late + busy + I) bs

/-- The ticks of a timed run, each with the interval that is stored when its
callback re-arms (given the interval `I` now stored), its lateness, and the
time its callable takes. -/
def beat_ticks (I : Duration) : List Beat → List (Duration × Nat × Nat)
  | [] => []
  | Beat.retune T :: bs => beat_ticks T bs
  | Beat.tick late busy :: bs => (I, late, busy) :: beat_ticks I bs

/-- An interval set from outside during a timed run is not negative. -/
def Beat.steady : Beat → Prop
  | .tick _ _ => True
  | .retune T => 0 ≤ T

/-- The world after `start(1000, 7)` at time 0, a tick dispatched 5 late (at
1005) whose callable takes 3, `change_interval(500)`, and a tick dispatched on
time (at 2008) whose callable takes no time. -/
def sample_late : World :=
  { now := 2008, facade := { timer_ := some 0, handler_ := some 0 },
    engines := [{ timer_ := { expiry := some 2508,
                              waits := [{ deadline := some 2508, cancelled := false }] },
                  handler_ := some 0, interval_ := 500 }],
    handlers := [{ handler_func_ := 7, use_count := 1 }],
    log := [Event.wait 0 (some 1000) 0, Event.invoke 0 0 7 error_code.success 1005,
            Event.wait 0 (some 2008) 1008, Event.invoke 0 0 7 error_code.success 2008,
            Event.wait 0 (some 2508) 2008] }

/-- The world after `start(1000, 7)` at time 0 and three ticks, each dispatched
at its deadline, whose callable takes 2, 0 and 3: the invocations are at 1000,
2002 and 3002. -/
def sample_three_ticks : World :=
  { now := 3005, facade := { timer_ := some 0, handler_ := some 0 },
    engines := [{ timer_ := { expiry := some 4005,
                              waits := [{ deadline := some 4005, cancelled := false }] },
                  handler_ := some 0, interval_ := 1000 }],
    handlers := [{ handler_func_ := 7, use_count := 1 }],
    log := [Event.wait 0 (some 1000) 0, Event.invoke 0 0 7 error_code.success 1000,
            Event.wait 0 (some 2002) 1002, Event.invoke 0 0 7 error_code.success 2002,
            Event.wait 0 (some 3002) 2002, Event.invoke 0 0 7 error_code.success 3002,
            Event.wait 0 (some 4005) 3005] }

/-! ## A call of `stop()` racing with a completion callback

Two threads: one executes `basic_repeating_timer::stop()`, the other is the
execution context running `internal_timer::handle_timeout` for a wait that it
has taken off the timer of an engine. Each thread executes its statements in
program order; the statements of the two threads interleave in any order that
the two mutexes allow. -/

/-- The program points of `basic_repeating_timer::stop()`; each one names the
statement that the thread executes next. -/
inductive stop_pc where
  /-- Construction of the guard on the facade's `lock_`. -/
  | enter
  /-- The statement `handler_.reset()`. -/
  | reset_handler
  /-- The test `if( timer_ )`. -/
  | test_timer
  /-- Inside `timer_->cancel()` for engine `c`: construction of the guard on the
  engine's `lock_`. -/
  | cancel_enter (c : Nat)
  /-- Inside `timer_->cancel()`: the statement `timer_.cancel()`. -/
  | cancel_timer (c : Nat)
  /-- Inside `timer_->cancel()`: destruction of the guard on the engine's `lock_`. -/
  | cancel_leave (c : Nat)
  /-- The statement `timer_.reset()`. -/
  | reset_timer
  /-- Destruction of the guard on the facade's `lock_`. -/
  | leave
  /-- The call has returned. -/
  | returned
deriving DecidableEq

/-- The program points of `internal_timer::handle_timeout`; each one names the
statement that the thread executes next. -/
inductive timeout_pc where
  /-- Construction of the guard on the engine's `lock_`. -/
  | enter
  /-- First block: `Handler = handler_.lock()` and the test `if( Handler )`. -/
  | lock_first
  /-- First block: the call `Handler->handler(error)` begins; the local
  `shared_ptr` owns the handler object `h`. -/
  | invoke (h : Nat)
  /-- Inside the callable: the calls that it still makes on the facade; when
  none is left the callable ends and the first block is left. -/
  | calling (h : Nat) (cs : List Call)
  /-- The test `if( !error )`. -/
  | test_error
  /-- Second block: `Handler = handler_.lock()` and the test `if( Handler )`. -/
  | lock_second
  /-- Second block: `timer_.expires_from_now( interval_ ); timer_.async_wait( ... )`;
  the local `shared_ptr` owns the handler object `h`. -/
  | rearm (h : Nat)
  /-- Second block: the local `shared_ptr` leaves scope. -/
  | drop_second (h : Nat)
  /-- Destruction of the guard on the engine's `lock_`. -/
  | leave
  /-- The callback has returned, or an exception has left it. -/
  | returned
deriving DecidableEq

/-- Whether the thread in `stop()` holds the facade's `lock_`. -/
def stop_pc.holds_facade : stop_pc → Bool
  | .enter => false
  | .returned => false
  | _ => true

/-- Whether the thread in `stop()` holds the `lock_` of engine `e`. -/
def stop_pc.holds_engine (e : Nat) : stop_pc → Bool
  | .cancel_timer c => c == e
  | .cancel_leave c => c == e
  | _ => false

/-- Whether the thread in the callback holds the `lock_` of its engine. -/
def timeout_pc.holds_engine : timeout_pc → Bool
  | .enter => false
  | .returned => false
  | _ => true

/-- The state of the race: the shared world and the program point of each of
the two threads. -/
structure Race where
  w : World
  stop_at : stop_pc
  timeout_at : timeout_pc
deriving DecidableEq

/-- The thread in `stop()` executes its next statement; `none` when it is
blocked: the guard of `internal_timer::cancel` cannot be constructed while the
callback of that engine holds the engine's `lock_`. The statements are those of
`basic_repeating_timer.cleanup`, one by one. A thread that has returned does
nothing. -/
def Race.stop_step (e : Nat) (r : Race) : Option Race :=
  match r.stop_at with
  | .enter => some { r with stop_at := .reset_handler }
  | .reset_handler =>
    some { r with w := basic_repeating_timer.reset_handler r.w, stop_at := .test_timer }
  | .test_timer =>
    match r.w.facade.timer_ with
    | some c => some { r with stop_at := .cancel_enter c }
    | none => some { r with stop_at := .reset_timer }
  | .cancel_enter c =>
    if c = e ∧ r.timeout_at.holds_engine = true then none
    else some { r with stop_at := .cancel_timer c }
  | .cancel_timer c =>
    some { r with w := internal_timer.cancel r.w c, stop_at := .cancel_leave c }
  | .cancel_leave _ => some { r with stop_at := .reset_timer }
  | .reset_timer =>
    some { r with w := { r.w with facade := { r.w.facade with timer_ := none } },
                  stop_at := .leave }
  | .leave => some { r with stop_at := .returned }
  | .returned => some r

/-- The thread running `internal_timer::handle_timeout` of engine `e`, with status
`error`, executes its next statement; `none` when it is blocked: the guard of
the callback cannot be constructed while `stop()` holds the engine's `lock_`
inside `internal_timer::cancel`, and a call that the callable makes on the
facade cannot begin while `stop()` holds the facade's `lock_`. Such a call
holds the facade's `lock_` for its whole body, so it is one statement here. The
statements are those of `internal_timer.fire` and `internal_timer.reschedule`,
one by one. A thread that has returned does nothing. -/
def Race.timeout_step (e : Nat) (error : error_code) (act : handler_action) (r : Race) :
    Option Race :=
  match r.timeout_at with
  | .enter =>
    if r.stop_at.holds_engine e = true then none
    else some { r with timeout_at := .lock_first }
  | .lock_first =>
    match r.w.engines[e]? with
    | none => some { r with timeout_at := .test_error }
    | some t =>
      match r.w.lock t.handler_ with
      | none => some { r with timeout_at := .test_error }
      | some h => some { r with w := r.w.acquire h, timeout_at := .invoke h }
  | .invoke h =>
    let func := match r.w.handlers[h]? with
      | some o => o.handler_func_
      | none => 0
    some { r with
      w := { r.w with log := r.w.log ++ [Event.invoke e h func error r.w.now] },
      timeout_at := .calling h act.calls }
  | .calling h (c :: cs) =>
    if r.stop_at.holds_facade = true then none
    else some { r with w := r.w.call c, timeout_at := .calling h cs }
  | .calling h [] =>
    match act.outcome with
    | some thrown.other => some { r with w := r.w.release h, timeout_at := .returned }
    | _ => some { r with w := r.w.release h, timeout_at := .test_error }
  | .test_error =>
    if error.ok = true then some { r with timeout_at := .lock_second }
    else some { r with timeout_at := .leave }
  | .lock_second =>
    match r.w.engines[e]? with
    | none => some { r with timeout_at := .leave }
    | some t =>
      match r.w.lock t.handler_ with
      | none => some { r with timeout_at := .leave }
      | some h => some { r with w := r.w.acquire h, timeout_at := .rearm h }
  | .rearm h => some { r with w := internal_timer.arm r.w e, timeout_at := .drop_second h }
  | .drop_second h => some { r with w := r.w.release h, timeout_at := .leave }
  | .leave => some { r with timeout_at := .returned }
  | .returned => some r

/-- One move of an interleaving: the thread in `stop()` executes a statement,
the thread in the callback executes a statement, or time passes. -/
inductive Move where
  | caller
  | context
  | advance (d : Nat)
deriving DecidableEq

/-- One move of the race for the callback of engine `e`. -/
def Race.step (e : Nat) (error : error_code) (act : handler_action) (r : Race) :
    Move → Option Race
  | .caller => r.stop_step e
  | .context => r.timeout_step e error act
  | .advance d => some { r with w := { r.w with now := r.w.now + d } }

/-- An interleaving: the moves in order; `none` when a move is not possible. -/
def Race.run (e : Nat) (error : error_code) (act : handler_action) (r : Race) :
    List Move → Option Race
  | [] => some r
  | m :: ms =>
    match r.step e error act m with
    | none => none
    | some r1 => r1.run e error act ms

/-- The handler object that the local `shared_ptr` of the callback owns. -/
def timeout_pc.held : timeout_pc → Option Nat
  | .invoke h => some h
  | .calling h _ => some h
  | .rearm h => some h
  | .drop_second h => some h
  | _ => none

/-- The callback is about to produce an event of its engine: the handler
invocation is about to begin, or the wait is about to be submitted. -/
def timeout_pc.pending : timeout_pc → Bool
  | .invoke _ => true
  | .rearm _ => true
  | _ => false

/-- The thread in `stop()` has executed `handler_.reset()`. -/
def stop_pc.past_reset : stop_pc → Bool
  | .enter => false
  | .reset_handler => false
  | _ => true

/-- The thread in `stop()` has yet to construct the guard on the `lock_` of
engine `e` before it can return: it has not tested `timer_` yet and `timer_`
is `e`, or it is about to construct that guard. -/
def stop_pc.must_wait (e : Nat) (w : World) : stop_pc → Prop
  | .enter => w.facade.timer_ = some e
  | .reset_handler => w.facade.timer_ = some e
  | .test_timer => w.facade.timer_ = some e
  | .cancel_enter c => c = e
  | _ => False

/-- The invariant of the race for the callback of engine `e`, whose weak
reference is `r0`.
* `engine`: the engine keeps its weak reference.
* `valid`: the reference designates an object that was created.
* `owner`: the local `shared_ptr` of the callback, when set, owns that object.
* `counts`: the owners of that object are the facade member and that local.
* `revoked`: once `stop()` has executed `handler_.reset()`, the facade member
  is not that object.
* `owned`: while the facade member is that object, the facade's engine is `e`.
* `pending`: while the callback is about to produce an event, `stop()` has
  yet to pass the guard of `internal_timer::cancel` for engine `e`. -/
structure RaceSafe (e : Nat) (r0 : Option Nat) (r : Race) : Prop where
  engine : ∃ t : internal_timer, r.w.engines[e]? = some t ∧ t.handler_ = r0
  valid : ∀ h, r0 = some h → h < r.w.handlers.length
  owner : r.timeout_at.held = none ∨ r.timeout_at.held = r0
  counts : ∀ h, r0 = some h → r.w.use_count h =
    (if r.w.facade.handler_ = some h then 1 else 0) +
    (if r.timeout_at.held = some h then 1 else 0)
  revoked : r.stop_at.past_reset = true → ∀ h, r0 = some h → r.w.facade.handler_ ≠ some h
  owned : ∀ h, r0 = some h → r.w.facade.handler_ = some h → r.w.facade.timer_ = some e
  pending : r.timeout_at.pending = true → r.stop_at.must_wait e r.w

/-- The world `sample_running` with the outstanding wait of engine 0 taken off
its timer: the callback of that wait is about to run. -/
def sample_in_flight : World :=
  { sample_running with
    engines := [{ timer_ := { expiry := some 2000, waits := [] },
                  handler_ := some 0, interval_ := 1000 }] }

/-- The world after the race in which, from `sample_in_flight`, the callback of
engine 0 begins the invocation, `stop()` runs up to the guard of
`internal_timer::cancel` and waits there, the callback finds its handler gone
and ends without a new wait, and `stop()` completes. -/
def sample_raced : World :=
  { now := 1000, facade := { timer_ := none, handler_ := none },
    engines := [{ timer_ := { expiry := some 2000, waits := [] },
                  handler_ := some 0, interval_ := 1000 }],
    handlers := [{ handler_func_ := 7, use_count := 0 }],
    log := [Event.wait 0 (some 1000) 0, Event.invoke 0 0 7 error_code.success 1000,
            Event.wait 0 (some 2000) 1000, Event.invoke 0 0 7 error_code.success 1000] }

/-! ## Heap lemmas -/

theorem length_modify_at {α : Type} (xs : List α) (i : Nat) (f : α → α) :
    (modify_at xs i f).length = xs.length := by
  unfold modify_at
  split <;> simp

theorem getElem?_modify_at_self {α : Type} (xs : List α) (i : Nat) (f : α → α) :
    (modify_at xs i f)[i]? = (xs[i]?).map f := by
  unfold modify_at
  split
  · rename_i x hx
    simp [hx, List.getElem?_set_self']
  · rename_i hx
    simp [hx]

theorem getElem?_modify_at_ne {α : Type} (xs : List α) {i j : Nat} (f : α → α) (h : i ≠ j) :
    (modify_at xs i f)[j]? = xs[j]? := by
  unfold modify_at
  split
  · simp [List.getElem?_set_ne h]
  · rfl

theorem modify_at_id {α : Type} (xs : List α) (i : Nat) (f : α → α)
    (h : ∀ x, xs[i]? = some x → f x = x) : modify_at xs i f = xs := by
  apply List.ext_getElem?
  intro j
  by_cases hij : i = j
  · subst hij
    rw [getElem?_modify_at_self]
    cases hx : xs[i]? with
    | none => rfl
    | some x => simp [h x hx]
  · rw [getElem?_modify_at_ne xs f hij]

theorem modify_at_modify_at {α : Type} (xs : List α) (i : Nat) (f g : α → α) :
    modify_at (modify_at xs i f) i g = modify_at xs i (g ∘ f) := by
  apply List.ext_getElem?
  intro j
  by_cases hij : i = j
  · subst hij
    simp [getElem?_modify_at_self]
  · simp [getElem?_modify_at_ne _ _ hij]

theorem use_count_lt {w : World} {h : Nat} (hp : 0 < w.use_count h) : h < w.handlers.length := by
  unfold World.use_count at hp
  cases hx : w.handlers[h]? with
  | none => simp [hx] at hp
  | some o => exact (List.getElem?_eq_some_iff.mp hx).1

theorem lock_eq_some {w : World} {r : Option Nat} {h : Nat} :
    w.lock r = some h ↔ r = some h ∧ 0 < w.use_count h := by
  unfold World.lock
  cases r with
  | none => simp
  | some k =>
    by_cases hk : 0 < w.use_count k
    · simp only [hk, if_true, Option.some.injEq]
      constructor
      · intro e; subst e; exact ⟨rfl, hk⟩
      · intro e; exact e.1
    · simp only [hk, if_false, Option.some.injEq]
      constructor
      · intro e; cases e
      · intro e; rcases e with ⟨e1, e2⟩; subst e1; exact absurd e2 hk

theorem lock_eq_none {w : World} {r : Option Nat} :
    w.lock r = none ↔ ∀ h, r = some h → w.use_count h = 0 := by
  unfold World.lock
  cases r with
  | none => simp
  | some k =>
    by_cases hk : 0 < w.use_count k
    · simp only [hk, if_true]
      constructor
      · intro e; cases e
      · intro e; have := e k rfl; omega
    · simp only [hk, if_false, true_iff]
      intro h e; cases e; omega

theorem use_count_acquire_self (w : World) (h : Nat) (hp : 0 < w.use_count h) :
    (w.acquire h).use_count h = w.use_count h + 1 := by
  unfold World.use_count at hp ⊢
  unfold World.acquire
  simp only [getElem?_modify_at_self]
  cases hx : w.handlers[h]? with
  | none => simp [hx] at hp
  | some o => simp

theorem use_count_acquire_ne (w : World) {h k : Nat} (hne : h ≠ k) :
    (w.acquire h).use_count k = w.use_count k := by
  unfold World.use_count World.acquire
  simp only [getElem?_modify_at_ne _ _ hne]

theorem use_count_release_self (w : World) (h : Nat) :
    (w.release h).use_count h = w.use_count h - 1 := by
  unfold World.use_count World.release
  simp only [getElem?_modify_at_self]
  cases hx : w.handlers[h]? with
  | none => simp
  | some o => simp

theorem use_count_release_ne (w : World) {h k : Nat} (hne : h ≠ k) :
    (w.release h).use_count k = w.use_count k := by
  unfold World.use_count World.release
  simp only [getElem?_modify_at_ne _ _ hne]

theorem release_acquire (w : World) (h : Nat) : (w.acquire h).release h = w := by
  unfold World.acquire World.release
  simp only [modify_at_modify_at]
  have : modify_at w.handlers h
      ((fun o : handler_impl => { o with use_count := o.use_count - 1 }) ∘
        (fun o : handler_impl => { o with use_count := o.use_count + 1 })) = w.handlers := by
    apply modify_at_id
    intro x _
    simp
  rw [this]


/-! ## What each operation does to each component of the world -/

theorem cleanup_facade (w : World) :
    (basic_repeating_timer.cleanup w).facade = { timer_ := none, handler_ := none } := by
  unfold basic_repeating_timer.cleanup basic_repeating_timer.reset_handler
    internal_timer.cancel World.with_engine World.release
  cases h1 : w.facade.handler_ <;> cases h2 : w.facade.timer_ <;> simp [h1, h2]

theorem cleanup_now (w : World) : (basic_repeating_timer.cleanup w).now = w.now := by
  unfold basic_repeating_timer.cleanup basic_repeating_timer.reset_handler
    internal_timer.cancel World.with_engine World.release
  cases h1 : w.facade.handler_ <;> cases h2 : w.facade.timer_ <;> simp [h1, h2]

theorem cleanup_log (w : World) : (basic_repeating_timer.cleanup w).log = w.log := by
  unfold basic_repeating_timer.cleanup basic_repeating_timer.reset_handler
    internal_timer.cancel World.with_engine World.release
  cases h1 : w.facade.handler_ <;> cases h2 : w.facade.timer_ <;> simp [h1, h2]

theorem cleanup_handlers (w : World) :
    (basic_repeating_timer.cleanup w).handlers =
      match w.facade.handler_ with
      | some h => (w.release h).handlers
      | none => w.handlers := by
  unfold basic_repeating_timer.cleanup basic_repeating_timer.reset_handler
    internal_timer.cancel World.with_engine World.release
  cases h1 : w.facade.handler_ <;> cases h2 : w.facade.timer_ <;> simp [h1, h2]

theorem cleanup_engines (w : World) :
    (basic_repeating_timer.cleanup w).engines =
      match w.facade.timer_ with
      | some e => modify_at w.engines e (fun t => { t with timer_ := t.timer_.cancel })
      | none => w.engines := by
  unfold basic_repeating_timer.cleanup basic_repeating_timer.reset_handler
    internal_timer.cancel World.with_engine World.release
  cases h1 : w.facade.handler_ <;> cases h2 : w.facade.timer_ <;> simp [h1, h2]

theorem start_eq (w : World) (T : Duration) (f : Nat) :
    basic_repeating_timer.start w T f =
      { now := w.now,
        facade := { timer_ := some (basic_repeating_timer.cleanup w).engines.length,
                    handler_ := some (basic_repeating_timer.cleanup w).handlers.length },
        engines := (basic_repeating_timer.cleanup w).engines ++
          [fresh_engine w.now T (basic_repeating_timer.cleanup w).handlers.length],
        handlers := (basic_repeating_timer.cleanup w).handlers ++
          [{ handler_func_ := f, use_count := 1 }],
        log := w.log ++ [Event.wait (basic_repeating_timer.cleanup w).engines.length
          (some (w.now + T)) w.now] } := by
  unfold basic_repeating_timer.start internal_timer.create internal_timer.start
    internal_timer.arm World.with_engine fresh_engine
  simp [getElem?_modify_at_self, modify_at, deadline_timer.expires_from_now,
    deadline_timer.async_wait, cleanup_now, cleanup_log]


/-! ## The ownership invariant is preserved -/

theorem Coherent.init : Coherent none World.init := by
  constructor <;> simp [World.init, World.use_count]

/-- A change that keeps the facade and the handler objects, and keeps the weak
reference of every engine, preserves the invariant as soon as no engine ends
up with two waits. -/
theorem Coherent.frame {held : Option Nat} {w w1 : World} (hi : Coherent held w)
    (hf : w1.facade = w.facade) (hh : w1.handlers = w.handlers)
    (h1 : ∀ (e : Nat) (t1 : internal_timer), w1.engines[e]? = some t1 →
      ∃ t : internal_timer, w.engines[e]? = some t ∧ t1.handler_ = t.handler_)
    (h2 : ∀ (e : Nat) (t : internal_timer), w.engines[e]? = some t →
      ∃ t1 : internal_timer, w1.engines[e]? = some t1 ∧ t1.handler_ = t.handler_)
    (hs : ∀ (e : Nat) (t1 : internal_timer), w1.engines[e]? = some t1 →
      t1.timer_.waits.length ≤ 1) : Coherent held w1 := by
  constructor
  · intro h
    have := hi.counts h
    unfold World.use_count at this ⊢
    rw [hh, hf]; exact this
  · rw [hf]; exact hi.paired
  · intro e he
    rw [hf] at he ⊢
    obtain ⟨t, ht, hth⟩ := hi.owned e he
    obtain ⟨t1, ht1, h11⟩ := h2 e t ht
    exact ⟨t1, ht1, by rw [h11, hth]⟩
  · intro e t1 ht1 hsome heq
    rw [hf] at heq ⊢
    obtain ⟨t, ht, hth⟩ := h1 e t1 ht1
    exact hi.unique e t ht (by rw [← hth]; exact hsome) (by rw [← hth]; exact heq)
  · intro e t1 h ht1 hh1
    obtain ⟨t, ht, hth⟩ := h1 e t1 ht1
    rw [hh]
    exact hi.valid e t h ht (by rw [← hth]; exact hh1)
  · exact hs

theorem Coherent.with_engine {held : Option Nat} {w : World} (hi : Coherent held w) (e : Nat)
    (f : internal_timer → internal_timer) (hfh : ∀ t, (f t).handler_ = t.handler_)
    (hfw : ∀ t, (f t).timer_.waits.length ≤ t.timer_.waits.length) :
    Coherent held (w.with_engine e f) := by
  have key : ∀ k, (w.with_engine e f).engines[k]? = if e = k then (w.engines[k]?).map f
      else w.engines[k]? := by
    intro k
    unfold World.with_engine
    by_cases hk : e = k
    · subst hk; simp [getElem?_modify_at_self]
    · simp [getElem?_modify_at_ne _ _ hk, hk]
  refine @Coherent.frame held w (w.with_engine e f) hi rfl rfl ?_ ?_ ?_
  · intro k t1 ht1
    rw [key] at ht1
    by_cases hk : e = k
    · simp only [hk, if_true, Option.map_eq_some'] at ht1
      obtain ⟨t, ht, hft⟩ := ht1
      exact ⟨t, ht, by rw [← hft, hfh]⟩
    · simp only [hk, if_false] at ht1
      exact ⟨t1, ht1, rfl⟩
  · intro k t ht
    rw [key]
    by_cases hk : e = k
    · simp only [hk, if_true, ht, Option.map_some']
      exact ⟨f t, rfl, hfh t⟩
    · simp only [hk, if_false]
      exact ⟨t, ht, rfl⟩
  · intro k t1 ht1
    rw [key] at ht1
    by_cases hk : e = k
    · simp only [hk, if_true, Option.map_eq_some'] at ht1
      obtain ⟨t, ht, hft⟩ := ht1
      rw [← hft]
      exact Nat.le_trans (hfw t) (hi.single k t ht)
    · simp only [hk, if_false] at ht1
      exact hi.single k t1 ht1

theorem Coherent.of_log {held : Option Nat} {w : World} (hi : Coherent held w) (l : List Event) :
    Coherent held { w with log := l } :=
  ⟨hi.counts, hi.paired, hi.owned, hi.unique, hi.valid, hi.single⟩

theorem Coherent.of_now {held : Option Nat} {w : World} (hi : Coherent held w) (t : Time) :
    Coherent held { w with now := t } :=
  ⟨hi.counts, hi.paired, hi.owned, hi.unique, hi.valid, hi.single⟩

theorem Coherent.acquire {w : World} (hi : Coherent none w) {h : Nat} (hp : 0 < w.use_count h) :
    Coherent (some h) (w.acquire h) := by
  have hlen : (w.acquire h).handlers.length = w.handlers.length := by
    simp [World.acquire, length_modify_at]
  refine ⟨?_, hi.paired, hi.owned, hi.unique, ?_, hi.single⟩
  · intro k
    have hk := hi.counts k
    by_cases hhk : h = k
    · subst hhk
      rw [use_count_acquire_self w h hp, hk]
      simp [World.acquire]
    · rw [use_count_acquire_ne w hhk, hk]
      have : ¬ (some h = some k) := by simpa using hhk
      simp [this, World.acquire]
  · intro e t k ht htk
    rw [hlen]
    exact hi.valid e t k ht htk

theorem Coherent.release {w : World} {h : Nat} (hi : Coherent (some h) w) : Coherent none (w.release h) := by
  have hlen : (w.release h).handlers.length = w.handlers.length := by
    simp [World.release, length_modify_at]
  refine ⟨?_, hi.paired, hi.owned, hi.unique, ?_, hi.single⟩
  · intro k
    have hk := hi.counts k
    by_cases hhk : h = k
    · subst hhk
      rw [use_count_release_self, hk]
      simp [World.release]
    · rw [use_count_release_ne w hhk, hk]
      have : ¬ (some h = some k) := by simpa using hhk
      simp [this, World.release]
  · intro e t k ht htk
    rw [hlen]
    exact hi.valid e t k ht htk


theorem cleanup_engine (w : World) (e : Nat) :
    (basic_repeating_timer.cleanup w).engines[e]? =
      (w.engines[e]?).map (fun t =>
        if w.facade.timer_ = some e then { t with timer_ := t.timer_.cancel } else t) := by
  rw [cleanup_engines]
  cases h : w.facade.timer_ with
  | none => simp
  | some k =>
    by_cases hk : k = e
    · subst hk; simp [getElem?_modify_at_self]
    · simp [getElem?_modify_at_ne _ _ hk, hk]

theorem cleanup_handlers_length (w : World) :
    (basic_repeating_timer.cleanup w).handlers.length = w.handlers.length := by
  rw [cleanup_handlers]
  cases h : w.facade.handler_ <;> simp [World.release, length_modify_at]

theorem cleanup_engines_length (w : World) :
    (basic_repeating_timer.cleanup w).engines.length = w.engines.length := by
  rw [cleanup_engines]
  cases h : w.facade.timer_ <;> simp [length_modify_at]

theorem cleanup_use_count (w : World) (k : Nat) :
    (basic_repeating_timer.cleanup w).use_count k =
      if w.facade.handler_ = some k then w.use_count k - 1 else w.use_count k := by
  have : (basic_repeating_timer.cleanup w).use_count k =
      match w.facade.handler_ with
      | some h => (w.release h).use_count k
      | none => w.use_count k := by
    unfold World.use_count
    rw [cleanup_handlers]
    cases h : w.facade.handler_ <;> rfl
  rw [this]
  cases h : w.facade.handler_ with
  | none => simp
  | some j =>
    by_cases hk : j = k
    · subst hk; simp [use_count_release_self]
    · simp [use_count_release_ne w hk, hk]

theorem Coherent.cleanup {held : Option Nat} {w : World} (hi : Coherent held w) :
    Coherent held (basic_repeating_timer.cleanup w) := by
  constructor
  · intro k
    rw [cleanup_use_count, cleanup_facade, hi.counts k]
    by_cases hk : w.facade.handler_ = some k <;> simp [hk]
  · rw [cleanup_facade]
  · intro e he
    rw [cleanup_facade] at he
    cases he
  · intro e t _ hs heq
    rw [cleanup_facade] at heq
    rw [heq] at hs
    cases hs
  · intro e t h ht hth
    rw [cleanup_engine] at ht
    rw [cleanup_handlers_length]
    cases hx : w.engines[e]? with
    | none => simp [hx] at ht
    | some t0 =>
      simp only [hx, Option.map_some', Option.some.injEq] at ht
      apply hi.valid e t0 h hx
      rw [← hth, ← ht]
      split <;> rfl
  · intro e t ht
    rw [cleanup_engine] at ht
    cases hx : w.engines[e]? with
    | none => simp [hx] at ht
    | some t0 =>
      simp only [hx, Option.map_some', Option.some.injEq] at ht
      have := hi.single e t0 hx
      rw [← ht]
      split
      · simpa [deadline_timer.cancel] using this
      · exact this

theorem start_use_count (w : World) (T : Duration) (f : Nat) (k : Nat) :
    (basic_repeating_timer.start w T f).use_count k =
      if k = w.handlers.length then 1 else (basic_repeating_timer.cleanup w).use_count k := by
  unfold World.use_count
  rw [start_eq]
  simp only
  by_cases hk : k = w.handlers.length
  · subst hk
    have := List.getElem?_concat_length (basic_repeating_timer.cleanup w).handlers
      ({ handler_func_ := f, use_count := 1 } : handler_impl)
    rw [cleanup_handlers_length] at this
    simp [this]
  · simp only [hk, if_false]
    by_cases hlt : k < w.handlers.length
    · rw [List.getElem?_append_left (by rw [cleanup_handlers_length]; exact hlt)]
    · have h1 : (basic_repeating_timer.cleanup w).handlers.length ≤ k := by
        rw [cleanup_handlers_length]; omega
      have h2 : ((basic_repeating_timer.cleanup w).handlers ++
          [({ handler_func_ := f, use_count := 1 } : handler_impl)]).length ≤ k := by
        simp [cleanup_handlers_length]; omega
      rw [List.getElem?_eq_none h1, List.getElem?_eq_none h2]

theorem start_engine (w : World) (T : Duration) (f : Nat) (e : Nat) :
    (basic_repeating_timer.start w T f).engines[e]? =
      if e = w.engines.length then some (fresh_engine w.now T w.handlers.length)
      else (basic_repeating_timer.cleanup w).engines[e]? := by
  rw [start_eq]
  simp only
  by_cases he : e = w.engines.length
  · subst he
    have := List.getElem?_concat_length (basic_repeating_timer.cleanup w).engines
      (fresh_engine w.now T (basic_repeating_timer.cleanup w).handlers.length)
    rw [cleanup_engines_length, cleanup_handlers_length] at this
    simp [this, cleanup_handlers_length]
  · simp only [he, if_false]
    by_cases hlt : e < w.engines.length
    · rw [List.getElem?_append_left (by rw [cleanup_engines_length]; exact hlt)]
    · have h1 : (basic_repeating_timer.cleanup w).engines.length ≤ e := by
        rw [cleanup_engines_length]; omega
      have h2 : ((basic_repeating_timer.cleanup w).engines ++
          [fresh_engine w.now T (basic_repeating_timer.cleanup w).handlers.length]).length ≤ e := by
        simp [cleanup_engines_length]; omega
      rw [List.getElem?_eq_none h1, List.getElem?_eq_none h2]

theorem start_facade (w : World) (T : Duration) (f : Nat) :
    (basic_repeating_timer.start w T f).facade =
      { timer_ := some w.engines.length, handler_ := some w.handlers.length } := by
  rw [start_eq]
  simp [cleanup_engines_length, cleanup_handlers_length]

theorem start_handlers_length (w : World) (T : Duration) (f : Nat) :
    (basic_repeating_timer.start w T f).handlers.length = w.handlers.length + 1 := by
  rw [start_eq]
  simp [cleanup_handlers_length]

theorem start_engines_length (w : World) (T : Duration) (f : Nat) :
    (basic_repeating_timer.start w T f).engines.length = w.engines.length + 1 := by
  rw [start_eq]
  simp [cleanup_engines_length]

theorem Coherent.start {held : Option Nat} {w : World} (hi : Coherent held w)
    (T : Duration) (f : Nat) : Coherent held (basic_repeating_timer.start w T f) := by
  have hc := hi.cleanup
  have hheld : held ≠ some w.handlers.length := by
    intro hh
    have h1 := hi.counts w.handlers.length
    have h2 : w.use_count w.handlers.length = 0 := by
      unfold World.use_count
      rw [List.getElem?_eq_none (Nat.le_refl _)]
    rw [h2, hh] at h1
    simp at h1
  constructor
  · intro k
    rw [start_use_count, start_facade]
    by_cases hk : k = w.handlers.length
    · subst hk
      simp [hheld]
    · have h1 := hc.counts k
      rw [cleanup_facade] at h1
      have : ¬ (w.handlers.length = k) := fun h => hk h.symm
      simp only [hk, if_false, h1, Option.some.injEq, this]
      simp
  · rw [start_facade]; rfl
  · intro e he
    rw [start_facade] at he ⊢
    simp only [Option.some.injEq] at he
    subst he
    refine ⟨fresh_engine w.now T w.handlers.length, ?_, rfl⟩
    rw [start_engine]; simp
  · intro e t ht _ heq
    rw [start_facade] at heq ⊢
    rw [start_engine] at ht
    by_cases he : e = w.engines.length
    · rw [he]
    · simp only [he, if_false] at ht
      have := hc.valid e t w.handlers.length ht heq
      rw [cleanup_handlers_length] at this
      omega
  · intro e t h ht hth
    rw [start_engine] at ht
    rw [start_handlers_length]
    by_cases he : e = w.engines.length
    · simp only [he, if_true, Option.some.injEq] at ht
      rw [← ht] at hth
      simp only [fresh_engine, Option.some.injEq] at hth
      omega
    · simp only [he, if_false] at ht
      have := hc.valid e t h ht hth
      rw [cleanup_handlers_length] at this
      omega
  · intro e t ht
    rw [start_engine] at ht
    by_cases he : e = w.engines.length
    · simp only [he, if_true, Option.some.injEq] at ht
      rw [← ht]
      simp [fresh_engine]
    · simp only [he, if_false] at ht
      exact hc.single e t ht

theorem Coherent.change_interval {held : Option Nat} {w : World} (hi : Coherent held w)
    (T : Duration) : Coherent held (basic_repeating_timer.change_interval w T) := by
  unfold basic_repeating_timer.change_interval
  cases h : w.facade.timer_ with
  | none => exact hi
  | some e =>
    simp only
    unfold internal_timer.change_interval
    exact hi.with_engine e _ (fun _ => rfl) (fun _ => Nat.le_refl _)

theorem Coherent.call {held : Option Nat} {w : World} (hi : Coherent held w) (c : Call) :
    Coherent held (w.call c) := by
  cases c with
  | start T f => exact hi.start T f
  | stop => exact hi.cleanup
  | cancel => exact hi.cleanup
  | change_interval T => exact hi.change_interval T

theorem Coherent.calls {held : Option Nat} (cs : List Call) :
    ∀ {w : World}, Coherent held w → Coherent held (w.calls cs) := by
  induction cs with
  | nil => intro w hi; exact hi
  | cons c cs ih =>
    intro w hi
    exact ih (hi.call c)


/-! ## What operations keep -/

theorem Frame.refl (w : World) : Frame w w :=
  ⟨Nat.le_refl _, Nat.le_refl _, fun _ t ht => ⟨t, ht, rfl⟩, fun _ _ h => h,
    fun _ o ho => ⟨o, ho, rfl⟩⟩

theorem Frame.trans {w w1 w2 : World} (a : Frame w w1) (b : Frame w1 w2) : Frame w w2 := by
  constructor
  · exact Nat.le_trans a.engines_le b.engines_le
  · exact Nat.le_trans a.handlers_le b.handlers_le
  · intro e t ht
    obtain ⟨t1, ht1, h1⟩ := a.engine e t ht
    obtain ⟨t2, ht2, h2⟩ := b.engine e t1 ht1
    exact ⟨t2, ht2, by rw [h2, h1]⟩
  · intro h hlt h0
    exact b.dead h (Nat.lt_of_lt_of_le hlt a.handlers_le) (a.dead h hlt h0)
  · intro h o ho
    obtain ⟨o1, ho1, h1⟩ := a.func h o ho
    obtain ⟨o2, ho2, h2⟩ := b.func h o1 ho1
    exact ⟨o2, ho2, by rw [h2, h1]⟩

/-- A change of the engine objects alone that keeps every weak reference. -/
theorem Frame.of_engines {w w1 : World} (hh : w1.handlers = w.handlers)
    (hl : w.engines.length ≤ w1.engines.length)
    (he : ∀ (e : Nat) (t : internal_timer), w.engines[e]? = some t →
      ∃ t1 : internal_timer, w1.engines[e]? = some t1 ∧ t1.handler_ = t.handler_) :
    Frame w w1 := by
  refine ⟨hl, by rw [hh], he, ?_, ?_⟩
  · intro h _ h0
    unfold World.use_count at h0 ⊢
    rw [hh]; exact h0
  · intro h o ho
    exact ⟨o, by rw [hh]; exact ho, rfl⟩

theorem with_engine_get (w : World) (e : Nat) (f : internal_timer → internal_timer) (k : Nat) :
    (w.with_engine e f).engines[k]? =
      if e = k then (w.engines[k]?).map f else w.engines[k]? := by
  unfold World.with_engine
  by_cases hk : e = k
  · subst hk; simp [getElem?_modify_at_self]
  · simp [getElem?_modify_at_ne _ _ hk, hk]

theorem frame_with_engine (w : World) (e : Nat) (f : internal_timer → internal_timer)
    (hfh : ∀ t, (f t).handler_ = t.handler_) : Frame w (w.with_engine e f) := by
  refine @Frame.of_engines w (w.with_engine e f) rfl ?_ ?_
  · simp [World.with_engine, length_modify_at]
  · intro k t ht
    rw [with_engine_get]
    by_cases hk : e = k
    · simp only [hk, if_true, ht, Option.map_some']
      exact ⟨f t, rfl, hfh t⟩
    · simp only [hk, if_false]
      exact ⟨t, ht, rfl⟩

/-- A change of the use counts alone that revives no destroyed object. -/
theorem Frame.of_handlers {w w1 : World} (he : w1.engines = w.engines)
    (hl : w1.handlers.length = w.handlers.length)
    (hd : ∀ h : Nat, w.use_count h = 0 → w1.use_count h = 0)
    (hf : ∀ (h : Nat) (o : handler_impl), w.handlers[h]? = some o →
      ∃ o1 : handler_impl, w1.handlers[h]? = some o1 ∧ o1.handler_func_ = o.handler_func_) :
    Frame w w1 := by
  refine ⟨by rw [he], by rw [hl], ?_, fun h _ h0 => hd h h0, hf⟩
  intro e t ht
  exact ⟨t, by rw [he]; exact ht, rfl⟩

theorem modify_count_func (w : World) (h : Nat) (g : Nat → Nat) (k : Nat) (o : handler_impl)
    (ho : w.handlers[k]? = some o) :
    ∃ o1 : handler_impl, (modify_at w.handlers h
      (fun o => { o with use_count := g o.use_count }))[k]? = some o1
      ∧ o1.handler_func_ = o.handler_func_ := by
  by_cases hk : h = k
  · subst hk
    rw [getElem?_modify_at_self, ho]
    exact ⟨_, rfl, rfl⟩
  · rw [getElem?_modify_at_ne _ _ hk]
    exact ⟨o, ho, rfl⟩

theorem frame_acquire (w : World) (h : Nat) (hp : 0 < w.use_count h) : Frame w (w.acquire h) := by
  refine @Frame.of_handlers w (w.acquire h) rfl ?_ ?_ ?_
  · simp [World.acquire, length_modify_at]
  · intro k hk
    have hne : h ≠ k := by
      intro e; subst e; omega
    rw [use_count_acquire_ne w hne]; exact hk
  · intro k o ho
    exact modify_count_func w h (fun n => n + 1) k o ho

theorem frame_release (w : World) (h : Nat) : Frame w (w.release h) := by
  refine @Frame.of_handlers w (w.release h) rfl ?_ ?_ ?_
  · simp [World.release, length_modify_at]
  · intro k hk
    by_cases hne : h = k
    · subst hne
      rw [use_count_release_self, hk]
    · rw [use_count_release_ne w hne]; exact hk
  · intro k o ho
    exact modify_count_func w h (fun n => n - 1) k o ho

theorem frame_cleanup (w : World) : Frame w (basic_repeating_timer.cleanup w) := by
  constructor
  · rw [cleanup_engines_length]
  · rw [cleanup_handlers_length]
  · intro e t ht
    rw [cleanup_engine, ht]
    refine ⟨_, rfl, ?_⟩
    split <;> rfl
  · intro h _ h0
    rw [cleanup_use_count, h0]
    simp
  · intro k o ho
    rw [cleanup_handlers]
    cases hh : w.facade.handler_ with
    | none => exact ⟨o, ho, rfl⟩
    | some h => exact modify_count_func w h (fun n => n - 1) k o ho

theorem frame_start (w : World) (T : Duration) (f : Nat) :
    Frame w (basic_repeating_timer.start w T f) := by
  have hc := frame_cleanup w
  constructor
  · rw [start_engines_length]; omega
  · rw [start_handlers_length]; omega
  · intro e t ht
    have hlt : e < w.engines.length := (List.getElem?_eq_some_iff.mp ht).1
    rw [start_engine]
    simp only [Nat.ne_of_lt hlt, if_false]
    exact hc.engine e t ht
  · intro h hlt h0
    rw [start_use_count]
    simp only [Nat.ne_of_lt hlt, if_false]
    exact hc.dead h hlt h0
  · intro h o ho
    have hlt : h < w.handlers.length := (List.getElem?_eq_some_iff.mp ho).1
    obtain ⟨o1, ho1, h1⟩ := hc.func h o ho
    refine ⟨o1, ?_, h1⟩
    rw [start_eq]
    simp only
    rw [List.getElem?_append_left (by rw [cleanup_handlers_length]; exact hlt)]
    exact ho1

theorem frame_change_interval (w : World) (T : Duration) :
    Frame w (basic_repeating_timer.change_interval w T) := by
  unfold basic_repeating_timer.change_interval
  cases h : w.facade.timer_ with
  | none => exact Frame.refl w
  | some e => exact frame_with_engine w e _ (fun _ => rfl)

theorem frame_call (w : World) (c : Call) : Frame w (w.call c) := by
  cases c with
  | start T f => exact frame_start w T f
  | stop => exact frame_cleanup w
  | cancel => exact frame_cleanup w
  | change_interval T => exact frame_change_interval w T

theorem frame_calls (cs : List Call) : ∀ w : World, Frame w (w.calls cs) := by
  induction cs with
  | nil => intro w; exact Frame.refl w
  | cons c cs ih =>
    intro w
    exact (frame_call w c).trans (ih (w.call c))


/-! ## Facade calls: clock, waits and log -/

theorem call_now (w : World) (c : Call) : (w.call c).now = w.now := by
  cases c with
  | start T f => show (basic_repeating_timer.start w T f).now = w.now; rw [start_eq]
  | stop => exact cleanup_now w
  | cancel => exact cleanup_now w
  | change_interval T =>
    show (basic_repeating_timer.change_interval w T).now = w.now
    unfold basic_repeating_timer.change_interval
    cases h : w.facade.timer_ <;> rfl

theorem calls_now (cs : List Call) : ∀ w : World, (w.calls cs).now = w.now := by
  induction cs with
  | nil => intro w; rfl
  | cons c cs ih =>
    intro w
    show ((w.call c).calls cs).now = w.now
    rw [ih, call_now]

theorem cleanup_waits (w : World) (e : Nat) (t : internal_timer) (ht : w.engines[e]? = some t) :
    ∃ t1 : internal_timer, (basic_repeating_timer.cleanup w).engines[e]? = some t1 ∧
      t1.timer_.waits.length = t.timer_.waits.length := by
  rw [cleanup_engine, ht]
  refine ⟨_, rfl, ?_⟩
  split
  · simp [deadline_timer.cancel]
  · rfl

theorem call_waits (w : World) (c : Call) (e : Nat) (t : internal_timer)
    (ht : w.engines[e]? = some t) :
    ∃ t1 : internal_timer, (w.call c).engines[e]? = some t1 ∧
      t1.timer_.waits.length = t.timer_.waits.length := by
  cases c with
  | start T f =>
    show ∃ t1 : internal_timer, (basic_repeating_timer.start w T f).engines[e]? = some t1 ∧ _
    have hlt : e < w.engines.length := (List.getElem?_eq_some_iff.mp ht).1
    rw [start_engine]
    simp only [Nat.ne_of_lt hlt, if_false]
    exact cleanup_waits w e t ht
  | stop => exact cleanup_waits w e t ht
  | cancel => exact cleanup_waits w e t ht
  | change_interval T =>
    show ∃ t1 : internal_timer,
      (basic_repeating_timer.change_interval w T).engines[e]? = some t1 ∧ _
    unfold basic_repeating_timer.change_interval
    cases h : w.facade.timer_ with
    | none => exact ⟨t, ht, rfl⟩
    | some k =>
      simp only
      unfold internal_timer.change_interval
      rw [with_engine_get]
      by_cases hk : k = e
      · simp only [hk, if_true, ht, Option.map_some']
        exact ⟨_, rfl, rfl⟩
      · simp only [hk, if_false]
        exact ⟨t, ht, rfl⟩

theorem calls_waits (cs : List Call) : ∀ (w : World) (e : Nat) (t : internal_timer),
    w.engines[e]? = some t →
    ∃ t1 : internal_timer, (w.calls cs).engines[e]? = some t1 ∧
      t1.timer_.waits.length = t.timer_.waits.length := by
  induction cs with
  | nil => intro w e t ht; exact ⟨t, ht, rfl⟩
  | cons c cs ih =>
    intro w e t ht
    obtain ⟨t1, ht1, h1⟩ := call_waits w c e t ht
    obtain ⟨t2, ht2, h2⟩ := ih (w.call c) e t1 ht1
    exact ⟨t2, ht2, by rw [h2, h1]⟩

/-- A facade call logs no invocation, and logs a wait only for an engine that
it has created. -/
theorem call_log (w : World) (c : Call) :
    ∃ evs : List Event, (w.call c).log = w.log ++ evs ∧
      ∀ ev ∈ evs, ev.is_invoke = false ∧ w.engines.length ≤ ev.engine := by
  cases c with
  | start T f =>
    refine ⟨[Event.wait w.engines.length (some (w.now + T)) w.now], ?_, ?_⟩
    · show (basic_repeating_timer.start w T f).log = _
      rw [start_eq]
      simp [cleanup_engines_length]
    · intro ev hev
      simp only [List.mem_singleton] at hev
      subst hev
      exact ⟨rfl, Nat.le_refl _⟩
  | stop => exact ⟨[], by simp [World.call, basic_repeating_timer.stop, cleanup_log], by simp⟩
  | cancel =>
    exact ⟨[], by simp [World.call, basic_repeating_timer.cancel, basic_repeating_timer.stop,
      cleanup_log], by simp⟩
  | change_interval T =>
    refine ⟨[], ?_, by simp⟩
    show (basic_repeating_timer.change_interval w T).log = _
    unfold basic_repeating_timer.change_interval
    cases h : w.facade.timer_ <;> simp [internal_timer.change_interval, World.with_engine]

theorem calls_log (cs : List Call) : ∀ w : World,
    ∃ evs : List Event, (w.calls cs).log = w.log ++ evs ∧
      ∀ ev ∈ evs, ev.is_invoke = false ∧ w.engines.length ≤ ev.engine := by
  induction cs with
  | nil => intro w; exact ⟨[], by simp [World.calls], by simp⟩
  | cons c cs ih =>
    intro w
    obtain ⟨e1, h1, p1⟩ := call_log w c
    obtain ⟨e2, h2, p2⟩ := ih (w.call c)
    refine ⟨e1 ++ e2, ?_, ?_⟩
    · show ((w.call c).calls cs).log = _
      rw [h2, h1, List.append_assoc]
    · intro ev hev
      rcases List.mem_append.mp hev with h | h
      · exact p1 ev h
      · have := p2 ev h
        exact ⟨this.1, Nat.le_trans (frame_call w c).engines_le this.2⟩

/-! ## Arming -/

theorem arm_eq (w : World) (self : Nat) (t : internal_timer) (ht : w.engines[self]? = some t) :
    internal_timer.arm w self =
      { w with
        engines := w.engines.set self { t with timer_ :=
          { expiry := some (w.now + t.interval_),
            waits := t.timer_.waits ++
              [{ deadline := some (w.now + t.interval_), cancelled := false }] } },
        log := w.log ++ [Event.wait self (some (w.now + t.interval_)) w.now] } := by
  unfold internal_timer.arm
  simp [ht, deadline_timer.expires_from_now, deadline_timer.async_wait]

theorem arm_engine (w : World) (self : Nat) (t : internal_timer) (ht : w.engines[self]? = some t)
    (k : Nat) :
    (internal_timer.arm w self).engines[k]? =
      if self = k then some { t with timer_ :=
          { expiry := some (w.now + t.interval_),
            waits := t.timer_.waits ++
              [{ deadline := some (w.now + t.interval_), cancelled := false }] } }
      else w.engines[k]? := by
  rw [arm_eq w self t ht]
  simp only
  have hlt : self < w.engines.length := (List.getElem?_eq_some_iff.mp ht).1
  by_cases hk : self = k
  · subst hk
    simp [List.getElem?_set_self hlt]
  · simp [List.getElem?_set_ne hk, hk]

theorem frame_arm (w : World) (self : Nat) : Frame w (internal_timer.arm w self) := by
  cases ht : w.engines[self]? with
  | none =>
    have : internal_timer.arm w self = w := by
      unfold internal_timer.arm; simp [ht]
    rw [this]; exact Frame.refl w
  | some t =>
    refine @Frame.of_engines w (internal_timer.arm w self) ?_ ?_ ?_
    · rw [arm_eq w self t ht]
    · rw [arm_eq w self t ht]; simp
    · intro k t0 ht0
      rw [arm_engine w self t ht]
      by_cases hk : self = k
      · subst hk
        rw [ht] at ht0
        cases ht0
        simp
      · simp only [hk, if_false]
        exact ⟨t0, ht0, rfl⟩

theorem Coherent.arm {held : Option Nat} {w : World} (hi : Coherent held w) (self : Nat)
    (t : internal_timer) (ht : w.engines[self]? = some t) (hidle : t.timer_.waits = []) :
    Coherent held (internal_timer.arm w self) := by
  have hfr := frame_arm w self
  refine @Coherent.frame held w (internal_timer.arm w self) hi ?_ ?_ ?_ ?_ ?_
  · rw [arm_eq w self t ht]
  · rw [arm_eq w self t ht]
  · intro k t1 ht1
    rw [arm_engine w self t ht] at ht1
    by_cases hk : self = k
    · subst hk
      simp only [if_true, Option.some.injEq] at ht1
      exact ⟨t, ht, by rw [← ht1]⟩
    · simp only [hk, if_false] at ht1
      exact ⟨t1, ht1, rfl⟩
  · exact hfr.engine
  · intro k t1 ht1
    rw [arm_engine w self t ht] at ht1
    by_cases hk : self = k
    · subst hk
      simp only [if_true, Option.some.injEq] at ht1
      rw [← ht1, hidle]
      simp
    · simp only [hk, if_false] at ht1
      exact hi.single k t1 ht1


/-! ## The completion callback -/

theorem take_wait_eq {w w1 : World} {e : Nat} {op : wait_op}
    (h : w.take_wait e = some (op, w1)) :
    ∃ (t : internal_timer) (rest : List wait_op), w.engines[e]? = some t ∧
      t.timer_.waits = op :: rest ∧
      w1 = w.with_engine e (fun t => { t with timer_ := { t.timer_ with waits := rest } }) := by
  unfold World.take_wait at h
  cases ht : w.engines[e]? with
  | none => simp [ht] at h
  | some t =>
    cases hw : t.timer_.waits with
    | nil => simp [ht, hw] at h
    | cons op0 rest =>
      simp only [ht, hw, Option.some.injEq, Prod.mk.injEq] at h
      exact ⟨t, rest, rfl, by rw [hw, h.1], h.2.symm⟩

/-- In a coherent world the wait taken was the only one: the engine is left
without an outstanding wait, and the rest of the world is as before. -/
theorem take_wait_coherent {w w1 : World} {e : Nat} {op : wait_op} (hi : Coherent none w)
    (h : w.take_wait e = some (op, w1)) :
    ∃ t : internal_timer, w.engines[e]? = some t ∧ t.timer_.waits = [op] ∧
      w1 = w.with_engine e (fun t => { t with timer_ := { t.timer_ with waits := [] } }) ∧
      w1.engines[e]? = some { t with timer_ := { t.timer_ with waits := [] } } ∧
      Coherent none w1 ∧ Frame w w1 ∧ w1.log = w.log ∧ w1.now = w.now ∧
      w1.facade = w.facade ∧ w1.handlers = w.handlers := by
  obtain ⟨t, rest, ht, hw, hw1⟩ := take_wait_eq h
  have hr : rest = [] := by
    have := hi.single e t ht
    rw [hw] at this
    cases rest with
    | nil => rfl
    | cons a b => simp at this
  subst hr
  refine ⟨t, ht, hw, hw1, ?_, ?_, ?_, ?_, ?_, ?_, ?_⟩
  · rw [hw1, with_engine_get]; simp [ht]
  · rw [hw1]
    exact hi.with_engine e _ (fun _ => rfl) (fun _ => by simp)
  · rw [hw1]
    exact frame_with_engine w e _ (fun _ => rfl)
  · rw [hw1]; rfl
  · rw [hw1]; rfl
  · rw [hw1]; rfl
  · rw [hw1]; rfl

theorem arm_acquire_release (w : World) (h self : Nat) :
    (internal_timer.arm (w.acquire h) self).release h = internal_timer.arm w self := by
  have he : (w.acquire h).engines = w.engines := rfl
  cases ht : w.engines[self]? with
  | none =>
    have h1 : internal_timer.arm w self = w := by
      unfold internal_timer.arm; simp [ht]
    have h2 : internal_timer.arm (w.acquire h) self = w.acquire h := by
      unfold internal_timer.arm; simp [he, ht]
    rw [h1, h2, release_acquire]
  | some t =>
    rw [arm_eq w self t ht, arm_eq (w.acquire h) self t (by rw [he]; exact ht)]
    have := release_acquire w h
    unfold World.acquire World.release at this ⊢
    simp only at this ⊢
    have hh := congrArg World.handlers this
    simp only at hh
    rw [hh]

theorem reschedule_eq (w : World) (self : Nat) (error : error_code) (t : internal_timer)
    (ht : w.engines[self]? = some t) :
    internal_timer.reschedule w self error =
      if error.ok = true ∧ (w.lock t.handler_).isSome = true then internal_timer.arm w self
      else w := by
  unfold internal_timer.reschedule
  by_cases hok : error.ok = true
  · simp only [hok, if_true, ht, true_and]
    cases hl : w.lock t.handler_ with
    | none => simp
    | some h => simp [arm_acquire_release]
  · simp [hok]

theorem fire_expired (w : World) (self : Nat) (error : error_code) (act : handler_action)
    (t : internal_timer) (ht : w.engines[self]? = some t) (hl : w.lock t.handler_ = none) :
    internal_timer.fire w self error act = (w, none) := by
  unfold internal_timer.fire
  simp [ht, hl]

theorem fire_resolved (w : World) (self : Nat) (error : error_code) (act : handler_action)
    (t : internal_timer) (h : Nat) (ht : w.engines[self]? = some t)
    (hl : w.lock t.handler_ = some h) :
    internal_timer.fire w self error act =
      ((handler_impl.handler (w.acquire h) self h error act).1.release h,
        if act.outcome = some thrown.other then some thrown.other else none) := by
  unfold internal_timer.fire
  simp only [ht, hl]
  have h2 : (handler_impl.handler (w.acquire h) self h error act).2 = act.outcome := rfl
  rw [h2]
  cases ho : act.outcome with
  | none => simp
  | some x => cases x <;> simp

/-- An engine whose handler reference is expired: the callback changes nothing
and lets nothing escape. -/
theorem handle_timeout_expired (w : World) (self : Nat) (error : error_code)
    (act : handler_action) (t : internal_timer) (ht : w.engines[self]? = some t)
    (hl : w.lock t.handler_ = none) :
    internal_timer.handle_timeout w self error act = (w, none) := by
  unfold internal_timer.handle_timeout
  rw [fire_expired w self error act t ht hl]
  simp only
  rw [reschedule_eq w self error t ht, hl]
  simp


theorem handle_timeout_resolved (w : World) (self : Nat) (error : error_code)
    (act : handler_action) (t : internal_timer) (h : Nat) (ht : w.engines[self]? = some t)
    (hl : w.lock t.handler_ = some h) :
    internal_timer.handle_timeout w self error act =
      if act.outcome = some thrown.other then
        ((handler_impl.handler (w.acquire h) self h error act).1.release h, some thrown.other)
      else
        (internal_timer.reschedule
          ((handler_impl.handler (w.acquire h) self h error act).1.release h) self error,
          none) := by
  unfold internal_timer.handle_timeout
  rw [fire_resolved w self error act t h ht hl]
  by_cases ho : act.outcome = some thrown.other <;> simp [ho]

/-- The state in which the handler object `h` starts to run: the local
`shared_ptr` owns it and the invocation is logged. -/
theorem handler_eq (w : World) (self h : Nat) (error : error_code) (act : handler_action)
    (o : handler_impl) (ho : w.handlers[h]? = some o) :
    (handler_impl.handler (w.acquire h) self h error act).1 =
      World.calls { w.acquire h with
        log := w.log ++ [Event.invoke self h o.handler_func_ error w.now] } act.calls := by
  unfold handler_impl.handler
  have : (w.acquire h).handlers[h]? =
      some { o with use_count := o.use_count + 1 } := by
    unfold World.acquire
    simp [getElem?_modify_at_self, ho]
  simp only [this]
  rfl

/-- The first block of the callback when the handler reference resolves. -/
theorem fired_props {w : World} (hi : Coherent none w) (self : Nat) (error : error_code)
    (act : handler_action) (t : internal_timer) (h : Nat) (ht : w.engines[self]? = some t)
    (hidle : t.timer_.waits = []) (hl : w.lock t.handler_ = some h) :
    Coherent none ((handler_impl.handler (w.acquire h) self h error act).1.release h) ∧
    Frame w ((handler_impl.handler (w.acquire h) self h error act).1.release h) ∧
    ((handler_impl.handler (w.acquire h) self h error act).1.release h).now = w.now ∧
    (∃ t2 : internal_timer,
      ((handler_impl.handler (w.acquire h) self h error act).1.release h).engines[self]? = some t2 ∧
      t2.handler_ = t.handler_ ∧ t2.timer_.waits = []) ∧
    ∃ (o : handler_impl) (evs : List Event), w.handlers[h]? = some o ∧
      ((handler_impl.handler (w.acquire h) self h error act).1.release h).log =
        w.log ++ Event.invoke self h o.handler_func_ error w.now :: evs ∧
      ∀ ev ∈ evs, ev.is_invoke = false ∧ w.engines.length ≤ ev.engine := by
  have hp : 0 < w.use_count h := (lock_eq_some.mp hl).2
  have hlt := use_count_lt hp
  obtain ⟨o, ho⟩ : ∃ o, w.handlers[h]? = some o :=
    ⟨w.handlers[h], List.getElem?_eq_some_iff.mpr ⟨hlt, rfl⟩⟩
  rw [handler_eq w self h error act o ho]
  have hi1 : Coherent (some h) { w.acquire h with
      log := w.log ++ [Event.invoke self h o.handler_func_ error w.now] } :=
    (hi.acquire hp).of_log _
  have hf1 : Frame w { w.acquire h with
      log := w.log ++ [Event.invoke self h o.handler_func_ error w.now] } := by
    have := frame_acquire w h hp
    exact ⟨this.engines_le, this.handlers_le, this.engine, this.dead, this.func⟩
  have hf2 := frame_calls act.calls { w.acquire h with
      log := w.log ++ [Event.invoke self h o.handler_func_ error w.now] }
  have hf3 := frame_release (World.calls { w.acquire h with
      log := w.log ++ [Event.invoke self h o.handler_func_ error w.now] } act.calls) h
  refine ⟨(hi1.calls act.calls).release, (hf1.trans hf2).trans hf3, ?_, ?_, ?_⟩
  · show (World.calls _ act.calls).now = w.now
    rw [calls_now]; rfl
  · obtain ⟨t1, ht1, hw1⟩ := calls_waits act.calls { w.acquire h with
      log := w.log ++ [Event.invoke self h o.handler_func_ error w.now] } self t ht
    obtain ⟨t2, ht2, hh2⟩ := hf2.engine self t ht
    rw [ht1] at ht2
    cases ht2
    refine ⟨t1, ht1, hh2, ?_⟩
    rw [hidle] at hw1
    exact List.length_eq_zero.mp hw1
  · obtain ⟨evs, hlog, hev⟩ := calls_log act.calls { w.acquire h with
      log := w.log ++ [Event.invoke self h o.handler_func_ error w.now] }
    refine ⟨o, evs, ho, ?_, hev⟩
    show (World.calls _ act.calls).log = _
    rw [hlog]
    simp

/-- The second block of the callback, for an engine without an outstanding
wait: either nothing changes, or the status is ok, the handler reference
resolves, and exactly one wait is submitted, due one stored interval from now. -/
theorem reschedule_props {w : World} (hi : Coherent none w) (self : Nat) (error : error_code)
    (t : internal_timer) (ht : w.engines[self]? = some t) (hidle : t.timer_.waits = []) :
    Coherent none (internal_timer.reschedule w self error) ∧
    Frame w (internal_timer.reschedule w self error) ∧
    (internal_timer.reschedule w self error).now = w.now ∧
    (internal_timer.reschedule w self error = w ∨
      (error.ok = true ∧ (w.lock t.handler_).isSome = true ∧
        internal_timer.reschedule w self error = internal_timer.arm w self ∧
        (internal_timer.reschedule w self error).log =
          w.log ++ [Event.wait self (some (w.now + t.interval_)) w.now])) := by
  rw [reschedule_eq w self error t ht]
  by_cases hc : error.ok = true ∧ (w.lock t.handler_).isSome = true
  · rw [if_pos hc]
    refine ⟨hi.arm self t ht hidle, frame_arm w self, ?_, Or.inr ⟨hc.1, hc.2, rfl, ?_⟩⟩
    · rw [arm_eq w self t ht]
    · rw [arm_eq w self t ht]
  · rw [if_neg hc]
    exact ⟨hi, Frame.refl w, rfl, Or.inl rfl⟩


theorem lock_congr {w w1 : World} (hh : w1.handlers = w.handlers) (r : Option Nat) :
    w1.lock r = w.lock r := by
  unfold World.lock World.use_count
  rw [hh]

/-- What the callback of an engine without an outstanding wait does, when its
handler reference resolves to `h`: the world stays coherent, the invocation is
logged first, then the waits of the engines that the handler's calls created,
then at most one wait of the engine itself, and that only when the status is
ok. -/
theorem handle_timeout_props {w : World} (hi : Coherent none w) (self : Nat)
    (error : error_code) (act : handler_action) (t : internal_timer) (h : Nat)
    (ht : w.engines[self]? = some t) (hidle : t.timer_.waits = [])
    (hl : w.lock t.handler_ = some h) :
    Coherent none (internal_timer.handle_timeout w self error act).1 ∧
    Frame w (internal_timer.handle_timeout w self error act).1 ∧
    (internal_timer.handle_timeout w self error act).1.now = w.now ∧
    ∃ (o : handler_impl) (evs : List Event), w.handlers[h]? = some o ∧
      (internal_timer.handle_timeout w self error act).1.log =
        w.log ++ Event.invoke self h o.handler_func_ error w.now :: evs ∧
      ∀ ev ∈ evs, (ev.is_invoke = false ∧ w.engines.length ≤ ev.engine) ∨
        (error.ok = true ∧ ∃ d, ev = Event.wait self d w.now) := by
  obtain ⟨c2, f2, n2, ⟨t2, ht2, hh2, hw2⟩, o, evs, ho, hlog, hevs⟩ :=
    fired_props hi self error act t h ht hidle hl
  rw [handle_timeout_resolved w self error act t h ht hl]
  by_cases hx : act.outcome = some thrown.other
  · rw [if_pos hx]
    exact ⟨c2, f2, n2, o, evs, ho, hlog, fun ev hev => Or.inl (hevs ev hev)⟩
  · rw [if_neg hx]
    obtain ⟨c3, f3, n3, hcase⟩ := reschedule_props c2 self error t2 ht2 hw2
    refine ⟨c3, f2.trans f3, by rw [n3, n2], o, ?_⟩
    rcases hcase with hsame | ⟨hok, _, _, hl3⟩
    · refine ⟨evs, ho, ?_, fun ev hev => Or.inl (hevs ev hev)⟩
      simp only
      rw [hsame]; exact hlog
    · refine ⟨evs ++ [Event.wait self (some (w.now + t2.interval_)) w.now], ho, ?_, ?_⟩
      · simp only
        rw [hl3, hlog, n2]
        simp
      · intro ev hev
        rcases List.mem_append.mp hev with hm | hm
        · exact Or.inl (hevs ev hm)
        · simp only [List.mem_singleton] at hm
          exact Or.inr ⟨hok, _, hm⟩

/-- One step from a coherent world: the world stays coherent; an event of an
engine that existed before the step can only come from the completion of a
wait of that engine whose handler reference resolved when the step began, and
it is the invocation of that handler with the status of the completion, or a
wait submitted after a completion with status ok. -/
theorem step_props {w w1 : World} (hi : Coherent none w) {a : Action}
    (hs : w.step a = some w1) :
    Coherent none w1 ∧ Frame w w1 ∧
    ∃ evs : List Event, w1.log = w.log ++ evs ∧ ∀ ev ∈ evs,
      (ev.is_invoke = false ∧ w.engines.length ≤ ev.engine) ∨
      ∃ (error : error_code) (act : handler_action) (t : internal_timer) (h : Nat)
        (o : handler_impl),
        a = Action.complete ev.engine error act ∧ w.engines[ev.engine]? = some t ∧
        t.timer_.waits ≠ [] ∧ w.lock t.handler_ = some h ∧ w.handlers[h]? = some o ∧
        (ev = Event.invoke ev.engine h o.handler_func_ error w.now ∨
          (error.ok = true ∧ ∃ d, ev = Event.wait ev.engine d w.now)) := by
  cases a with
  | call c =>
    simp only [World.step, Option.some.injEq] at hs
    subst hs
    obtain ⟨evs, hlog, hev⟩ := call_log w c
    exact ⟨hi.call c, frame_call w c, evs, hlog, fun ev h => Or.inl (hev ev h)⟩
  | advance d =>
    simp only [World.step, Option.some.injEq] at hs
    subst hs
    exact ⟨hi.of_now _, ⟨Nat.le_refl _, Nat.le_refl _, fun _ t ht => ⟨t, ht, rfl⟩,
      fun _ _ h => h, fun _ o ho => ⟨o, ho, rfl⟩⟩, [], by simp, by simp⟩
  | complete e error act =>
    simp only [World.step] at hs
    cases htw : w.take_wait e with
    | none => simp [htw] at hs
    | some p =>
      obtain ⟨op, w0⟩ := p
      simp only [htw, Option.some.injEq] at hs
      obtain ⟨t, ht, hw, _, ht0, c0, f0, l0, n0, _, hh0⟩ := take_wait_coherent hi htw
      have hne : t.timer_.waits ≠ [] := by rw [hw]; simp
      cases hl : w.lock t.handler_ with
      | none =>
        have hl0 : w0.lock ({ t with timer_ := { t.timer_ with waits := [] } } :
            internal_timer).handler_ = none := by
          rw [lock_congr hh0]; exact hl
        rw [handle_timeout_expired w0 e error act _ ht0 hl0] at hs
        simp only at hs
        subst hs
        exact ⟨c0, f0, [], by simp [l0], by simp⟩
      | some h =>
        have hl0 : w0.lock ({ t with timer_ := { t.timer_ with waits := [] } } :
            internal_timer).handler_ = some h := by
          rw [lock_congr hh0]; exact hl
        obtain ⟨c1, f1, _, o, evs, ho, hlog, hevs⟩ :=
          handle_timeout_props c0 e error act _ h ht0 rfl hl0
        rw [hs] at c1 f1 hlog
        refine ⟨c1, f0.trans f1, Event.invoke e h o.handler_func_ error w.now :: evs, ?_, ?_⟩
        · rw [hlog, l0, n0]
        · have hel : w0.engines.length = w.engines.length :=
            Nat.le_antisymm (by
              have := (List.getElem?_eq_some_iff.mp ht).1
              rw [show w0 = w.with_engine e _ from by assumption]
              simp [World.with_engine, length_modify_at]) f0.engines_le
          intro ev hev
          rcases List.mem_cons.mp hev with hm | hm
          · subst hm
            exact Or.inr ⟨error, act, t, h, o, rfl, ht, hne, hl, by rw [← hh0]; exact ho,
              Or.inl rfl⟩
          · rcases hevs ev hm with hfresh | ⟨hok, d, hd⟩
            · exact Or.inl ⟨hfresh.1, by rw [← hel]; exact hfresh.2⟩
            · subst hd
              exact Or.inr ⟨error, act, t, h, o, rfl, ht, hne, hl, by rw [← hh0]; exact ho,
                Or.inr ⟨hok, d, by rw [n0]; rfl⟩⟩

theorem Reachable.coherent {w : World} (h : Reachable w) : Coherent none w := by
  induction h with
  | init => exact Coherent.init
  | step a _ hs ih => exact (step_props ih hs).1


/-! ## Which callables the handler objects wrap -/

theorem map_func_modify_at (xs : List handler_impl) (i : Nat) (g : Nat → Nat) :
    (modify_at xs i (fun o => { o with use_count := g o.use_count })).map
      (fun o => o.handler_func_) = xs.map (fun o => o.handler_func_) := by
  unfold modify_at
  split
  · rename_i x hx
    rw [List.map_set]
    apply List.ext_getElem?
    intro j
    by_cases hj : i = j
    · subst hj
      simp [List.getElem?_set_self', hx]
    · simp [List.getElem?_set_ne hj]
  · rfl

theorem funcs_acquire (w : World) (h : Nat) : (w.acquire h).funcs = w.funcs :=
  map_func_modify_at w.handlers h (fun n => n + 1)

theorem funcs_release (w : World) (h : Nat) : (w.release h).funcs = w.funcs :=
  map_func_modify_at w.handlers h (fun n => n - 1)

theorem funcs_cleanup (w : World) : (basic_repeating_timer.cleanup w).funcs = w.funcs := by
  unfold World.funcs
  rw [cleanup_handlers]
  cases h : w.facade.handler_ with
  | none => rfl
  | some k => exact funcs_release w k

theorem funcs_call (w : World) (c : Call) : (w.call c).funcs = w.funcs ++ c.started := by
  cases c with
  | start T f =>
    show (basic_repeating_timer.start w T f).funcs = _
    have := funcs_cleanup w
    unfold World.funcs at this ⊢
    rw [start_eq]
    simp [this, Call.started]
  | stop => simpa [Call.started] using funcs_cleanup w
  | cancel => simpa [Call.started] using funcs_cleanup w
  | change_interval T =>
    show (basic_repeating_timer.change_interval w T).funcs = _
    unfold basic_repeating_timer.change_interval
    cases h : w.facade.timer_ <;> simp [Call.started, World.funcs,
      internal_timer.change_interval, World.with_engine]

theorem funcs_calls (cs : List Call) : ∀ w : World,
    (w.calls cs).funcs = w.funcs ++ cs.flatMap Call.started := by
  induction cs with
  | nil => intro w; simp [World.calls]
  | cons c cs ih =>
    intro w
    show ((w.call c).calls cs).funcs = _
    rw [ih, funcs_call]
    simp

theorem funcs_arm (w : World) (self : Nat) : (internal_timer.arm w self).funcs = w.funcs := by
  unfold internal_timer.arm World.funcs
  cases h : w.engines[self]? <;> simp

theorem funcs_reschedule (w : World) (self : Nat) (error : error_code) :
    (internal_timer.reschedule w self error).funcs = w.funcs := by
  unfold internal_timer.reschedule
  split
  · split
    · rfl
    · split
      · rfl
      · rw [funcs_release, funcs_arm, funcs_acquire]
  · rfl

theorem funcs_handle_timeout (w : World) (self : Nat) (error : error_code)
    (act : handler_action) :
    ∃ l : List Nat, (internal_timer.handle_timeout w self error act).1.funcs = w.funcs ++ l ∧
      ∀ g ∈ l, g ∈ act.calls.flatMap Call.started := by
  have hfire : ∃ l : List Nat, (internal_timer.fire w self error act).1.funcs = w.funcs ++ l ∧
      ∀ g ∈ l, g ∈ act.calls.flatMap Call.started := by
    cases ht : w.engines[self]? with
    | none =>
      have : internal_timer.fire w self error act = (w, none) := by
        unfold internal_timer.fire; simp [ht]
      rw [this]
      exact ⟨[], by simp, by simp⟩
    | some t =>
      cases hl : w.lock t.handler_ with
      | none =>
        rw [fire_expired w self error act t ht hl]
        exact ⟨[], by simp, by simp⟩
      | some h =>
        rw [fire_resolved w self error act t h ht hl]
        refine ⟨act.calls.flatMap Call.started, ?_, fun g hg => hg⟩
        simp only
        rw [funcs_release]
        unfold handler_impl.handler
        simp only
        rw [funcs_calls]
        show (w.acquire h).funcs ++ _ = _
        rw [funcs_acquire]
  obtain ⟨l, hl, hg⟩ := hfire
  refine ⟨l, ?_, hg⟩
  unfold internal_timer.handle_timeout
  simp only
  split
  · exact hl
  · simp only [funcs_reschedule]; exact hl

theorem funcs_step {w w1 : World} {a : Action} (hs : w.step a = some w1) :
    ∃ l : List Nat, w1.funcs = w.funcs ++ l ∧ ∀ g ∈ l, g ∈ a.started := by
  cases a with
  | call c =>
    simp only [World.step, Option.some.injEq] at hs
    subst hs
    exact ⟨c.started, funcs_call w c, fun g hg => hg⟩
  | advance d =>
    simp only [World.step, Option.some.injEq] at hs
    subst hs
    exact ⟨[], by simp [World.funcs], by simp⟩
  | complete e error act =>
    simp only [World.step] at hs
    cases htw : w.take_wait e with
    | none => simp [htw] at hs
    | some p =>
      obtain ⟨op, w0⟩ := p
      simp only [htw, Option.some.injEq] at hs
      obtain ⟨t, rest, _, _, hw0⟩ := take_wait_eq htw
      obtain ⟨l, hl, hg⟩ := funcs_handle_timeout w0 e error act
      rw [hs] at hl
      refine ⟨l, ?_, hg⟩
      rw [hl, hw0]
      rfl


/-! ## Runs -/

theorem use_count_eq_of_get {w : World} {h : Nat} {o : handler_impl}
    (ho : w.handlers[h]? = some o) : w.use_count h = o.use_count := by
  unfold World.use_count
  rw [ho]

/-- An engine whose handler reference is expired stays so. -/
theorem expired_frame {w w1 : World} (hi : Coherent none w) (hf : Frame w w1) {e : Nat}
    (hx : ∃ t : internal_timer, w.engines[e]? = some t ∧ w.lock t.handler_ = none) :
    ∃ t : internal_timer, w1.engines[e]? = some t ∧ w1.lock t.handler_ = none := by
  obtain ⟨t, ht, hl⟩ := hx
  obtain ⟨t1, ht1, hh1⟩ := hf.engine e t ht
  refine ⟨t1, ht1, ?_⟩
  rw [hh1]
  rw [lock_eq_none] at hl ⊢
  intro h hh
  exact hf.dead h (hi.valid e t h ht hh) (hl h hh)

/-- No live handler object wraps the callable `f`, and the step registers no
`f`: then no live handler object wraps `f` after the step. -/
theorem unnamed_step {w w1 : World} {a : Action} (hf : Frame w w1)
    (hs : w.step a = some w1) (f : Nat)
    (hq : ∀ (h : Nat) (o : handler_impl), w.handlers[h]? = some o → 0 < o.use_count →
      o.handler_func_ ≠ f)
    (hn : f ∉ a.started) :
    ∀ (h : Nat) (o : handler_impl), w1.handlers[h]? = some o → 0 < o.use_count →
      o.handler_func_ ≠ f := by
  intro h o ho hpos
  by_cases hlt : h < w.handlers.length
  · have ho0 : w.handlers[h]? = some w.handlers[h] :=
      List.getElem?_eq_some_iff.mpr ⟨hlt, rfl⟩
    obtain ⟨o1, ho1, hf1⟩ := hf.func h _ ho0
    rw [ho] at ho1
    cases ho1
    rw [hf1]
    apply hq h _ ho0
    by_contra hz
    have h0 : w.use_count h = 0 := by
      rw [use_count_eq_of_get ho0]; omega
    have := hf.dead h hlt h0
    rw [use_count_eq_of_get ho] at this
    omega
  · obtain ⟨l, hl, hg⟩ := funcs_step hs
    have h1 : w1.funcs[h]? = some o.handler_func_ := by
      unfold World.funcs
      rw [List.getElem?_map, ho]
      rfl
    rw [hl] at h1
    have hlen : w.funcs.length ≤ h := by
      unfold World.funcs
      rw [List.length_map]
      omega
    rw [List.getElem?_append_right hlen] at h1
    have hmem : o.handler_func_ ∈ l := List.getElem?_mem h1
    intro heq
    rw [heq] at hmem
    exact hn (hg f hmem)

/-- A run from a coherent world. It ends in a coherent world, and among the
events of the run: none belongs to an engine whose handler reference was
expired at the beginning; none is an invocation of a handler object that was
destroyed at the beginning; and none is an invocation of a callable `f` that
no live handler object wrapped at the beginning and that no step registers. -/
theorem run_props (as : List Action) : ∀ {w w1 : World}, Coherent none w →
    w.exec as = some w1 →
    Coherent none w1 ∧ Frame w w1 ∧
    ∃ evs : List Event, w1.log = w.log ++ evs ∧
      (∀ e : Nat, (∃ t : internal_timer, w.engines[e]? = some t ∧ w.lock t.handler_ = none) →
        ∀ ev ∈ evs, ev.engine ≠ e) ∧
      (∀ h : Nat, h < w.handlers.length → w.use_count h = 0 →
        ∀ ev ∈ evs, ∀ (e g : Nat) (error : error_code) (tm : Time),
          ev ≠ Event.invoke e h g error tm) ∧
      (∀ f : Nat, (∀ (h : Nat) (o : handler_impl), w.handlers[h]? = some o →
          0 < o.use_count → o.handler_func_ ≠ f) →
        (∀ a ∈ as, f ∉ a.started) →
        ∀ ev ∈ evs, ∀ (e h : Nat) (error : error_code) (tm : Time),
          ev ≠ Event.invoke e h f error tm) := by
  induction as with
  | nil =>
    intro w w1 hi hx
    simp only [World.exec, Option.some.injEq] at hx
    subst hx
    exact ⟨hi, Frame.refl w, [], by simp, by simp, by simp, by simp⟩
  | cons a as ih =>
    intro w w2 hi hx
    simp only [World.exec] at hx
    cases hs : w.step a with
    | none => simp [hs] at hx
    | some w1 =>
      simp only [hs] at hx
      obtain ⟨c1, f1, evs1, hl1, hev1⟩ := step_props hi hs
      obtain ⟨c2, f2, evs2, hl2, hE, hD, hN⟩ := ih c1 hx
      refine ⟨c2, f1.trans f2, evs1 ++ evs2, by rw [hl2, hl1, List.append_assoc], ?_, ?_, ?_⟩
      · intro e hexp ev hev
        rcases List.mem_append.mp hev with hm | hm
        · rcases hev1 ev hm with ⟨_, hge⟩ | ⟨_, _, t, h, _, _, ht, _, hl, _, _⟩
          · obtain ⟨t, ht, _⟩ := hexp
            have := (List.getElem?_eq_some_iff.mp ht).1
            omega
          · intro heq
            obtain ⟨t0, ht0, hl0⟩ := hexp
            rw [heq, ht0] at ht
            cases ht
            rw [hl0] at hl
            cases hl
        · exact hE e (expired_frame hi f1 hexp) ev hm
      · intro h hlt h0 ev hev
        rcases List.mem_append.mp hev with hm | hm
        · rcases hev1 ev hm with ⟨hni, _⟩ | ⟨err, _, t, h1, o, _, _, _, hl, _, hcase⟩
          · intro e g error tm heq
            rw [heq] at hni
            cases hni
          · intro e g error tm heq
            rcases hcase with hinv | ⟨_, d, hw⟩
            · rw [hinv] at heq
              simp only [Event.invoke.injEq] at heq
              have hp := (lock_eq_some.mp hl).2
              rw [heq.2.1] at hp
              omega
            · rw [hw] at heq
              cases heq
        · exact hD h (Nat.lt_of_lt_of_le hlt f1.handlers_le) (f1.dead h hlt h0) ev hm
      · intro f hq hn ev hev
        rcases List.mem_append.mp hev with hm | hm
        · rcases hev1 ev hm with ⟨hni, _⟩ | ⟨err, _, t, h1, o, _, _, _, hl, ho, hcase⟩
          · intro e g error tm heq
            rw [heq] at hni
            cases hni
          · intro e g error tm heq
            rcases hcase with hinv | ⟨_, d, hw⟩
            · rw [hinv] at heq
              simp only [Event.invoke.injEq] at heq
              have hp := (lock_eq_some.mp hl).2
              rw [use_count_eq_of_get ho] at hp
              exact hq h1 o ho hp heq.2.2.1
            · rw [hw] at heq
              cases heq
        · exact hN f (unnamed_step f1 hs f hq (hn a (List.mem_cons_self a as)))
            (fun b hb => hn b (List.mem_cons_of_mem a hb)) ev hm


/-- The completion of a wait of an engine whose handler reference is expired
is a possible step, with any status and whatever the callable would do: it
only takes the wait off the timer, and logs nothing. -/
theorem expired_complete (w : World) (e : Nat) (t : internal_timer)
    (ht : w.engines[e]? = some t) (hw : t.timer_.waits ≠ []) (hl : w.lock t.handler_ = none)
    (error : error_code) (act : handler_action) :
    ∃ w1 : World, w.step (Action.complete e error act) = some w1 ∧ w1.log = w.log ∧
      w1.facade = w.facade ∧ w1.handlers = w.handlers ∧ w1.now = w.now := by
  obtain ⟨op, w0, htw⟩ : ∃ op w0, w.take_wait e = some (op, w0) := by
    unfold World.take_wait
    cases hx : t.timer_.waits with
    | nil => exact absurd hx hw
    | cons a b => simp [ht, hx]
  obtain ⟨t', rest, ht', _, hw0⟩ := take_wait_eq htw
  rw [ht] at ht'
  cases ht'
  have hg0 : w0.engines[e]? = some { t with timer_ := { t.timer_ with waits := rest } } := by
    rw [hw0, with_engine_get]
    simp [ht]
  have hh0 : w0.handlers = w.handlers := by rw [hw0]; rfl
  have hl0 : w0.lock ({ t with timer_ := { t.timer_ with waits := rest } } :
      internal_timer).handler_ = none := by
    rw [lock_congr hh0]; exact hl
  refine ⟨w0, ?_, by rw [hw0]; rfl, by rw [hw0]; rfl, hh0, by rw [hw0]; rfl⟩
  simp only [World.step, htw]
  rw [handle_timeout_expired w0 e error act _ hg0 hl0]


/-! ## The claims -/

/-- After the cleanup block every handler object is destroyed, so that the
handler reference of every engine is expired. -/
theorem cleanup_dead {w : World} (hi : Coherent none w) :
    (∀ h : Nat, (basic_repeating_timer.cleanup w).use_count h = 0) ∧
    ∀ (e : Nat) (t : internal_timer), (basic_repeating_timer.cleanup w).engines[e]? = some t →
      (basic_repeating_timer.cleanup w).lock t.handler_ = none := by
  have hc := hi.cleanup
  have h0 : ∀ h : Nat, (basic_repeating_timer.cleanup w).use_count h = 0 := by
    intro h
    have := hc.counts h
    rw [cleanup_facade] at this
    simpa using this
  refine ⟨h0, ?_⟩
  intro e t _
  rw [lock_eq_none]
  intro h _
  exact h0 h

/-- C1 (no firing after stop). Take any reachable world, perform
`start(T, f)`, then any steps `comps` (completions, time passing, or anything
else), then `stop()`, then any steps `rest` whatever, among them the completion
of the wait that was outstanding, with status ok or cancelled. `stop` itself
logs nothing, and among the events after it: none belongs to the engine that
the `start` created (no invocation by it, no wait submitted on it); none is an
invocation of the handler object that the `start` created; and, unless `rest`
registers `f` again, none is an invocation of the callable `f` at all.
Moreover, if a wait of that engine is outstanding after the `stop`, its
completion is a possible step with any status, and it logs nothing. -/
theorem no_firing_after_stop (w0 : World) (hr : Reachable w0) (T : Duration) (f : Nat)
    (comps : List Action) (w1 : World) (rest : List Action) (w2 : World)
    (h1 : (basic_repeating_timer.start w0 T f).exec comps = some w1)
    (h2 : (basic_repeating_timer.stop w1).exec rest = some w2) :
    (basic_repeating_timer.start w0 T f).facade =
      { timer_ := some w0.engines.length, handler_ := some w0.handlers.length } ∧
    (basic_repeating_timer.stop w1).log = w1.log ∧
    (∃ evs : List Event, w2.log = w1.log ++ evs ∧
      (∀ ev ∈ evs, ev.engine ≠ w0.engines.length) ∧
      (∀ ev ∈ evs, ∀ (e g : Nat) (error : error_code) (tm : Time),
        ev ≠ Event.invoke e w0.handlers.length g error tm) ∧
      ((∀ a ∈ rest, f ∉ a.started) →
        ∀ ev ∈ evs, ∀ (e h : Nat) (error : error_code) (tm : Time),
          ev ≠ Event.invoke e h f error tm)) ∧
    ∀ t : internal_timer,
      (basic_repeating_timer.stop w1).engines[w0.engines.length]? = some t →
      t.timer_.waits ≠ [] →
      ∀ (error : error_code) (act : handler_action),
        ∃ w3 : World,
          (basic_repeating_timer.stop w1).step
            (Action.complete w0.engines.length error act) = some w3 ∧
          w3.log = w1.log := by
  have c0 := hr.coherent
  have cs := c0.start T f
  obtain ⟨c1, f1, _⟩ := run_props comps cs h1
  have c2 : Coherent none (basic_repeating_timer.stop w1) := c1.cleanup
  obtain ⟨hdead, hexp⟩ := cleanup_dead c1
  have f2 : Frame (basic_repeating_timer.start w0 T f) (basic_repeating_timer.stop w1) :=
    f1.trans (frame_cleanup w1)
  obtain ⟨_, _, evs, hlog, hE, hD, hN⟩ := run_props rest c2 h2
  have hlog1 : (basic_repeating_timer.stop w1).log = w1.log := cleanup_log w1
  have hpend : ∀ t : internal_timer,
      (basic_repeating_timer.stop w1).engines[w0.engines.length]? = some t →
      t.timer_.waits ≠ [] →
      ∀ (error : error_code) (act : handler_action),
        ∃ w3 : World,
          (basic_repeating_timer.stop w1).step
            (Action.complete w0.engines.length error act) = some w3 ∧
          w3.log = w1.log := by
    intro t ht hw error act
    obtain ⟨w3, hs, hl3, _⟩ := expired_complete _ _ t ht hw (hexp _ t ht) error act
    exact ⟨w3, hs, by rw [hl3, hlog1]⟩
  refine ⟨start_facade w0 T f, hlog1, ⟨evs, by rw [hlog, hlog1], ?_, ?_, ?_⟩, hpend⟩
  · apply hE
    have he : (basic_repeating_timer.start w0 T f).engines[w0.engines.length]? =
        some (fresh_engine w0.now T w0.handlers.length) := by
      rw [start_engine]; simp
    obtain ⟨t, ht, _⟩ := f2.engine _ _ he
    exact ⟨t, ht, hexp _ t ht⟩
  · apply hD
    · have := f2.handlers_le
      rw [start_handlers_length] at this
      omega
    · exact hdead _
  · intro hn
    apply hN f _ hn
    intro h o ho hpos
    have := hdead h
    unfold basic_repeating_timer.stop at ho
    rw [use_count_eq_of_get ho] at this
    omega

/-- C1 at a concrete run: `start(1000, 7)`, one tick, `stop()`, and then the
wait that was outstanding completes with status ok. -/
theorem no_firing_after_stop_witness :
    (basic_repeating_timer.start World.init 1000 7).facade =
      { timer_ := some 0, handler_ := some 0 } ∧
    (basic_repeating_timer.stop sample_running).log = sample_running.log ∧
    (∃ evs : List Event, sample_stopped.log = sample_running.log ++ evs ∧
      (∀ ev ∈ evs, ev.engine ≠ 0) ∧
      (∀ ev ∈ evs, ∀ (e g : Nat) (error : error_code) (tm : Time),
        ev ≠ Event.invoke e 0 g error tm) ∧
      ((∀ a ∈ [Action.complete 0 error_code.success handler_action.plain], 7 ∉ a.started) →
        ∀ ev ∈ evs, ∀ (e h : Nat) (error : error_code) (tm : Time),
          ev ≠ Event.invoke e h 7 error tm)) ∧
    ∀ t : internal_timer,
      (basic_repeating_timer.stop sample_running).engines[0]? = some t →
      t.timer_.waits ≠ [] →
      ∀ (error : error_code) (act : handler_action),
        ∃ w3 : World,
          (basic_repeating_timer.stop sample_running).step
            (Action.complete 0 error act) = some w3 ∧
          w3.log = sample_running.log :=
  no_firing_after_stop World.init Reachable.init 1000 7
    [Action.advance 1000, Action.complete 0 error_code.success handler_action.plain]
    sample_running [Action.complete 0 error_code.success handler_action.plain] sample_stopped
    (by rfl) (by rfl)


/-! ## Completions during which the handler makes no call -/

theorem release_acquire_log (w : World) (h : Nat) (l : List Event) :
    World.release { w.acquire h with log := l } h = { w with log := l } := by
  have := release_acquire w h
  unfold World.acquire World.release at this ⊢
  simp only at this ⊢
  have hh := congrArg World.handlers this
  simp only at hh
  rw [hh]

/-- The callback of engine `self`, whose handler reference resolves to `h`,
when the handler makes no call: the invocation is logged, and, if the status
is ok and no exception escapes, one wait is submitted, due one stored interval
from now. Nothing else changes. -/
theorem handle_timeout_quiet (w : World) (self : Nat) (error : error_code)
    (act : handler_action) (t : internal_timer) (h : Nat) (o : handler_impl)
    (ht : w.engines[self]? = some t) (hl : w.lock t.handler_ = some h)
    (ho : w.handlers[h]? = some o) (hc : act.calls = []) :
    (internal_timer.handle_timeout w self error act).1 =
      if error.ok = true ∧ act.outcome ≠ some thrown.other then
        { w with
          engines := w.engines.set self { t with timer_ :=
            { expiry := some (w.now + t.interval_),
              waits := t.timer_.waits ++
                [{ deadline := some (w.now + t.interval_), cancelled := false }] } },
          log := w.log ++ [Event.invoke self h o.handler_func_ error w.now,
            Event.wait self (some (w.now + t.interval_)) w.now] }
      else
        { w with log := w.log ++ [Event.invoke self h o.handler_func_ error w.now] } := by
  have hfired : (handler_impl.handler (w.acquire h) self h error act).1.release h =
      { w with log := w.log ++ [Event.invoke self h o.handler_func_ error w.now] } := by
    rw [handler_eq w self h error act o ho, hc]
    exact release_acquire_log w h _
  rw [handle_timeout_resolved w self error act t h ht hl, hfired]
  by_cases hx : act.outcome = some thrown.other
  · simp [hx]
  · rw [if_neg hx]
    simp only
    have ht1 : ({ w with log := w.log ++ [Event.invoke self h o.handler_func_ error w.now] } :
        World).engines[self]? = some t := ht
    have hl1 : World.lock { w with
        log := w.log ++ [Event.invoke self h o.handler_func_ error w.now] } t.handler_ =
        some h := hl
    rw [reschedule_eq _ self error t ht1, hl1]
    by_cases hok : error.ok = true
    · have hcond : error.ok = true ∧ act.outcome ≠ some thrown.other := ⟨hok, hx⟩
      rw [if_pos hcond, if_pos ⟨hok, rfl⟩, arm_eq _ self t ht1]
      simp
    · have hcond : ¬ (error.ok = true ∧ act.outcome ≠ some thrown.other) := fun c => hok c.1
      have hcond2 : ¬ (error.ok = true ∧ (some h).isSome = true) := fun c => hok c.1
      rw [if_neg hcond, if_neg hcond2]

/-- A quiet step keeps the facade, the handler objects, and the weak reference
and the stored interval of every engine. -/
theorem quiet_step_keeps {w w1 : World} {a : Action} (hq : a.quiet = true)
    (hs : w.step a = some w1) :
    w1.facade = w.facade ∧ w1.handlers = w.handlers ∧
    ∀ (k : Nat) (t : internal_timer), w.engines[k]? = some t →
      ∃ t1 : internal_timer, w1.engines[k]? = some t1 ∧ t1.handler_ = t.handler_ ∧
        t1.interval_ = t.interval_ := by
  cases a with
  | call c => simp [Action.quiet] at hq
  | advance d =>
    simp only [World.step, Option.some.injEq] at hs
    subst hs
    exact ⟨rfl, rfl, fun k t ht => ⟨t, ht, rfl, rfl⟩⟩
  | complete e error act =>
    have hc : act.calls = [] := by
      simpa [Action.quiet] using hq
    simp only [World.step] at hs
    cases htw : w.take_wait e with
    | none => simp [htw] at hs
    | some p =>
      obtain ⟨op, w0⟩ := p
      simp only [htw, Option.some.injEq] at hs
      obtain ⟨t, rest, ht, _, hw0⟩ := take_wait_eq htw
      have hk0 : ∀ (k : Nat) (t0 : internal_timer), w.engines[k]? = some t0 →
          ∃ t1 : internal_timer, w0.engines[k]? = some t1 ∧ t1.handler_ = t0.handler_ ∧
            t1.interval_ = t0.interval_ := by
        intro k t0 ht0
        rw [hw0, with_engine_get]
        by_cases hk : e = k
        · simp only [hk, if_true, ht0, Option.map_some']
          exact ⟨_, rfl, rfl, rfl⟩
        · simp only [hk, if_false]
          exact ⟨t0, ht0, rfl, rfl⟩
      have hf0 : w0.facade = w.facade := by rw [hw0]; rfl
      have hh0 : w0.handlers = w.handlers := by rw [hw0]; rfl
      obtain ⟨t0, ht0, _, _⟩ := hk0 e t ht
      cases hl : w0.lock t0.handler_ with
      | none =>
        rw [handle_timeout_expired w0 e error act t0 ht0 hl] at hs
        simp only at hs
        subst hs
        exact ⟨hf0, hh0, hk0⟩
      | some h =>
        have hlt := use_count_lt (lock_eq_some.mp hl).2
        have ho : w0.handlers[h]? = some w0.handlers[h] :=
          List.getElem?_eq_some_iff.mpr ⟨hlt, rfl⟩
        rw [handle_timeout_quiet w0 e error act t0 h _ ht0 hl ho hc] at hs
        subst hs
        split
        · refine ⟨hf0, hh0, ?_⟩
          intro k tk htk
          obtain ⟨t1, ht1, h1, h2⟩ := hk0 k tk htk
          simp only
          by_cases hk : e = k
          · subst hk
            rw [ht0] at ht1
            cases ht1
            have hlt0 : e < w0.engines.length := (List.getElem?_eq_some_iff.mp ht0).1
            rw [List.getElem?_set_self hlt0]
            exact ⟨_, rfl, h1, h2⟩
          · rw [List.getElem?_set_ne hk]
            exact ⟨t1, ht1, h1, h2⟩
        · exact ⟨hf0, hh0, hk0⟩

theorem active_start (w : World) (T : Duration) (f : Nat) :
    Active (basic_repeating_timer.start w T f) w.engines.length w.handlers.length f T := by
  refine ⟨start_facade w T f, ⟨fresh_engine w.now T w.handlers.length, ?_, rfl, rfl⟩, ?_⟩
  · rw [start_engine]; simp
  · rw [start_eq]
    simp only
    have := List.getElem?_concat_length (basic_repeating_timer.cleanup w).handlers
      ({ handler_func_ := f, use_count := 1 } : handler_impl)
    rw [cleanup_handlers_length] at this
    exact this

theorem Active.step {w w1 : World} {e h f : Nat} {T : Duration} (ha : Active w e h f T)
    {a : Action} (hq : a.quiet = true) (hs : w.step a = some w1) : Active w1 e h f T := by
  obtain ⟨hf, hh, hk⟩ := quiet_step_keeps hq hs
  obtain ⟨t, ht, h1, h2⟩ := ha.engine
  obtain ⟨t1, ht1, h11, h12⟩ := hk e t ht
  exact ⟨by rw [hf]; exact ha.facade, ⟨t1, ht1, by rw [h11, h1], by rw [h12, h2]⟩,
    by rw [hh]; exact ha.handler⟩

theorem Active.exec (as : List Action) : ∀ {w w1 : World} {e h f : Nat} {T : Duration},
    Active w e h f T → (∀ a ∈ as, a.quiet = true) → w.exec as = some w1 →
    Active w1 e h f T := by
  induction as with
  | nil =>
    intro w w1 e h f T ha _ hx
    simp only [World.exec, Option.some.injEq] at hx
    subst hx
    exact ha
  | cons a as ih =>
    intro w w2 e h f T ha hq hx
    simp only [World.exec] at hx
    cases hs : w.step a with
    | none => simp [hs] at hx
    | some w1 =>
      simp only [hs] at hx
      exact ih (ha.step (hq a (List.mem_cons_self a as)) hs)
        (fun b hb => hq b (List.mem_cons_of_mem a hb)) hx


/-- In a coherent world a live handler object is the one that the facade owns. -/
theorem Coherent.live {w : World} (hi : Coherent none w) {h : Nat} (hp : 0 < w.use_count h) :
    w.facade.handler_ = some h := by
  have := hi.counts h
  by_cases hf : w.facade.handler_ = some h
  · exact hf
  · simp [hf] at this
    omega

/-- A tick of the current cycle whose handler makes no call: the step is
possible as soon as the engine has an outstanding wait; the callable is invoked
with the status of the completion; and, if the status is ok and no exception
escapes, exactly one wait is submitted, due `T` from now. -/
theorem Active.tick {w : World} {e h f : Nat} {T : Duration} (hi : Coherent none w)
    (ha : Active w e h f T) (t : internal_timer) (ht : w.engines[e]? = some t)
    (hw : t.timer_.waits ≠ []) (error : error_code) (act : handler_action)
    (hc : act.calls = []) :
    ∃ w1 : World, w.step (Action.complete e error act) = some w1 ∧
      w1.now = w.now ∧
      w1.log = w.log ++ Event.invoke e h f error w.now ::
        (if error.ok = true ∧ act.outcome ≠ some thrown.other
          then [Event.wait e (some (w.now + T)) w.now] else []) ∧
      ∃ t1 : internal_timer, w1.engines[e]? = some t1 ∧ t1.interval_ = T ∧
        t1.timer_.waits =
          (if error.ok = true ∧ act.outcome ≠ some thrown.other
            then [{ deadline := some (w.now + T), cancelled := false }] else []) := by
  obtain ⟨t', ht', hth, hti⟩ := ha.engine
  rw [ht] at ht'
  cases ht'
  obtain ⟨op, w0, htw⟩ : ∃ op w0, w.take_wait e = some (op, w0) := by
    unfold World.take_wait
    cases hx : t.timer_.waits with
    | nil => exact absurd hx hw
    | cons a b => simp [ht, hx]
  obtain ⟨tt, htt, _, _, hg0, _, _, hl0, hn0, _, hh0⟩ := take_wait_coherent hi htw
  rw [ht] at htt
  cases htt
  obtain ⟨t0, hgen⟩ : ∃ t0 : internal_timer,
      t0 = { t with timer_ := { t.timer_ with waits := [] } } := ⟨_, rfl⟩
  rw [← hgen] at hg0
  have e1 : t0.handler_ = some h := by rw [hgen]; exact hth
  have e2 : t0.interval_ = T := by rw [hgen]; exact hti
  have e3 : t0.timer_.waits = [] := by rw [hgen]
  have hres : w0.lock t0.handler_ = some h := by
    rw [lock_congr hh0, lock_eq_some]
    refine ⟨e1, ?_⟩
    rw [use_count_eq_of_get ha.handler]
    exact Nat.one_pos
  have hq := handle_timeout_quiet w0 e error act t0 h _ hg0 hres
    (by rw [hh0]; exact ha.handler) hc
  have hstep : w.step (Action.complete e error act) =
      some (internal_timer.handle_timeout w0 e error act).1 := by
    simp only [World.step, htw]
  have hlt : e < w0.engines.length := (List.getElem?_eq_some_iff.mp hg0).1
  refine ⟨_, hstep, ?_, ?_, ?_⟩
  · rw [hq]
    split <;> exact hn0
  · rw [hq]
    by_cases hcond : error.ok = true ∧ act.outcome ≠ some thrown.other
    · rw [if_pos hcond, if_pos hcond]
      simp only [hl0, hn0, e2]
    · rw [if_neg hcond, if_neg hcond]
      simp only [hl0, hn0]
  · rw [hq]
    by_cases hcond : error.ok = true ∧ act.outcome ≠ some thrown.other
    · rw [if_pos hcond, if_pos hcond]
      simp only
      rw [List.getElem?_set_self hlt]
      exact ⟨_, rfl, e2, by simp [hn0, e2, e3]⟩
    · rw [if_neg hcond, if_neg hcond]
      exact ⟨t0, hg0, e2, e3⟩

/-- C2 (restart atomicity). In any reachable world, call `start(T1, f1)` and
then `start(T2, f2)` with no step in between. The facade then owns the second
engine and the second handler object, and the wait of the first engine is
still outstanding, marked as cancelled.
* In every continuation `rest`, whatever its steps and whatever the status
  with which the wait of the first engine completes, no event belongs to the
  first engine (it invokes nothing and submits no wait), the first handler
  object is never invoked, and, when `f1` differs from `f2` and `rest` does not
  register `f1` again, the callable `f1` is never invoked. In particular the
  completion of the pending wait of the first engine is a possible step, with
  any status, and it logs nothing.
* After any quiet continuation `run` (time passing, and completions during
  which the handler makes no call), a completion of the outstanding wait of the
  second engine is a possible step, it invokes `f2` with the status of the
  completion, and, if that status is ok and no exception escapes, it submits
  exactly one wait, due `T2` from now. -/
theorem restart_atomicity (w0 : World) (hr : Reachable w0) (T1 T2 : Duration) (f1 f2 : Nat) :
    (basic_repeating_timer.start (basic_repeating_timer.start w0 T1 f1) T2 f2).facade =
      { timer_ := some (w0.engines.length + 1), handler_ := some (w0.handlers.length + 1) } ∧
    (basic_repeating_timer.start (basic_repeating_timer.start w0 T1 f1) T2 f2).engines[
        w0.engines.length]? =
      some { timer_ := { expiry := some (w0.now + T1),
                         waits := [{ deadline := some (w0.now + T1), cancelled := true }] },
             handler_ := some w0.handlers.length, interval_ := T1 } ∧
    (∀ (rest : List Action) (w3 : World),
      (basic_repeating_timer.start (basic_repeating_timer.start w0 T1 f1) T2 f2).exec rest =
        some w3 →
      ∃ evs : List Event,
        w3.log = (basic_repeating_timer.start (basic_repeating_timer.start w0 T1 f1) T2 f2).log
          ++ evs ∧
        (∀ ev ∈ evs, ev.engine ≠ w0.engines.length) ∧
        (∀ ev ∈ evs, ∀ (e g : Nat) (error : error_code) (tm : Time),
          ev ≠ Event.invoke e w0.handlers.length g error tm) ∧
        (f1 ≠ f2 → (∀ a ∈ rest, f1 ∉ a.started) →
          ∀ ev ∈ evs, ∀ (e h : Nat) (error : error_code) (tm : Time),
            ev ≠ Event.invoke e h f1 error tm)) ∧
    (∀ (error : error_code) (act : handler_action),
      ∃ w3 : World,
        (basic_repeating_timer.start (basic_repeating_timer.start w0 T1 f1) T2 f2).step
          (Action.complete w0.engines.length error act) = some w3 ∧
        w3.log =
          (basic_repeating_timer.start (basic_repeating_timer.start w0 T1 f1) T2 f2).log) ∧
    (∀ (run : List Action) (w3 : World), (∀ a ∈ run, a.quiet = true) →
      (basic_repeating_timer.start (basic_repeating_timer.start w0 T1 f1) T2 f2).exec run =
        some w3 →
      ∀ t : internal_timer, w3.engines[w0.engines.length + 1]? = some t →
      t.timer_.waits ≠ [] →
      ∀ (error : error_code) (act : handler_action), act.calls = [] →
      ∃ w4 : World,
        w3.step (Action.complete (w0.engines.length + 1) error act) = some w4 ∧
        w4.log = w3.log ++
          Event.invoke (w0.engines.length + 1) (w0.handlers.length + 1) f2 error w3.now ::
          (if error.ok = true ∧ act.outcome ≠ some thrown.other
            then [Event.wait (w0.engines.length + 1) (some (w3.now + T2)) w3.now]
            else [])) := by
  have c1 := hr.coherent.start T1 f1
  have c2 := c1.start T2 f2
  have hfac : (basic_repeating_timer.start (basic_repeating_timer.start w0 T1 f1) T2 f2).facade =
      { timer_ := some (w0.engines.length + 1), handler_ := some (w0.handlers.length + 1) } := by
    rw [start_facade, start_engines_length, start_handlers_length]
  have hact : Active (basic_repeating_timer.start (basic_repeating_timer.start w0 T1 f1) T2 f2)
      (w0.engines.length + 1) (w0.handlers.length + 1) f2 T2 := by
    have := active_start (basic_repeating_timer.start w0 T1 f1) T2 f2
    rw [start_engines_length, start_handlers_length] at this
    exact this
  have heng : (basic_repeating_timer.start (basic_repeating_timer.start w0 T1 f1) T2
      f2).engines[w0.engines.length]? =
      some { timer_ := { expiry := some (w0.now + T1),
                         waits := [{ deadline := some (w0.now + T1), cancelled := true }] },
             handler_ := some w0.handlers.length, interval_ := T1 } := by
    rw [start_engine, start_engines_length]
    have hne : ¬ (w0.engines.length = w0.engines.length + 1) := by omega
    rw [if_neg hne, cleanup_engine, start_engine]
    simp [start_facade, fresh_engine, deadline_timer.cancel]
  have hdead : (basic_repeating_timer.start (basic_repeating_timer.start w0 T1 f1) T2
      f2).use_count w0.handlers.length = 0 := by
    rw [start_use_count, start_handlers_length]
    have hne : ¬ (w0.handlers.length = w0.handlers.length + 1) := by omega
    rw [if_neg hne]
    exact (cleanup_dead c1).1 _
  have hexp1 : World.lock
      (basic_repeating_timer.start (basic_repeating_timer.start w0 T1 f1) T2 f2)
      (some w0.handlers.length) = none := by
    rw [lock_eq_none]
    intro h hh
    simp only [Option.some.injEq] at hh
    rw [← hh]
    exact hdead
  have hpend : ∀ (error : error_code) (act : handler_action),
      ∃ w3 : World,
        (basic_repeating_timer.start (basic_repeating_timer.start w0 T1 f1) T2 f2).step
          (Action.complete w0.engines.length error act) = some w3 ∧
        w3.log =
          (basic_repeating_timer.start (basic_repeating_timer.start w0 T1 f1) T2 f2).log := by
    intro error act
    obtain ⟨w3, hs, hl3, _⟩ := expired_complete _ _ _ heng (by simp) hexp1 error act
    exact ⟨w3, hs, hl3⟩
  refine ⟨hfac, heng, ?_, hpend, ?_⟩
  · intro rest w3 hx
    obtain ⟨_, _, evs, hlog, hE, hD, hN⟩ := run_props rest c2 hx
    refine ⟨evs, hlog, ?_, ?_, ?_⟩
    · apply hE
      refine ⟨_, heng, ?_⟩
      rw [lock_eq_none]
      intro h hh
      simp only [Option.some.injEq] at hh
      rw [← hh]
      exact hdead
    · apply hD
      · rw [start_handlers_length, start_handlers_length]; omega
      · exact hdead
    · intro hne hn
      apply hN f1 _ hn
      intro h o ho hpos
      have hlive := c2.live (h := h) (by rw [use_count_eq_of_get ho]; exact hpos)
      rw [hfac] at hlive
      simp only [Option.some.injEq] at hlive
      rw [← hlive, hact.handler] at ho
      cases ho
      exact fun heq => hne heq.symm
  · intro run w3 hq hx t ht hw error act hc
    obtain ⟨c3, _, _⟩ := run_props run c2 hx
    have ha3 := hact.exec run hq hx
    obtain ⟨w4, hs, _, hlog, _⟩ := ha3.tick c3 t ht hw error act hc
    exact ⟨w4, hs, hlog⟩

/-- C2 from construction: `start(1000, 7)` then `start(50, 8)`. -/
theorem restart_atomicity_witness :
    (basic_repeating_timer.start (basic_repeating_timer.start World.init 1000 7) 50 8).facade =
      { timer_ := some 1, handler_ := some 1 } ∧
    (basic_repeating_timer.start (basic_repeating_timer.start World.init 1000 7) 50 8).engines[
        0]? =
      some { timer_ := { expiry := some 1000,
                         waits := [{ deadline := some 1000, cancelled := true }] },
             handler_ := some 0, interval_ := 1000 } ∧
    (∀ (rest : List Action) (w3 : World),
      (basic_repeating_timer.start (basic_repeating_timer.start World.init 1000 7) 50 8).exec
        rest = some w3 →
      ∃ evs : List Event,
        w3.log = (basic_repeating_timer.start
          (basic_repeating_timer.start World.init 1000 7) 50 8).log ++ evs ∧
        (∀ ev ∈ evs, ev.engine ≠ 0) ∧
        (∀ ev ∈ evs, ∀ (e g : Nat) (error : error_code) (tm : Time),
          ev ≠ Event.invoke e 0 g error tm) ∧
        ((7 : Nat) ≠ 8 → (∀ a ∈ rest, 7 ∉ a.started) →
          ∀ ev ∈ evs, ∀ (e h : Nat) (error : error_code) (tm : Time),
            ev ≠ Event.invoke e h 7 error tm)) ∧
    (∀ (error : error_code) (act : handler_action),
      ∃ w3 : World,
        (basic_repeating_timer.start (basic_repeating_timer.start World.init 1000 7) 50 8).step
          (Action.complete 0 error act) = some w3 ∧
        w3.log =
          (basic_repeating_timer.start (basic_repeating_timer.start World.init 1000 7) 50
            8).log) ∧
    (∀ (run : List Action) (w3 : World), (∀ a ∈ run, a.quiet = true) →
      (basic_repeating_timer.start (basic_repeating_timer.start World.init 1000 7) 50 8).exec
        run = some w3 →
      ∀ t : internal_timer, w3.engines[1]? = some t →
      t.timer_.waits ≠ [] →
      ∀ (error : error_code) (act : handler_action), act.calls = [] →
      ∃ w4 : World,
        w3.step (Action.complete 1 error act) = some w4 ∧
        w4.log = w3.log ++ Event.invoke 1 1 8 error w3.now ::
          (if error.ok = true ∧ act.outcome ≠ some thrown.other
            then [Event.wait 1 (some (w3.now + 50)) w3.now]
            else [])) :=
  restart_atomicity World.init Reachable.init 1000 50 7 8


/-- C3 (postcondition of start). For every world `w`, interval `T` and
callable `f`, after `start(T, f)`: the facade owns a handler object and an
engine that did not exist before (their indices are the former heap sizes);
the handler object wraps `f` and has the facade as its only owner; the engine
stores the interval `T`, its handler reference designates that handler object
and resolves, and it has exactly one outstanding wait, not cancelled, with
deadline now + `T`; exactly one wait was submitted by the call, for that
engine; and the clock did not move. -/
theorem start_postcondition (w : World) (T : Duration) (f : Nat) :
    (basic_repeating_timer.start w T f).facade =
      { timer_ := some w.engines.length, handler_ := some w.handlers.length } ∧
    w.handlers[w.handlers.length]? = none ∧
    w.engines[w.engines.length]? = none ∧
    (basic_repeating_timer.start w T f).handlers[w.handlers.length]? =
      some { handler_func_ := f, use_count := 1 } ∧
    (basic_repeating_timer.start w T f).engines[w.engines.length]? =
      some { timer_ := { expiry := some (w.now + T),
                         waits := [{ deadline := some (w.now + T), cancelled := false }] },
             handler_ := some w.handlers.length, interval_ := T } ∧
    (basic_repeating_timer.start w T f).lock (some w.handlers.length) =
      some w.handlers.length ∧
    (basic_repeating_timer.start w T f).log =
      w.log ++ [Event.wait w.engines.length (some (w.now + T)) w.now] ∧
    (basic_repeating_timer.start w T f).now = w.now := by
  have ha := active_start w T f
  refine ⟨start_facade w T f, List.getElem?_eq_none (Nat.le_refl _),
    List.getElem?_eq_none (Nat.le_refl _), ha.handler, ?_, ?_, ?_, ?_⟩
  · rw [start_engine]
    simp [fresh_engine]
  · rw [lock_eq_some]
    refine ⟨rfl, ?_⟩
    rw [use_count_eq_of_get ha.handler]
    exact Nat.one_pos
  · rw [start_eq]
    simp [cleanup_engines_length]
  · rw [start_eq]


theorem change_interval_engine (w : World) (T : Duration) (k : Nat) :
    (basic_repeating_timer.change_interval w T).engines[k]? =
      (w.engines[k]?).map (fun t =>
        if w.facade.timer_ = some k then { t with interval_ := T } else t) := by
  unfold basic_repeating_timer.change_interval
  cases h : w.facade.timer_ with
  | none => simp
  | some e =>
    simp only
    unfold internal_timer.change_interval
    rw [with_engine_get]
    by_cases hk : e = k
    · subst hk; simp
    · simp [hk]

theorem change_interval_rest (w : World) (T : Duration) :
    (basic_repeating_timer.change_interval w T).now = w.now ∧
    (basic_repeating_timer.change_interval w T).facade = w.facade ∧
    (basic_repeating_timer.change_interval w T).handlers = w.handlers ∧
    (basic_repeating_timer.change_interval w T).log = w.log := by
  unfold basic_repeating_timer.change_interval
  cases h : w.facade.timer_ with
  | none => exact ⟨rfl, rfl, rfl, rfl⟩
  | some e => exact ⟨rfl, rfl, rfl, rfl⟩

/-- In a coherent world where the facade owns engine `e`, the cycle of `e` is
the current one. -/
theorem Coherent.active {w : World} (hi : Coherent none w) {e : Nat} {t : internal_timer}
    (hown : w.facade.timer_ = some e) (ht : w.engines[e]? = some t) :
    ∃ h f : Nat, Active w e h f t.interval_ := by
  obtain ⟨t1, ht1, hh1⟩ := hi.owned e hown
  rw [ht] at ht1
  cases ht1
  have hp := hi.paired
  rw [hown] at hp
  obtain ⟨h, hh⟩ : ∃ h, w.facade.handler_ = some h := Option.isSome_iff_exists.mp hp
  have hc := hi.counts h
  rw [hh] at hc
  simp only [if_true] at hc
  have hc1 : w.use_count h = 1 := by simpa using hc
  have hlt : h < w.handlers.length := use_count_lt (by omega)
  have ho : w.handlers[h]? = some w.handlers[h] := List.getElem?_eq_some_iff.mpr ⟨hlt, rfl⟩
  have hu : (w.handlers[h]).use_count = 1 := by
    rw [← use_count_eq_of_get ho]; exact hc1
  refine ⟨h, (w.handlers[h]).handler_func_, ?_, ⟨t, ht, by rw [hh1, hh], rfl⟩, ?_⟩
  · cases hfac : w.facade with
    | mk a b =>
      rw [hfac] at hown hh
      simp only at hown hh
      rw [hown, hh]
  · rw [ho]
    congr 1
    cases hobj : w.handlers[h] with
    | mk a b =>
      rw [hobj] at hu
      simp only at hu
      rw [hu]

/-- C4 (an interval change is forward-only). `change_interval(T2)` modifies
only the interval stored in the engine that the facade owns: the clock, the
facade, the handler objects and the log are the same, and every engine keeps
its single-shot timer (expiry and outstanding waits with their deadlines) and
its handler reference. In a reachable world where the facade owns engine `e`
with the outstanding wait `op`, the wait is still `op` after the call, and
when, `d` later, that wait completes with status ok (the handler making no
call), the handler of the facade is invoked, and, unless an exception escapes,
the wait that the callback submits is due `T2` after the time of the re-arm. -/
theorem interval_change_forward_only (w : World) (hr : Reachable w) (e : Nat)
    (t : internal_timer) (op : wait_op) (T2 : Duration)
    (hown : w.facade.timer_ = some e) (ht : w.engines[e]? = some t)
    (hw : t.timer_.waits = [op]) :
    ((basic_repeating_timer.change_interval w T2).now = w.now ∧
      (basic_repeating_timer.change_interval w T2).facade = w.facade ∧
      (basic_repeating_timer.change_interval w T2).handlers = w.handlers ∧
      (basic_repeating_timer.change_interval w T2).log = w.log) ∧
    (∀ (k : Nat) (tk : internal_timer), w.engines[k]? = some tk →
      ∃ t1 : internal_timer,
        (basic_repeating_timer.change_interval w T2).engines[k]? = some t1 ∧
        t1.timer_ = tk.timer_ ∧ t1.handler_ = tk.handler_ ∧
        t1.interval_ = if k = e then T2 else tk.interval_) ∧
    (basic_repeating_timer.change_interval w T2).engines[e]? =
      some { t with interval_ := T2 } ∧
    ∃ h f : Nat, w.facade.handler_ = some h ∧
      ∀ (d : Nat) (act : handler_action), act.calls = [] →
      ∃ w1 : World,
        (basic_repeating_timer.change_interval w T2).exec
          [Action.advance d, Action.complete e error_code.success act] = some w1 ∧
        w1.log = w.log ++ Event.invoke e h f error_code.success (w.now + d) ::
          (if act.outcome ≠ some thrown.other
            then [Event.wait e (some (w.now + d + T2)) (w.now + d)] else []) ∧
        ∃ t1 : internal_timer, w1.engines[e]? = some t1 ∧
          t1.timer_.waits =
            (if act.outcome ≠ some thrown.other
              then [{ deadline := some (w.now + d + T2), cancelled := false }] else []) := by
  have hi := hr.coherent
  have hrest := change_interval_rest w T2
  have heng : (basic_repeating_timer.change_interval w T2).engines[e]? =
      some { t with interval_ := T2 } := by
    rw [change_interval_engine, ht]
    simp [hown]
  refine ⟨hrest, ?_, heng, ?_⟩
  · intro k tk htk
    rw [change_interval_engine, htk, hown]
    by_cases hk : k = e
    · subst hk
      simp
    · have : ¬ (e = k) := fun h => hk h.symm
      simp [hk, this]
  · obtain ⟨h, f, ha⟩ := hi.active hown ht
    have hfh : w.facade.handler_ = some h := by rw [ha.facade]
    refine ⟨h, f, hfh, ?_⟩
    intro d act hc
    have hi2 : Coherent none (basic_repeating_timer.change_interval w T2) :=
      hi.change_interval T2
    obtain ⟨te, hte, hteh, _⟩ := ha.engine
    rw [ht] at hte
    cases hte
    have ha2 : Active (basic_repeating_timer.change_interval w T2) e h f T2 :=
      ⟨by rw [hrest.2.1]; exact ha.facade, ⟨_, heng, hteh, rfl⟩,
        by rw [hrest.2.2.1]; exact ha.handler⟩
    have hs3 : (basic_repeating_timer.change_interval w T2).step (Action.advance d) =
        some { basic_repeating_timer.change_interval w T2 with
          now := (basic_repeating_timer.change_interval w T2).now + d } := rfl
    have hi3 := (step_props hi2 hs3).1
    have ha3 := ha2.step (a := Action.advance d) rfl hs3
    obtain ⟨w1, hs, _, hlog, t1, ht1, _, hw1⟩ :=
      ha3.tick hi3 { t with interval_ := T2 } heng (by simp [hw]) error_code.success act hc
    refine ⟨w1, ?_, ?_, t1, ht1, ?_⟩
    · simp only [World.exec, hs3, hs]
    · rw [hlog]
      simp only [hrest.1, hrest.2.2.2]
      have : error_code.success.ok = true := rfl
      simp [this]
    · rw [hw1]
      simp only [hrest.1]
      have : error_code.success.ok = true := rfl
      simp [this]

/-- C4 at a concrete run: `start(1000, 7)`, a tick at time 1000 (the next one
is due at 2000), then `change_interval(500)`: the outstanding wait is still due
at 2000, and the wait after it is due 500 after the re-arm. -/
theorem interval_change_forward_only_witness :
    (basic_repeating_timer.change_interval sample_running 500).engines[0]? =
      some { timer_ := { expiry := some 2000,
                         waits := [{ deadline := some 2000, cancelled := false }] },
             handler_ := some 0, interval_ := 500 } ∧
    ∃ h f : Nat, sample_running.facade.handler_ = some h ∧
      ∀ (d : Nat) (act : handler_action), act.calls = [] →
      ∃ w1 : World,
        (basic_repeating_timer.change_interval sample_running 500).exec
          [Action.advance d, Action.complete 0 error_code.success act] = some w1 ∧
        w1.log = sample_running.log ++
          Event.invoke 0 h f error_code.success (sample_running.now + d) ::
          (if act.outcome ≠ some thrown.other
            then [Event.wait 0 (some (sample_running.now + d + 500)) (sample_running.now + d)]
            else []) ∧
        ∃ t1 : internal_timer, w1.engines[0]? = some t1 ∧
          t1.timer_.waits =
            (if act.outcome ≠ some thrown.other
              then [{ deadline := some (sample_running.now + d + 500), cancelled := false }]
              else []) :=
  (interval_change_forward_only sample_running
    (Reachable.step (Action.complete 0 error_code.success handler_action.plain)
      (Reachable.step (Action.advance 1000)
        (Reachable.step (Action.call (Call.start 1000 7)) Reachable.init rfl) rfl) rfl)
    0 { timer_ := { expiry := some 2000,
                    waits := [{ deadline := some 2000, cancelled := false }] },
        handler_ := some 0, interval_ := 1000 }
    { deadline := some 2000, cancelled := false } 500 rfl rfl rfl).2.2

/-! ## Handler failures -/

/-- Calls that are all `change_interval` keep everything except stored
intervals. -/
theorem tune_calls (cs : List Call) (hcs : ∀ c ∈ cs, ∃ T, c = Call.change_interval T) :
    ∀ w : World, (w.calls cs).now = w.now ∧ (w.calls cs).facade = w.facade ∧
      (w.calls cs).handlers = w.handlers ∧ (w.calls cs).log = w.log ∧
      ∀ (k : Nat) (t : internal_timer), w.engines[k]? = some t →
        ∃ t1 : internal_timer, (w.calls cs).engines[k]? = some t1 ∧
          t1.timer_ = t.timer_ ∧ t1.handler_ = t.handler_ := by
  induction cs with
  | nil =>
    intro w
    exact ⟨rfl, rfl, rfl, rfl, fun k t ht => ⟨t, ht, rfl, rfl⟩⟩
  | cons c cs ih =>
    intro w
    obtain ⟨T, hT⟩ := hcs c (List.mem_cons_self c cs)
    subst hT
    obtain ⟨h1, h2, h3, h4, h5⟩ := ih (fun c hc => hcs c (List.mem_cons_of_mem _ hc))
      (basic_repeating_timer.change_interval w T)
    obtain ⟨r1, r2, r3, r4⟩ := change_interval_rest w T
    refine ⟨h1.trans r1, h2.trans r2, h3.trans r3, h4.trans r4, ?_⟩
    intro k t ht
    have hk : (basic_repeating_timer.change_interval w T).engines[k]? =
        some (if w.facade.timer_ = some k then { t with interval_ := T } else t) := by
      rw [change_interval_engine, ht]; rfl
    obtain ⟨t1, ht1, a1, a2⟩ := h5 k _ hk
    refine ⟨t1, ht1, ?_, ?_⟩
    · rw [a1]; split <;> rfl
    · rw [a2]; split <;> rfl

/-- The first block of the callback when the handler only retunes the
interval: apart from the log and the stored intervals nothing has changed when
the block is left. -/
theorem fired_tune (w : World) (self h : Nat) (error : error_code) (act : handler_action)
    (o : handler_impl) (t : internal_timer) (ht : w.engines[self]? = some t)
    (ho : w.handlers[h]? = some o)
    (hcs : ∀ c ∈ act.calls, ∃ T, c = Call.change_interval T) :
    ((handler_impl.handler (w.acquire h) self h error act).1.release h).now = w.now ∧
    ((handler_impl.handler (w.acquire h) self h error act).1.release h).facade = w.facade ∧
    ((handler_impl.handler (w.acquire h) self h error act).1.release h).handlers =
      w.handlers ∧
    ((handler_impl.handler (w.acquire h) self h error act).1.release h).log =
      w.log ++ [Event.invoke self h o.handler_func_ error w.now] ∧
    ∃ t1 : internal_timer,
      ((handler_impl.handler (w.acquire h) self h error act).1.release h).engines[self]? =
        some t1 ∧
      t1.timer_ = t.timer_ ∧ t1.handler_ = t.handler_ ∧ (act.calls = [] → t1 = t) := by
  rw [handler_eq w self h error act o ho]
  obtain ⟨h1, h2, h3, h4, h5⟩ := tune_calls act.calls hcs { w.acquire h with
    log := w.log ++ [Event.invoke self h o.handler_func_ error w.now] }
  refine ⟨h1, h2, ?_, h4, ?_⟩
  · have := congrArg World.handlers (release_acquire w h)
    unfold World.release at this ⊢
    simp only at this ⊢
    rw [h3]
    exact this
  · obtain ⟨t1, ht1, a1, a2⟩ := h5 self t ht
    refine ⟨t1, ht1, a1, a2, ?_⟩
    intro hnil
    rw [hnil] at ht1
    have : (World.calls { w.acquire h with
        log := w.log ++ [Event.invoke self h o.handler_func_ error w.now] } []).engines[self]? =
        some t := ht
    rw [this] at ht1
    cases ht1
    rfl


/-- A failure derived from `std::exception` does not stop the ticking: the case
of C5 that the catch clause covers. In a reachable world where the facade owns
engine `e`, which has an outstanding wait: if, on the completion of that wait with status ok, the handler throws an
exception derived from `std::exception`, having made no `start`, `stop` or
`cancel` call (so that the facade has not revoked it), then the step is
possible, the facade is as before, and the engine re-arms: it submits exactly
one wait, due one stored interval from now, the stored interval being the one
the engine holds at that moment (the one it held before, if the handler made
no call at all). -/
theorem handler_failure_keeps_ticking (w : World) (hr : Reachable w) (e : Nat)
    (t : internal_timer) (hown : w.facade.timer_ = some e) (ht : w.engines[e]? = some t)
    (hw : t.timer_.waits ≠ []) (act : handler_action)
    (hthrow : act.outcome = some thrown.std_exception)
    (hcs : ∀ c ∈ act.calls, ∃ T, c = Call.change_interval T) :
    ∃ (w1 : World) (h f : Nat) (t1 : internal_timer),
      w.step (Action.complete e error_code.success act) = some w1 ∧
      w.facade.handler_ = some h ∧
      w1.facade = w.facade ∧
      w1.engines[e]? = some t1 ∧
      t1.timer_.waits = [{ deadline := some (w.now + t1.interval_), cancelled := false }] ∧
      w1.log = w.log ++ [Event.invoke e h f error_code.success w.now,
        Event.wait e (some (w.now + t1.interval_)) w.now] ∧
      (act.calls = [] → t1.interval_ = t.interval_) := by
  have hi := hr.coherent
  obtain ⟨h, f, ha⟩ := hi.active hown ht
  obtain ⟨t', ht', hth, _⟩ := ha.engine
  rw [ht] at ht'
  cases ht'
  obtain ⟨op, w0, htw⟩ : ∃ op w0, w.take_wait e = some (op, w0) := by
    unfold World.take_wait
    cases hx : t.timer_.waits with
    | nil => exact absurd hx hw
    | cons a b => simp [ht, hx]
  obtain ⟨tt, htt, _, _, hg0, _, _, hl0, hn0, hf0, hh0⟩ := take_wait_coherent hi htw
  rw [ht] at htt
  cases htt
  obtain ⟨t0, hgen⟩ : ∃ t0 : internal_timer,
      t0 = { t with timer_ := { t.timer_ with waits := [] } } := ⟨_, rfl⟩
  rw [← hgen] at hg0
  have e1 : t0.handler_ = some h := by rw [hgen]; exact hth
  have e2 : t0.interval_ = t.interval_ := by rw [hgen]
  have e3 : t0.timer_.waits = [] := by rw [hgen]
  have hres : w0.lock t0.handler_ = some h := by
    rw [lock_congr hh0, lock_eq_some]
    refine ⟨e1, ?_⟩
    rw [use_count_eq_of_get ha.handler]
    exact Nat.one_pos
  have ho : w0.handlers[h]? = some { handler_func_ := f, use_count := 1 } := by
    rw [hh0]; exact ha.handler
  obtain ⟨n1, f1, hd1, l1, t1, ht1, a1, a2, a3⟩ :=
    fired_tune w0 e h error_code.success act _ t0 hg0 ho hcs
  have hne : ¬ (act.outcome = some thrown.other) := by rw [hthrow]; simp
  have hq := handle_timeout_resolved w0 e error_code.success act t0 h hg0 hres
  rw [if_neg hne] at hq
  have hlock : (World.lock ((handler_impl.handler (w0.acquire h) e h error_code.success
      act).1.release h) t1.handler_).isSome = true := by
    rw [lock_congr hd1, a2, hres]; rfl
  have hre := reschedule_eq _ e error_code.success t1 ht1
  rw [if_pos ⟨rfl, hlock⟩] at hre
  have hstep : w.step (Action.complete e error_code.success act) =
      some (internal_timer.handle_timeout w0 e error_code.success act).1 := by
    simp only [World.step, htw]
  rw [hq] at hstep
  simp only at hstep
  rw [hre] at hstep
  obtain ⟨X, hX, hXw, hXi⟩ : ∃ X : internal_timer,
      (internal_timer.arm ((handler_impl.handler (w0.acquire h) e h error_code.success
        act).1.release h) e).engines[e]? = some X ∧
      X.timer_.waits = [{ deadline := some (w.now + t1.interval_), cancelled := false }] ∧
      X.interval_ = t1.interval_ := by
    have hae := arm_engine _ e t1 ht1 e
    rw [if_pos rfl] at hae
    refine ⟨_, hae, ?_, rfl⟩
    simp only
    rw [a1, e3, n1, hn0]
    rfl
  refine ⟨_, h, f, X, hstep, by rw [ha.facade], ?_, hX, by rw [hXw, hXi], ?_, ?_⟩
  · rw [arm_eq _ e t1 ht1]
    simp only
    rw [f1, hf0]
  · rw [arm_eq _ e t1 ht1]
    simp only
    rw [l1, n1, hl0, hn0, hXi]
    simp
  · intro hnil
    rw [hXi, a3 hnil, e2]

/-- C5 (handler failure does not stop ticking), the code at the failing input:
in the reachable world `sample_running` the facade has not revoked the handler,
the wait of engine 0 completes with status ok, and the handler throws an object
that is not derived from `std::exception`. The clause
`catch( std::exception const & )` does not catch it, although its comment says
that the failure is consumed. The facade is unchanged, the invocation is
logged, and the engine does not re-arm: it is left without an outstanding wait
and no wait is submitted, so the next tick is not produced. -/
theorem handler_failure_other_stops_ticking :
    Reachable sample_running ∧
    sample_running.step (Action.complete 0 error_code.success
      { calls := [], outcome := some thrown.other }) =
      some { sample_running with
        engines := [{ timer_ := { expiry := some 2000, waits := [] },
                      handler_ := some 0, interval_ := 1000 }],
        log := sample_running.log ++ [Event.invoke 0 0 7 error_code.success 1000] } :=
  ⟨Reachable.step (Action.complete 0 error_code.success handler_action.plain)
      (Reachable.step (Action.advance 1000)
        (Reachable.step (Action.call (Call.start 1000 7)) Reachable.init rfl) rfl) rfl,
    rfl⟩

/-- The case of C5 that the catch clause covers, at a concrete tick: in
`sample_running` the handler throws a `std::exception`, and the next wait is
submitted, due at 2000. -/
theorem handler_failure_keeps_ticking_witness :
    ∃ (w1 : World) (h f : Nat) (t1 : internal_timer),
      sample_running.step (Action.complete 0 error_code.success
        { calls := [], outcome := some thrown.std_exception }) = some w1 ∧
      sample_running.facade.handler_ = some h ∧
      w1.facade = sample_running.facade ∧
      w1.engines[0]? = some t1 ∧
      t1.timer_.waits =
        [{ deadline := some (sample_running.now + t1.interval_), cancelled := false }] ∧
      w1.log = sample_running.log ++ [Event.invoke 0 h f error_code.success sample_running.now,
        Event.wait 0 (some (sample_running.now + t1.interval_)) sample_running.now] ∧
      ((({ calls := [], outcome := some thrown.std_exception } : handler_action).calls = []) →
        t1.interval_ = (1000 : Duration)) :=
  handler_failure_keeps_ticking sample_running
    (Reachable.step (Action.complete 0 error_code.success handler_action.plain)
      (Reachable.step (Action.advance 1000)
        (Reachable.step (Action.call (Call.start 1000 7)) Reachable.init rfl) rfl) rfl)
    0 { timer_ := { expiry := some 2000,
                    waits := [{ deadline := some 2000, cancelled := false }] },
        handler_ := some 0, interval_ := 1000 }
    rfl rfl (by simp) { calls := [], outcome := some thrown.std_exception } rfl
    (by simp)


/-- The case of C6 that the catch clause covers. Whatever the world, the
engine, the status and the behaviour of the handler: when the handler returns,
or throws an exception derived from `std::exception`, nothing leaves the
completion callback; the failure is caught by `catch( std::exception const & )`
and discarded. -/
theorem handler_failure_discarded (w : World) (self : Nat) (error : error_code)
    (act : handler_action) (hstd : act.outcome ≠ some thrown.other) :
    (internal_timer.handle_timeout w self error act).2 = none := by
  have hfire : (internal_timer.fire w self error act).2 = none := by
    unfold internal_timer.fire
    cases w.engines[self]? with
    | none => rfl
    | some t =>
      simp only
      cases w.lock t.handler_ with
      | none => rfl
      | some h =>
        simp only
        have h2 : (handler_impl.handler (w.acquire h) self h error act).2 = act.outcome := rfl
        rw [h2]
        cases ho : act.outcome with
        | none => rfl
        | some x =>
          cases x with
          | std_exception => rfl
          | other => exact absurd ho hstd
  unfold internal_timer.handle_timeout
  simp only [hfire]

/-- C6 (a failure of the handler is caught at the engine boundary and
discarded), the code at the failing input: the wait of engine 0 of
`sample_running` completes with status ok and the handler throws an object that
is not derived from `std::exception`. The clause
`catch( std::exception const & )` does not catch it: the object leaves the
completion callback and reaches the execution context. -/
theorem handler_failure_other_escapes :
    (sample_running.take_wait 0).map (fun p =>
      (internal_timer.handle_timeout p.2 0 error_code.success
        { calls := [], outcome := some thrown.other }).2) = some (some thrown.other) := by
  rfl

/-- The case of C6 that the catch clause covers, at a concrete callback: the
handler throws a `std::exception`. -/
theorem handler_failure_discarded_witness :
    (internal_timer.handle_timeout sample_running 0 error_code.success
      { calls := [], outcome := some thrown.std_exception }).2 = none :=
  handler_failure_discarded sample_running 0 error_code.success
    { calls := [], outcome := some thrown.std_exception } (by decide)

/-- A run from construction without a `start` leaves the world as constructed,
up to the clock. -/
theorem unstarted_run (as : List Action) : ∀ (w w1 : World),
    (∀ a ∈ as, ∀ (T : Duration) (f : Nat), a ≠ Action.call (Call.start T f)) →
    w.facade = { timer_ := none, handler_ := none } → w.engines = [] → w.handlers = [] →
    w.log = [] → w.exec as = some w1 →
    w1.facade = { timer_ := none, handler_ := none } ∧ w1.engines = [] ∧
      w1.handlers = [] ∧ w1.log = [] := by
  induction as with
  | nil =>
    intro w w1 _ h1 h2 h3 h4 hx
    simp only [World.exec, Option.some.injEq] at hx
    subst hx
    exact ⟨h1, h2, h3, h4⟩
  | cons a as ih =>
    intro w w2 hn h1 h2 h3 h4 hx
    simp only [World.exec] at hx
    cases hs : w.step a with
    | none => simp [hs] at hx
    | some w1 =>
      simp only [hs] at hx
      have hstay : w1.facade = { timer_ := none, handler_ := none } ∧ w1.engines = [] ∧
          w1.handlers = [] ∧ w1.log = [] := by
        cases a with
        | call c =>
          simp only [World.step, Option.some.injEq] at hs
          subst hs
          cases c with
          | start T f => exact absurd rfl (hn _ (List.mem_cons_self _ _) T f)
          | stop =>
            simp [World.call, basic_repeating_timer.stop, basic_repeating_timer.cleanup,
              basic_repeating_timer.reset_handler, h1, h2, h3, h4]
          | cancel =>
            simp [World.call, basic_repeating_timer.cancel, basic_repeating_timer.stop,
              basic_repeating_timer.cleanup, basic_repeating_timer.reset_handler, h1, h2, h3, h4]
          | change_interval T =>
            simp [World.call, basic_repeating_timer.change_interval, h1, h2, h3, h4]
        | advance d =>
          simp only [World.step, Option.some.injEq] at hs
          subst hs
          exact ⟨h1, h2, h3, h4⟩
        | complete e error act =>
          simp [World.step, World.take_wait, h2] at hs
      exact ih w1 w2 (fun b hb => hn b (List.mem_cons_of_mem a hb))
        hstay.1 hstay.2.1 hstay.2.2.1 hstay.2.2.2 hx

/-- C7 (stop is idempotent and a safe no-op when nothing is running). `stop`
is a total function of the world (it cannot fail), and `cancel` is `stop`. For
every world, `stop` followed by `stop` gives the same world as one `stop`. After
`stop`, and at construction, both facade members are empty; and in every world
where both are empty `stop` changes nothing at all: nothing is cancelled and
nothing is logged. On a timer that was never started, whatever the run of
`stop`, `cancel`, `change_interval`, completions and time passing, no engine
exists and no event (so no handler invocation) is ever logged. -/
theorem stop_idempotent :
    (∀ w : World, basic_repeating_timer.stop (basic_repeating_timer.stop w) =
      basic_repeating_timer.stop w) ∧
    (∀ w : World, basic_repeating_timer.cancel w = basic_repeating_timer.stop w) ∧
    (∀ w : World, (basic_repeating_timer.stop w).facade = { timer_ := none, handler_ := none }) ∧
    World.init.facade = { timer_ := none, handler_ := none } ∧
    (∀ w : World, w.facade = { timer_ := none, handler_ := none } →
      basic_repeating_timer.stop w = w) ∧
    (∀ (as : List Action) (w : World),
      (∀ a ∈ as, ∀ (T : Duration) (f : Nat), a ≠ Action.call (Call.start T f)) →
      World.init.exec as = some w → w.log = [] ∧ w.engines = [] ∧
        w.facade = { timer_ := none, handler_ := none }) := by
  have hnoop : ∀ w : World, w.facade = { timer_ := none, handler_ := none } →
      basic_repeating_timer.stop w = w := by
    intro w hw
    unfold basic_repeating_timer.stop basic_repeating_timer.cleanup
      basic_repeating_timer.reset_handler
    cases w with
    | mk now facade engines handlers log =>
      simp only at hw
      subst hw
      rfl
  refine ⟨fun w => hnoop _ (cleanup_facade w), fun _ => rfl, cleanup_facade, rfl, hnoop, ?_⟩
  intro as w hn hx
  obtain ⟨h1, h2, _, h4⟩ := unstarted_run as World.init w hn rfl rfl rfl rfl hx
  exact ⟨h4, h2, h1⟩

/-- C7 at concrete worlds: a running timer stopped twice, and a run without
`start` from construction. -/
theorem stop_idempotent_witness :
    basic_repeating_timer.stop (basic_repeating_timer.stop sample_running) =
      basic_repeating_timer.stop sample_running ∧
    basic_repeating_timer.stop World.init = World.init ∧
    (World.init.exec [Action.call Call.stop, Action.advance 5,
      Action.call (Call.change_interval 3), Action.call Call.cancel]).map
        (fun w => w.log) = some [] :=
  ⟨stop_idempotent.1 sample_running, stop_idempotent.2.2.2.2.1 World.init rfl, rfl⟩


/-- C8 (facade invariant). In every reachable world the facade owns a handler
object if and only if it owns an engine; `start` sets both members and `stop`
empties both. -/
theorem facade_members_paired (w : World) (hr : Reachable w) :
    (w.facade.handler_.isSome = true ↔ w.facade.timer_.isSome = true) ∧
    (w.facade.handler_ = none ↔ w.facade.timer_ = none) ∧
    (∀ (T : Duration) (f : Nat),
      (basic_repeating_timer.start w T f).facade =
        { timer_ := some w.engines.length, handler_ := some w.handlers.length }) ∧
    (basic_repeating_timer.stop w).facade = { timer_ := none, handler_ := none } := by
  have hp := hr.coherent.paired
  refine ⟨by rw [hp], ?_, fun T f => start_facade w T f, cleanup_facade w⟩
  cases h1 : w.facade.handler_ <;> cases h2 : w.facade.timer_ <;> simp [h1, h2] at hp ⊢

/-- C8 at a concrete world: after `start(1000, 7)` and one tick both members
are set. -/
theorem facade_members_paired_witness :
    (sample_running.facade.handler_.isSome = true ↔
      sample_running.facade.timer_.isSome = true) ∧
    (sample_running.facade.handler_ = none ↔ sample_running.facade.timer_ = none) ∧
    (∀ (T : Duration) (f : Nat),
      (basic_repeating_timer.start sample_running T f).facade =
        { timer_ := some sample_running.engines.length,
          handler_ := some sample_running.handlers.length }) ∧
    (basic_repeating_timer.stop sample_running).facade =
      { timer_ := none, handler_ := none } :=
  facade_members_paired sample_running
    (Reachable.step (Action.complete 0 error_code.success handler_action.plain)
      (Reachable.step (Action.advance 1000)
        (Reachable.step (Action.call (Call.start 1000 7)) Reachable.init rfl) rfl) rfl)

/-- C9 (engine invariant). In every reachable world every engine has at most
one outstanding wait. And in every step from such a world, a wait is submitted
either on an engine that the step has just created (the initial arm), or on an
engine that existed, by the step that completes the wait that was outstanding
on that very engine, with status ok. -/
theorem single_outstanding_wait (w : World) (hr : Reachable w) :
    (∀ (e : Nat) (t : internal_timer), w.engines[e]? = some t →
      t.timer_.waits.length ≤ 1) ∧
    (∀ (a : Action) (w1 : World), w.step a = some w1 →
      ∃ evs : List Event, w1.log = w.log ++ evs ∧
        ∀ (e : Nat) (d : Option Time) (tm : Time), Event.wait e d tm ∈ evs →
          w.engines.length ≤ e ∨
          ∃ (error : error_code) (act : handler_action) (t : internal_timer),
            a = Action.complete e error act ∧ error.ok = true ∧
            w.engines[e]? = some t ∧ t.timer_.waits ≠ []) := by
  have hi := hr.coherent
  refine ⟨hi.single, ?_⟩
  intro a w1 hs
  obtain ⟨_, _, evs, hlog, hev⟩ := step_props hi hs
  refine ⟨evs, hlog, ?_⟩
  intro e d tm hmem
  rcases hev _ hmem with ⟨_, hge⟩ | ⟨error, act, t, h, o, ha, ht, hne, _, _, hcase⟩
  · exact Or.inl hge
  · rcases hcase with hinv | ⟨hok, _⟩
    · cases hinv
    · exact Or.inr ⟨error, act, t, ha, hok, ht, hne⟩

/-- C9 at a concrete world: the engine of `sample_running` has one wait. -/
theorem single_outstanding_wait_witness :
    (∀ (e : Nat) (t : internal_timer), sample_running.engines[e]? = some t →
      t.timer_.waits.length ≤ 1) ∧
    (∀ (a : Action) (w1 : World), sample_running.step a = some w1 →
      ∃ evs : List Event, w1.log = sample_running.log ++ evs ∧
        ∀ (e : Nat) (d : Option Time) (tm : Time), Event.wait e d tm ∈ evs →
          sample_running.engines.length ≤ e ∨
          ∃ (error : error_code) (act : handler_action) (t : internal_timer),
            a = Action.complete e error act ∧ error.ok = true ∧
            sample_running.engines[e]? = some t ∧ t.timer_.waits ≠ []) :=
  single_outstanding_wait sample_running
    (Reachable.step (Action.complete 0 error_code.success handler_action.plain)
      (Reachable.step (Action.advance 1000)
        (Reachable.step (Action.call (Call.start 1000 7)) Reachable.init rfl) rfl) rfl)

/-- C10 (at most one active cycle). In every reachable world, an engine whose
handler reference resolves is the engine that the facade owns, and the
reference resolves to the handler object that the facade owns; so at most one
engine has such a reference. Every other engine (replaced by a later `start`,
or stopped) has an expired handler reference, keeps it expired in every
continuation, and no event of any continuation belongs to it: it never invokes
a handler and never submits a wait again. -/
theorem one_active_cycle (w : World) (hr : Reachable w) :
    (∀ (e : Nat) (t : internal_timer) (h : Nat), w.engines[e]? = some t →
      w.lock t.handler_ = some h →
      w.facade.timer_ = some e ∧ w.facade.handler_ = some h) ∧
    (∀ (e : Nat) (t : internal_timer), w.engines[e]? = some t → w.facade.timer_ ≠ some e →
      w.lock t.handler_ = none ∧
      ∀ (rest : List Action) (w1 : World), w.exec rest = some w1 →
        (∃ t1 : internal_timer, w1.engines[e]? = some t1 ∧ w1.lock t1.handler_ = none) ∧
        ∃ evs : List Event, w1.log = w.log ++ evs ∧ ∀ ev ∈ evs, ev.engine ≠ e) := by
  have hi := hr.coherent
  have hfirst : ∀ (e : Nat) (t : internal_timer) (h : Nat), w.engines[e]? = some t →
      w.lock t.handler_ = some h →
      w.facade.timer_ = some e ∧ w.facade.handler_ = some h := by
    intro e t h ht hl
    obtain ⟨hth, hp⟩ := lock_eq_some.mp hl
    have hlive := hi.live hp
    exact ⟨hi.unique e t ht (by rw [hth]; rfl) (by rw [hth, hlive]), hlive⟩
  refine ⟨hfirst, ?_⟩
  intro e t ht hnot
  have hexp : w.lock t.handler_ = none := by
    cases hl : w.lock t.handler_ with
    | none => rfl
    | some h => exact absurd (hfirst e t h ht hl).1 hnot
  refine ⟨hexp, ?_⟩
  intro rest w1 hx
  obtain ⟨_, hf, evs, hlog, hE, _, _⟩ := run_props rest hi hx
  exact ⟨expired_frame hi hf ⟨t, ht, hexp⟩, evs, hlog, hE e ⟨t, ht, hexp⟩⟩

/-- C10 at a concrete world: after `start(1000, 7)` then `start(50, 8)` the
first engine, whose wait is still pending, is expired for ever. -/
theorem one_active_cycle_witness :
    (basic_repeating_timer.start (basic_repeating_timer.start World.init 1000 7) 50 8).lock
      (some 0) = none ∧
    ∀ (rest : List Action) (w1 : World),
      (basic_repeating_timer.start (basic_repeating_timer.start World.init 1000 7) 50 8).exec
        rest = some w1 →
      (∃ t1 : internal_timer, w1.engines[0]? = some t1 ∧ w1.lock t1.handler_ = none) ∧
      ∃ evs : List Event,
        w1.log = (basic_repeating_timer.start
          (basic_repeating_timer.start World.init 1000 7) 50 8).log ++ evs ∧
        ∀ ev ∈ evs, ev.engine ≠ 0 :=
  (one_active_cycle
    (basic_repeating_timer.start (basic_repeating_timer.start World.init 1000 7) 50 8)
    (Reachable.step (Action.call (Call.start 50 8))
      (Reachable.step (Action.call (Call.start 1000 7)) Reachable.init rfl) rfl)).2 0
    { timer_ := { expiry := some 1000,
                  waits := [{ deadline := some 1000, cancelled := true }] },
      handler_ := some 0, interval_ := 1000 }
    rfl (by decide)


/-! ## Calls on a facade without an engine, and the intervals that `start` accepts -/

/-- The first half of C12: in every world where the facade owns no engine,
`change_interval(T)` leaves the whole world as it is. -/
theorem change_interval_noop (w : World) (T : Duration) (hno : w.facade.timer_ = none) :
    basic_repeating_timer.change_interval w T = w := by
  unfold basic_repeating_timer.change_interval
  rw [hno]

/-- The first half of C12 at concrete worlds: a timer that was never started,
and one that was stopped. -/
theorem change_interval_noop_witness :
    basic_repeating_timer.change_interval World.init 500 = World.init ∧
    basic_repeating_timer.change_interval sample_stopped 500 = sample_stopped :=
  ⟨change_interval_noop World.init 500 rfl, change_interval_noop sample_stopped 500 rfl⟩

/-- The completion of an outstanding wait, from a coherent world: the step is
possible; when the handler reference of the engine is expired nothing is
logged and nothing leaves the callback; when it resolves, the handler is
invoked first, once, with the status of the completion, every other event of
the step is a wait submission, and what leaves the callback is what the
handler threw, if that is not derived from `std::exception`. -/
theorem complete_events {w : World} (hi : Coherent none w) (e : Nat) (t : internal_timer)
    (ht : w.engines[e]? = some t) (hw : t.timer_.waits ≠ []) (error : error_code)
    (act : handler_action) :
    ∃ (op : wait_op) (w0 : World), w.take_wait e = some (op, w0) ∧
      w.step (Action.complete e error act) =
        some (internal_timer.handle_timeout w0 e error act).1 ∧
      (w.lock t.handler_ = none →
        (internal_timer.handle_timeout w0 e error act).1.log = w.log ∧
        (internal_timer.handle_timeout w0 e error act).2 = none) ∧
      (∀ h : Nat, w.lock t.handler_ = some h →
        ∃ (o : handler_impl) (evs : List Event), w.handlers[h]? = some o ∧
          (internal_timer.handle_timeout w0 e error act).1.log =
            w.log ++ Event.invoke e h o.handler_func_ error w.now :: evs ∧
          (∀ ev ∈ evs, ev.is_invoke = false) ∧
          (internal_timer.handle_timeout w0 e error act).2 =
            if act.outcome = some thrown.other then some thrown.other else none) := by
  obtain ⟨op, w0, htw⟩ : ∃ op w0, w.take_wait e = some (op, w0) := by
    unfold World.take_wait
    cases hx : t.timer_.waits with
    | nil => exact absurd hx hw
    | cons a b => simp [ht, hx]
  obtain ⟨tt, htt, _, _, hg0, c0, _, hl0, hn0, _, hh0⟩ := take_wait_coherent hi htw
  rw [ht] at htt
  cases htt
  obtain ⟨t0, hgen⟩ : ∃ t0 : internal_timer,
      t0 = { t with timer_ := { t.timer_ with waits := [] } } := ⟨_, rfl⟩
  rw [← hgen] at hg0
  have e1 : t0.handler_ = t.handler_ := by rw [hgen]
  have e3 : t0.timer_.waits = [] := by rw [hgen]
  refine ⟨op, w0, htw, by simp only [World.step, htw], ?_, ?_⟩
  · intro hl
    have hl0' : w0.lock t0.handler_ = none := by rw [lock_congr hh0, e1]; exact hl
    rw [handle_timeout_expired w0 e error act t0 hg0 hl0']
    exact ⟨hl0, rfl⟩
  · intro h hl
    have hl0' : w0.lock t0.handler_ = some h := by rw [lock_congr hh0, e1]; exact hl
    obtain ⟨_, _, _, o, evs, ho, hlog, hevs⟩ :=
      handle_timeout_props c0 e error act t0 h hg0 e3 hl0'
    refine ⟨o, evs, by rw [← hh0]; exact ho, by rw [hlog, hl0, hn0], ?_, ?_⟩
    · intro ev hev
      rcases hevs ev hev with ⟨hni, _⟩ | ⟨_, d, hd⟩
      · exact hni
      · rw [hd]; rfl
    · rw [handle_timeout_resolved w0 e error act t0 h hg0 hl0']
      by_cases hx : act.outcome = some thrown.other
      · rw [if_pos hx, if_pos hx]
      · rw [if_neg hx, if_neg hx]

/-- C17 (status delivery). In a reachable world, take any engine with an
outstanding wait and complete that wait with any status, the callable behaving
in any way. The step is possible. If the handler reference of the engine
resolves, the first event of the step is the invocation of that handler object
with exactly the status of the completion, and no other event of the step is
an invocation (the handler is invoked exactly once). If it does not resolve,
the step logs nothing (zero invocations). And the only thing that can leave the
callback is an object that the handler itself threw: the status is never
raised by the engine. -/
theorem status_delivery (w : World) (hr : Reachable w) (e : Nat) (t : internal_timer)
    (ht : w.engines[e]? = some t) (hw : t.timer_.waits ≠ []) (error : error_code)
    (act : handler_action) :
    ∃ (op : wait_op) (w0 w1 : World), w.take_wait e = some (op, w0) ∧
      w.step (Action.complete e error act) = some w1 ∧
      (w.lock t.handler_ = none → w1.log = w.log) ∧
      (∀ h : Nat, w.lock t.handler_ = some h →
        ∃ (o : handler_impl) (evs : List Event), w.handlers[h]? = some o ∧
          w1.log = w.log ++ Event.invoke e h o.handler_func_ error w.now :: evs ∧
          ∀ ev ∈ evs, ev.is_invoke = false) ∧
      ((internal_timer.handle_timeout w0 e error act).2 = none ∨
        ((internal_timer.handle_timeout w0 e error act).2 = act.outcome ∧
          act.outcome = some thrown.other ∧ (w.lock t.handler_).isSome = true)) := by
  obtain ⟨op, w0, htw, hs, hnone, hsome⟩ := complete_events hr.coherent e t ht hw error act
  refine ⟨op, w0, _, htw, hs, fun hl => (hnone hl).1, ?_, ?_⟩
  · intro h hl
    obtain ⟨o, evs, ho, hlog, hevs, _⟩ := hsome h hl
    exact ⟨o, evs, ho, hlog, hevs⟩
  · cases hl : w.lock t.handler_ with
    | none => exact Or.inl (hnone hl).2
    | some h =>
      obtain ⟨_, _, _, _, _, hout⟩ := hsome h hl
      by_cases hx : act.outcome = some thrown.other
      · rw [if_pos hx] at hout
        exact Or.inr ⟨by rw [hout, hx], hx, rfl⟩
      · rw [if_neg hx] at hout
        exact Or.inl hout

/-- C17 at a concrete completion: the wait of `sample_running` completes with
the status `operation_aborted` while the handler reference resolves. -/
theorem status_delivery_witness :
    ∃ (op : wait_op) (w0 w1 : World), sample_running.take_wait 0 = some (op, w0) ∧
      sample_running.step (Action.complete 0 error_code.operation_aborted
        handler_action.plain) = some w1 ∧
      (sample_running.lock (some 0) = none → w1.log = sample_running.log) ∧
      (∀ h : Nat, sample_running.lock (some 0) = some h →
        ∃ (o : handler_impl) (evs : List Event), sample_running.handlers[h]? = some o ∧
          w1.log = sample_running.log ++
            Event.invoke 0 h o.handler_func_ error_code.operation_aborted
              sample_running.now :: evs ∧
          ∀ ev ∈ evs, ev.is_invoke = false) ∧
      ((internal_timer.handle_timeout w0 0 error_code.operation_aborted
          handler_action.plain).2 = none ∨
        ((internal_timer.handle_timeout w0 0 error_code.operation_aborted
            handler_action.plain).2 = handler_action.plain.outcome ∧
          handler_action.plain.outcome = some thrown.other ∧
          (sample_running.lock (some 0)).isSome = true)) :=
  status_delivery sample_running
    (Reachable.step (Action.complete 0 error_code.success handler_action.plain)
      (Reachable.step (Action.advance 1000)
        (Reachable.step (Action.call (Call.start 1000 7)) Reachable.init rfl) rfl) rfl)
    0 { timer_ := { expiry := some 2000,
                    waits := [{ deadline := some 2000, cancelled := false }] },
        handler_ := some 0, interval_ := 1000 }
    rfl (by simp) error_code.operation_aborted handler_action.plain


/-! ## Engines without an outstanding wait -/

theorem arm_other (w : World) {self k : Nat} (hk : self ≠ k) :
    (internal_timer.arm w self).engines[k]? = w.engines[k]? := by
  unfold internal_timer.arm
  cases ht : w.engines[self]? with
  | none => rfl
  | some t => simp [List.getElem?_set_ne hk]

theorem reschedule_other (w : World) {self k : Nat} (hk : self ≠ k) (error : error_code) :
    (internal_timer.reschedule w self error).engines[k]? = w.engines[k]? := by
  unfold internal_timer.reschedule
  split
  · split
    · rfl
    · split
      · rfl
      · rename_i h _
        show (internal_timer.arm (w.acquire h) self).engines[k]? = _
        rw [arm_other _ hk]
        rfl
  · rfl

/-- The first block of the callback keeps the number of outstanding waits of
every engine. -/
theorem fire_waits (w : World) (self : Nat) (error : error_code) (act : handler_action)
    (k : Nat) (t : internal_timer) (ht : w.engines[k]? = some t) :
    ∃ t1 : internal_timer, (internal_timer.fire w self error act).1.engines[k]? = some t1 ∧
      t1.timer_.waits.length = t.timer_.waits.length ∧ t1.handler_ = t.handler_ := by
  cases hs : w.engines[self]? with
  | none =>
    have : internal_timer.fire w self error act = (w, none) := by
      unfold internal_timer.fire; simp [hs]
    rw [this]
    exact ⟨t, ht, rfl, rfl⟩
  | some ts =>
    cases hl : w.lock ts.handler_ with
    | none =>
      rw [fire_expired w self error act ts hs hl]
      exact ⟨t, ht, rfl, rfl⟩
    | some h =>
      rw [fire_resolved w self error act ts h hs hl]
      have hk : ({ w.acquire h with log := w.log ++
          [Event.invoke self h (match (w.acquire h).handlers[h]? with
            | some o => o.handler_func_
            | none => 0) error w.now] } : World).engines[k]? = some t := ht
      obtain ⟨t1, ht1, hw1⟩ := calls_waits act.calls _ k t hk
      obtain ⟨t2, ht2, hh2⟩ := (frame_calls act.calls _).engine k t hk
      rw [ht1] at ht2
      cases ht2
      exact ⟨t1, ht1, hw1, hh2⟩

/-- The callback of one engine keeps the number of outstanding waits of every
other engine. -/
theorem handle_timeout_other (w : World) (self : Nat) (error : error_code)
    (act : handler_action) {k : Nat} (hk : self ≠ k) (t : internal_timer)
    (ht : w.engines[k]? = some t) :
    ∃ t1 : internal_timer,
      (internal_timer.handle_timeout w self error act).1.engines[k]? = some t1 ∧
      t1.timer_.waits.length = t.timer_.waits.length := by
  obtain ⟨t1, ht1, hw1, _⟩ := fire_waits w self error act k t ht
  unfold internal_timer.handle_timeout
  simp only
  split
  · exact ⟨t1, ht1, hw1⟩
  · simp only [reschedule_other _ hk]
    exact ⟨t1, ht1, hw1⟩

/-- An engine without an outstanding wait has none after any step. -/
theorem step_idle {w w1 : World} {a : Action} (hs : w.step a = some w1) (e : Nat)
    (t : internal_timer) (ht : w.engines[e]? = some t) (hidle : t.timer_.waits = []) :
    ∃ t1 : internal_timer, w1.engines[e]? = some t1 ∧ t1.timer_.waits = [] := by
  cases a with
  | call c =>
    simp only [World.step, Option.some.injEq] at hs
    subst hs
    obtain ⟨t1, ht1, hw1⟩ := call_waits w c e t ht
    rw [hidle] at hw1
    exact ⟨t1, ht1, List.length_eq_zero.mp hw1⟩
  | advance d =>
    simp only [World.step, Option.some.injEq] at hs
    subst hs
    exact ⟨t, ht, hidle⟩
  | complete e1 error act =>
    simp only [World.step] at hs
    cases htw : w.take_wait e1 with
    | none => simp [htw] at hs
    | some p =>
      obtain ⟨op, w0⟩ := p
      simp only [htw, Option.some.injEq] at hs
      obtain ⟨t', rest, ht', hw', hw0⟩ := take_wait_eq htw
      have hne : e1 ≠ e := by
        intro heq
        rw [heq, ht] at ht'
        cases ht'
        rw [hidle] at hw'
        cases hw'
      have h0 : w0.engines[e]? = some t := by
        rw [hw0, with_engine_get]
        simp [hne, ht]
      obtain ⟨t1, ht1, hw1⟩ := handle_timeout_other w0 e1 error act hne t h0
      rw [hs] at ht1
      rw [hidle] at hw1
      exact ⟨t1, ht1, List.length_eq_zero.mp hw1⟩

/-- Retired is terminal: from a coherent world, an engine without an
outstanding wait has none after any run, and no event of the run belongs to
it. -/
theorem idle_run (as : List Action) : ∀ {w w1 : World}, Coherent none w →
    w.exec as = some w1 → ∀ (e : Nat) (t : internal_timer), w.engines[e]? = some t →
    t.timer_.waits = [] →
    (∃ t1 : internal_timer, w1.engines[e]? = some t1 ∧ t1.timer_.waits = []) ∧
    ∃ evs : List Event, w1.log = w.log ++ evs ∧ ∀ ev ∈ evs, ev.engine ≠ e := by
  induction as with
  | nil =>
    intro w w1 _ hx e t ht hidle
    simp only [World.exec, Option.some.injEq] at hx
    subst hx
    exact ⟨⟨t, ht, hidle⟩, [], by simp, by simp⟩
  | cons a as ih =>
    intro w w2 hi hx e t ht hidle
    simp only [World.exec] at hx
    cases hs : w.step a with
    | none => simp [hs] at hx
    | some w1 =>
      simp only [hs] at hx
      obtain ⟨c1, _, evs1, hl1, hev1⟩ := step_props hi hs
      obtain ⟨t1, ht1, hidle1⟩ := step_idle hs e t ht hidle
      obtain ⟨hfin, evs2, hl2, hev2⟩ := ih c1 hx e t1 ht1 hidle1
      refine ⟨hfin, evs1 ++ evs2, by rw [hl2, hl1, List.append_assoc], ?_⟩
      intro ev hev
      rcases List.mem_append.mp hev with hm | hm
      · rcases hev1 ev hm with ⟨_, hge⟩ | ⟨_, _, t', _, _, _, ht', hne, _⟩
        · have := (List.getElem?_eq_some_iff.mp ht).1
          omega
        · intro heq
          rw [heq, ht] at ht'
          cases ht'
          exact hne hidle
      · exact hev2 ev hm


/-- The first block of the callback of an engine without an outstanding wait,
from a coherent world: the world stays coherent, the clock does not move, no
wait is submitted on the engine, and an object leaves the block exactly when
the handler reference resolved and the handler threw something that is not
derived from `std::exception`. -/
theorem fire_props {w : World} (hi : Coherent none w) (self : Nat) (error : error_code)
    (act : handler_action) (t : internal_timer) (ht : w.engines[self]? = some t)
    (hidle : t.timer_.waits = []) :
    Coherent none (internal_timer.fire w self error act).1 ∧
    Frame w (internal_timer.fire w self error act).1 ∧
    (internal_timer.fire w self error act).1.now = w.now ∧
    (∃ evs : List Event, (internal_timer.fire w self error act).1.log = w.log ++ evs ∧
      ∀ ev ∈ evs, ∀ (d : Option Time) (tm : Time), ev ≠ Event.wait self d tm) ∧
    ((internal_timer.fire w self error act).2 = none ↔
      ¬ ((w.lock t.handler_).isSome = true ∧ act.outcome = some thrown.other)) := by
  cases hl : w.lock t.handler_ with
  | none =>
    rw [fire_expired w self error act t ht hl]
    exact ⟨hi, Frame.refl w, rfl, ⟨[], by simp, by simp⟩, by simp⟩
  | some h =>
    obtain ⟨c2, f2, n2, _, o, evs, _, hlog, hevs⟩ :=
      fired_props hi self error act t h ht hidle hl
    rw [fire_resolved w self error act t h ht hl]
    refine ⟨c2, f2, n2, ⟨_, hlog, ?_⟩, ?_⟩
    · intro ev hev d tm heq
      rcases List.mem_cons.mp hev with hm | hm
      · rw [heq] at hm
        cases hm
      · have hge := (hevs ev hm).2
        rw [heq] at hge
        have := (List.getElem?_eq_some_iff.mp ht).1
        simp only [Event.engine] at hge
        omega
    · by_cases hx : act.outcome = some thrown.other
      · simp [hx]
      · simp [hx]

theorem handle_timeout_eq (w : World) (self : Nat) (error : error_code)
    (act : handler_action) :
    (internal_timer.handle_timeout w self error act).1 =
      if (internal_timer.fire w self error act).2 = none
      then internal_timer.reschedule (internal_timer.fire w self error act).1 self error
      else (internal_timer.fire w self error act).1 := by
  unfold internal_timer.handle_timeout
  simp only
  cases h : (internal_timer.fire w self error act).2 with
  | none => simp
  | some x => simp

/-- The re-arm decision that the code takes (the decision of C15, with the
exception that escapes the first block taken into account). In a reachable
world, complete
the outstanding wait of an engine `e` with any status, the callable behaving in
any way; the callback starts in the world `w0` where that wait has been taken
off the timer, and `fire` is its first block (the handler invocation).
* The first block submits no wait on `e`, and an object leaves it exactly when
  the handler reference resolved and the handler threw something that is not
  derived from `std::exception`.
* The callback submits a new wait on `e` if and only if the status is ok, no
  object left the first block, and the handler reference resolves in the world
  that the first block leaves. In that case it is exactly one wait, due one
  stored interval from now.
* Otherwise the engine is retired: it has no outstanding wait after the step,
  and after any run from there it still has none and no event belongs to it. -/
theorem rearm_decision (w : World) (hr : Reachable w) (e : Nat) (t : internal_timer)
    (ht : w.engines[e]? = some t) (hw : t.timer_.waits ≠ []) (error : error_code)
    (act : handler_action) :
    ∃ (op : wait_op) (w0 w1 : World) (t0 : internal_timer) (evs : List Event),
      w.take_wait e = some (op, w0) ∧
      w.step (Action.complete e error act) = some w1 ∧
      (internal_timer.fire w0 e error act).1.engines[e]? = some t0 ∧
      ((internal_timer.fire w0 e error act).2 = none ↔
        ¬ ((w.lock t.handler_).isSome = true ∧ act.outcome = some thrown.other)) ∧
      w1.log = w.log ++ evs ∧
      ((∃ (d : Option Time) (tm : Time), Event.wait e d tm ∈ evs) ↔
        (error.ok = true ∧ (internal_timer.fire w0 e error act).2 = none ∧
          ((internal_timer.fire w0 e error act).1.lock t0.handler_).isSome = true)) ∧
      ((error.ok = true ∧ (internal_timer.fire w0 e error act).2 = none ∧
          ((internal_timer.fire w0 e error act).1.lock t0.handler_).isSome = true) →
        w1.log = (internal_timer.fire w0 e error act).1.log ++
          [Event.wait e (some (w.now + t0.interval_)) w.now] ∧
        ∃ t1 : internal_timer, w1.engines[e]? = some t1 ∧
          t1.timer_.waits = [{ deadline := some (w.now + t0.interval_), cancelled := false }]) ∧
      (¬ (error.ok = true ∧ (internal_timer.fire w0 e error act).2 = none ∧
          ((internal_timer.fire w0 e error act).1.lock t0.handler_).isSome = true) →
        w1 = (internal_timer.fire w0 e error act).1 ∧
        (∃ t1 : internal_timer, w1.engines[e]? = some t1 ∧ t1.timer_.waits = []) ∧
        ∀ (rest : List Action) (w2 : World), w1.exec rest = some w2 →
          (∃ t2 : internal_timer, w2.engines[e]? = some t2 ∧ t2.timer_.waits = []) ∧
          ∃ evs2 : List Event, w2.log = w1.log ++ evs2 ∧ ∀ ev ∈ evs2, ev.engine ≠ e) := by
  have hi := hr.coherent
  obtain ⟨op, w0, htw⟩ : ∃ op w0, w.take_wait e = some (op, w0) := by
    unfold World.take_wait
    cases hx : t.timer_.waits with
    | nil => exact absurd hx hw
    | cons a b => simp [ht, hx]
  obtain ⟨tt, htt, _, _, hg0, c0, _, hl0, hn0, _, hh0⟩ := take_wait_coherent hi htw
  rw [ht] at htt
  cases htt
  obtain ⟨ti, hgen⟩ : ∃ ti : internal_timer,
      ti = { t with timer_ := { t.timer_ with waits := [] } } := ⟨_, rfl⟩
  rw [← hgen] at hg0
  have e1 : ti.handler_ = t.handler_ := by rw [hgen]
  have e3 : ti.timer_.waits = [] := by rw [hgen]
  obtain ⟨cF, _, nF, ⟨evsF, hlogF, hevF⟩, hiff⟩ := fire_props c0 e error act ti hg0 e3
  obtain ⟨t0, ht0, hw0, _⟩ := fire_waits w0 e error act e ti hg0
  rw [e3] at hw0
  have hidle0 : t0.timer_.waits = [] := List.length_eq_zero.mp hw0
  have hstep : w.step (Action.complete e error act) =
      some (internal_timer.handle_timeout w0 e error act).1 := by
    simp only [World.step, htw]
  have hiff' : (internal_timer.fire w0 e error act).2 = none ↔
      ¬ ((w.lock t.handler_).isSome = true ∧ act.outcome = some thrown.other) := by
    rw [hiff, lock_congr hh0, e1]
  by_cases hcond : error.ok = true ∧ (internal_timer.fire w0 e error act).2 = none ∧
      ((internal_timer.fire w0 e error act).1.lock t0.handler_).isSome = true
  · have hres : (internal_timer.handle_timeout w0 e error act).1 =
        internal_timer.arm (internal_timer.fire w0 e error act).1 e := by
      rw [handle_timeout_eq, if_pos hcond.2.1, reschedule_eq _ e error t0 ht0,
        if_pos ⟨hcond.1, hcond.2.2⟩]
    have hlog1 : (internal_timer.handle_timeout w0 e error act).1.log =
        (internal_timer.fire w0 e error act).1.log ++
          [Event.wait e (some (w.now + t0.interval_)) w.now] := by
      rw [hres, arm_eq _ e t0 ht0]
      simp only
      rw [nF, hn0]
    refine ⟨op, w0, _, t0, evsF ++ [Event.wait e (some (w.now + t0.interval_)) w.now], htw,
      hstep, ht0, hiff', ?_, ?_, ?_, ?_⟩
    · rw [hlog1, hlogF, hl0, List.append_assoc]
    · constructor
      · intro _; exact hcond
      · intro _
        exact ⟨_, _, List.mem_append.mpr (Or.inr (List.mem_singleton.mpr rfl))⟩
    · intro _
      refine ⟨hlog1, ?_⟩
      have hae := arm_engine _ e t0 ht0 e
      rw [if_pos rfl] at hae
      rw [hres]
      refine ⟨_, hae, ?_⟩
      simp only
      rw [hidle0, nF, hn0]
      rfl
    · intro hn; exact absurd hcond hn
  · have hres : (internal_timer.handle_timeout w0 e error act).1 =
        (internal_timer.fire w0 e error act).1 := by
      rw [handle_timeout_eq]
      by_cases h2 : (internal_timer.fire w0 e error act).2 = none
      · rw [if_pos h2, reschedule_eq _ e error t0 ht0]
        have : ¬ (error.ok = true ∧
            ((internal_timer.fire w0 e error act).1.lock t0.handler_).isSome = true) :=
          fun c => hcond ⟨c.1, h2, c.2⟩
        rw [if_neg this]
      · rw [if_neg h2]
    refine ⟨op, w0, _, t0, evsF, htw, hstep, ht0, hiff', ?_, ?_, ?_, ?_⟩
    · rw [hres, hlogF, hl0]
    · constructor
      · intro ⟨d, tm, hmem⟩
        exact absurd rfl (hevF _ hmem d tm)
      · intro hc; exact absurd hc hcond
    · intro hc; exact absurd hc hcond
    · intro _
      rw [hres]
      refine ⟨rfl, ⟨t0, ht0, hidle0⟩, ?_⟩
      intro rest w2 hx
      exact idle_run rest cF hx e t0 ht0 hidle0

/-- C15 (re-arm decision), the code at the failing input: in `sample_running`
the wait of engine 0 completes with status ok and the handler throws an object
that is not derived from `std::exception`. The clause
`catch( std::exception const & )` does not catch it, and the object leaves the
callback before the second block. After the callback the handler reference
still resolves, yet the only event of the step is the invocation: no wait was
submitted, and the engine has no outstanding wait. -/
theorem rearm_skipped_when_failure_escapes :
    error_code.success.ok = true ∧
    (sample_running.step (Action.complete 0 error_code.success
      { calls := [], outcome := some thrown.other })).map
      (fun w1 => (w1.lock (some 0), w1.engines.map (fun t => t.timer_.waits),
        w1.log.drop sample_running.log.length)) =
      some (some 0, [[]], [Event.invoke 0 0 7 error_code.success 1000]) := by
  exact ⟨rfl, rfl⟩


/-- The re-arm decision at a concrete completion: the wait of `sample_running`
completes with status ok and the handler returns. -/
theorem rearm_decision_witness :
    ∃ (op : wait_op) (w0 w1 : World) (t0 : internal_timer) (evs : List Event),
      sample_running.take_wait 0 = some (op, w0) ∧
      sample_running.step (Action.complete 0 error_code.success handler_action.plain) =
        some w1 ∧
      (internal_timer.fire w0 0 error_code.success handler_action.plain).1.engines[0]? =
        some t0 ∧
      ((internal_timer.fire w0 0 error_code.success handler_action.plain).2 = none ↔
        ¬ ((sample_running.lock (some 0)).isSome = true ∧
          handler_action.plain.outcome = some thrown.other)) ∧
      w1.log = sample_running.log ++ evs ∧
      ((∃ (d : Option Time) (tm : Time), Event.wait 0 d tm ∈ evs) ↔
        (error_code.success.ok = true ∧
          (internal_timer.fire w0 0 error_code.success handler_action.plain).2 = none ∧
          ((internal_timer.fire w0 0 error_code.success handler_action.plain).1.lock
            t0.handler_).isSome = true)) ∧
      ((error_code.success.ok = true ∧
          (internal_timer.fire w0 0 error_code.success handler_action.plain).2 = none ∧
          ((internal_timer.fire w0 0 error_code.success handler_action.plain).1.lock
            t0.handler_).isSome = true) →
        w1.log = (internal_timer.fire w0 0 error_code.success handler_action.plain).1.log ++
          [Event.wait 0 (some (sample_running.now + t0.interval_)) sample_running.now] ∧
        ∃ t1 : internal_timer, w1.engines[0]? = some t1 ∧
          t1.timer_.waits =
            [{ deadline := some (sample_running.now + t0.interval_), cancelled := false }]) ∧
      (¬ (error_code.success.ok = true ∧
          (internal_timer.fire w0 0 error_code.success handler_action.plain).2 = none ∧
          ((internal_timer.fire w0 0 error_code.success handler_action.plain).1.lock
            t0.handler_).isSome = true) →
        w1 = (internal_timer.fire w0 0 error_code.success handler_action.plain).1 ∧
        (∃ t1 : internal_timer, w1.engines[0]? = some t1 ∧ t1.timer_.waits = []) ∧
        ∀ (rest : List Action) (w2 : World), w1.exec rest = some w2 →
          (∃ t2 : internal_timer, w2.engines[0]? = some t2 ∧ t2.timer_.waits = []) ∧
          ∃ evs2 : List Event, w2.log = w1.log ++ evs2 ∧ ∀ ev ∈ evs2, ev.engine ≠ 0) :=
  rearm_decision sample_running
    (Reachable.step (Action.complete 0 error_code.success handler_action.plain)
      (Reachable.step (Action.advance 1000)
        (Reachable.step (Action.call (Call.start 1000 7)) Reachable.init rfl) rfl) rfl)
    0 { timer_ := { expiry := some 2000,
                    waits := [{ deadline := some 2000, cancelled := false }] },
        handler_ := some 0, interval_ := 1000 }
    rfl (by simp) error_code.success handler_action.plain


/-! ## Calls made by the handler on its own timer -/

theorem run_lock_ops_call (w : World) (c : Call) (held : List mutex_id) (ops : List lock_op) :
    run_lock_ops true held (basic_repeating_timer.lock_ops w c ++ ops) =
      run_lock_ops true held ops := by
  cases c <;> cases h : w.facade.timer_ <;>
    simp [basic_repeating_timer.lock_ops, h, run_lock_ops]

theorem run_lock_ops_calls (cs : List Call) : ∀ (w : World) (held : List mutex_id)
    (ops : List lock_op),
    run_lock_ops true held (w.calls_lock_ops cs ++ ops) = run_lock_ops true held ops := by
  induction cs with
  | nil => intro w held ops; rfl
  | cons c cs ih =>
    intro w held ops
    show run_lock_ops true held
      ((basic_repeating_timer.lock_ops w c ++ (w.call c).calls_lock_ops cs) ++ ops) = _
    rw [List.append_assoc, run_lock_ops_call, ih]

/-- With reentrant mutexes the completion callback never waits for a mutex
that its own thread holds, whatever calls the handler makes on the timer, and
it leaves the thread with the guards it had. -/
theorem run_lock_ops_handle_timeout (w : World) (self : Nat) (act : handler_action)
    (held : List mutex_id) :
    run_lock_ops true held (internal_timer.lock_ops w self act) = some held := by
  unfold internal_timer.lock_ops
  have hend : run_lock_ops true (mutex_id.engine self :: held)
      [lock_op.release (mutex_id.engine self)] = some held := by
    simp [run_lock_ops]
  cases ht : w.engines[self]? with
  | none => simp [run_lock_ops]
  | some t =>
    cases hl : w.lock t.handler_ with
    | none => simp [run_lock_ops, hl]
    | some h =>
      simp only [hl]
      show run_lock_ops true held (lock_op.acquire (mutex_id.engine self) ::
        ((w.acquire h).calls_lock_ops act.calls ++ [lock_op.release (mutex_id.engine self)])) = _
      simp only [run_lock_ops, Bool.true_or, if_true]
      rw [run_lock_ops_calls]
      exact hend

/-- With plain mutexes a handler that calls `stop()` on its own timer would
never return: the callback holds the engine's mutex, and `stop` acquires it
again in `internal_timer::cancel`. -/
theorem plain_mutex_self_deadlock :
    (sample_running.take_wait 0).map (fun p =>
      run_lock_ops false [] (internal_timer.lock_ops p.2 0
        { calls := [Call.stop], outcome := none })) = some none := by
  rfl

theorem call_revoked (w : World) (c : Call) (h : Nat) (hlt : h < w.handlers.length)
    (hr : w.facade.handler_ ≠ some h ∨ c.revokes = true) :
    (w.call c).facade.handler_ ≠ some h := by
  cases c with
  | start T f =>
    show (basic_repeating_timer.start w T f).facade.handler_ ≠ some h
    rw [start_facade]
    simp only [ne_eq, Option.some.injEq]
    omega
  | stop =>
    show (basic_repeating_timer.cleanup w).facade.handler_ ≠ some h
    rw [cleanup_facade]
    simp
  | cancel =>
    show (basic_repeating_timer.cleanup w).facade.handler_ ≠ some h
    rw [cleanup_facade]
    simp
  | change_interval T =>
    rcases hr with hr | hr
    · show (basic_repeating_timer.change_interval w T).facade.handler_ ≠ some h
      rw [(change_interval_rest w T).2.1]
      exact hr
    · cases hr

/-- Once the facade has dropped its reference to a handler object it never
refers to that object again. -/
theorem calls_revoked (cs : List Call) : ∀ (w : World) (h : Nat), h < w.handlers.length →
    (w.facade.handler_ ≠ some h ∨ ∃ c ∈ cs, c.revokes = true) →
    (w.calls cs).facade.handler_ ≠ some h := by
  induction cs with
  | nil =>
    intro w h _ hr
    rcases hr with hr | ⟨c, hc, _⟩
    · exact hr
    · cases hc
  | cons c cs ih =>
    intro w h hlt hr
    have hlt1 : h < (w.call c).handlers.length :=
      Nat.lt_of_lt_of_le hlt (frame_call w c).handlers_le
    apply ih (w.call c) h hlt1
    rcases hr with hr | ⟨c1, hc1, hrev⟩
    · exact Or.inl (call_revoked w c h hlt (Or.inl hr))
    · rcases List.mem_cons.mp hc1 with heq | hmem
      · subst heq
        exact Or.inl (call_revoked w c1 h hlt (Or.inr hrev))
      · exact Or.inr ⟨c1, hmem, hrev⟩


/-- C16 (re-entrant stop from the handler). In a reachable world, the
outstanding wait of engine `e` completes, the handler reference of `e` resolves
to the handler object `h`, and the handler, while it is being invoked, calls
`stop()` on its own timer (among any other calls, before it returns or throws).
* With the reentrant mutexes of the source the callback never waits for a
  mutex that its own thread holds: its lock operations run to the end and
  leave no guard behind.
* The step is possible; its first event is the invocation of `h` with the
  status of the completion, and no other event of the step belongs to `e`: the
  engine does not re-arm.
* When the first block of the callback is left, the local owning reference
  has been released: the handler object is destroyed and the re-arm check
  finds the reference expired; the world after the step is the one that the
  first block leaves.
* After the step the engine has no outstanding wait, and in every
  continuation no event belongs to it, the handler object `h` is never invoked
  again, and, unless the callable is registered again by the handler's calls
  or by the continuation, the callable is never invoked again. -/
theorem reentrant_stop (w : World) (hr : Reachable w) (e : Nat) (t : internal_timer) (h : Nat)
    (ht : w.engines[e]? = some t) (hw : t.timer_.waits ≠ [])
    (hl : w.lock t.handler_ = some h) (error : error_code) (act : handler_action)
    (hstop : Call.stop ∈ act.calls) :
    ∃ (op : wait_op) (w0 w1 : World) (o : handler_impl) (evs : List Event),
      w.take_wait e = some (op, w0) ∧
      w.step (Action.complete e error act) = some w1 ∧
      w.handlers[h]? = some o ∧
      run_lock_ops true [] (internal_timer.lock_ops w0 e act) = some [] ∧
      w1.log = w.log ++ Event.invoke e h o.handler_func_ error w.now :: evs ∧
      (∀ ev ∈ evs, ev.is_invoke = false ∧ ev.engine ≠ e) ∧
      (internal_timer.fire w0 e error act).1.lock (some h) = none ∧
      w1 = (internal_timer.fire w0 e error act).1 ∧
      w1.facade.handler_ ≠ some h ∧ w1.use_count h = 0 ∧
      (∃ t1 : internal_timer, w1.engines[e]? = some t1 ∧ t1.timer_.waits = [] ∧
        t1.handler_ = some h) ∧
      ∀ (rest : List Action) (w2 : World), w1.exec rest = some w2 →
        ∃ evs2 : List Event, w2.log = w1.log ++ evs2 ∧
          (∀ ev ∈ evs2, ev.engine ≠ e) ∧
          (∀ ev ∈ evs2, ∀ (e1 g : Nat) (err : error_code) (tm : Time),
            ev ≠ Event.invoke e1 h g err tm) ∧
          (o.handler_func_ ∉ act.calls.flatMap Call.started →
            (∀ a ∈ rest, o.handler_func_ ∉ a.started) →
            ∀ ev ∈ evs2, ∀ (e1 h1 : Nat) (err : error_code) (tm : Time),
              ev ≠ Event.invoke e1 h1 o.handler_func_ err tm) := by
  have hi := hr.coherent
  obtain ⟨hth, hpos⟩ := lock_eq_some.mp hl
  obtain ⟨op, w0, htw⟩ : ∃ op w0, w.take_wait e = some (op, w0) := by
    unfold World.take_wait
    cases hx : t.timer_.waits with
    | nil => exact absurd hx hw
    | cons a b => simp [ht, hx]
  obtain ⟨tt, htt, _, _, hg0, c0, f0, hl0, hn0, hf0, hh0⟩ := take_wait_coherent hi htw
  rw [ht] at htt
  cases htt
  obtain ⟨ti, hgen⟩ : ∃ ti : internal_timer,
      ti = { t with timer_ := { t.timer_ with waits := [] } } := ⟨_, rfl⟩
  rw [← hgen] at hg0
  have e1 : ti.handler_ = some h := by rw [hgen]; exact hth
  have e3 : ti.timer_.waits = [] := by rw [hgen]
  have hl0' : w0.lock ti.handler_ = some h := by
    rw [lock_congr hh0, e1]
    rw [hth] at hl
    exact hl
  have hlen : e < w.engines.length := (List.getElem?_eq_some_iff.mp ht).1
  have hlen0 : w0.engines.length = w.engines.length :=
    Nat.le_antisymm (by
      obtain ⟨_, _, _, _, hw0⟩ := take_wait_eq htw
      rw [hw0]
      simp [World.with_engine, length_modify_at]) f0.engines_le
  obtain ⟨cF, fF, _, ⟨t2, ht2, hh2, hw2⟩, o, evs, ho, hlog, hevs⟩ :=
    fired_props c0 e error act ti h hg0 e3 hl0'
  have hfire := fire_resolved w0 e error act ti h hg0 hl0'
  have hF1 : (internal_timer.fire w0 e error act).1 =
      (handler_impl.handler (w0.acquire h) e h error act).1.release h := by rw [hfire]
  rw [← hF1] at cF fF ht2 hlog
  have hlt0 : h < w0.handlers.length := by rw [hh0]; exact use_count_lt hpos
  have hrev : (internal_timer.fire w0 e error act).1.facade.handler_ ≠ some h := by
    rw [hF1, handler_eq w0 e h error act o ho]
    show (World.calls _ act.calls).facade.handler_ ≠ some h
    apply calls_revoked
    · show h < (w0.acquire h).handlers.length
      simp only [World.acquire, length_modify_at]
      exact hlt0
    · exact Or.inr ⟨Call.stop, hstop, rfl⟩
  have hdead : (internal_timer.fire w0 e error act).1.use_count h = 0 := by
    have := cF.counts h
    simpa [hrev] using this
  have hexp : (internal_timer.fire w0 e error act).1.lock (some h) = none := by
    rw [lock_eq_none]
    intro k hk
    simp only [Option.some.injEq] at hk
    rw [← hk]; exact hdead
  have hh2' : t2.handler_ = some h := by rw [hh2, e1]
  have hres : (internal_timer.handle_timeout w0 e error act).1 =
      (internal_timer.fire w0 e error act).1 := by
    rw [handle_timeout_eq]
    by_cases h2 : (internal_timer.fire w0 e error act).2 = none
    · rw [if_pos h2, reschedule_eq _ e error t2 ht2, hh2', hexp]
      simp
    · rw [if_neg h2]
  have hstep : w.step (Action.complete e error act) =
      some (internal_timer.fire w0 e error act).1 := by
    simp only [World.step, htw]
    rw [hres]
  refine ⟨op, w0, _, o, evs, htw, hstep, by rw [← hh0]; exact ho,
    run_lock_ops_handle_timeout w0 e act [], by rw [hlog, hl0, hn0], ?_, hexp, rfl, hrev,
    hdead, ⟨t2, ht2, hw2, hh2'⟩, ?_⟩
  · intro ev hev
    have := hevs ev hev
    refine ⟨this.1, ?_⟩
    have hge := this.2
    omega
  · intro rest w2 hx
    obtain ⟨_, _, evs2, hlog2, hE, hD, hN⟩ := run_props rest cF hx
    refine ⟨evs2, hlog2, hE e ⟨t2, ht2, by rw [hh2']; exact hexp⟩,
      hD h (Nat.lt_of_lt_of_le hlt0 fF.handlers_le) hdead, ?_⟩
    intro hnc hnr
    apply hN o.handler_func_ _ hnr
    intro h1 o1 ho1 hpos1
    by_cases hlt1 : h1 < w0.handlers.length
    · have hne : h1 ≠ h := by
        intro heq
        subst heq
        rw [use_count_eq_of_get ho1] at hdead
        omega
      have hz : w0.use_count h1 = 0 := by
        have hc := c0.counts h1
        have hlive := c0.live (lock_eq_some.mp hl0').2
        rw [hlive] at hc
        have : ¬ (some h = some h1) := by
          simp only [Option.some.injEq]
          exact fun x => hne x.symm
        simpa [this] using hc
      have := fF.dead h1 hlt1 hz
      rw [use_count_eq_of_get ho1] at this
      omega
    · obtain ⟨l, hfl, hg⟩ := funcs_handle_timeout w0 e error act
      rw [hres] at hfl
      have h1g : (internal_timer.fire w0 e error act).1.funcs[h1]? =
          some o1.handler_func_ := by
        unfold World.funcs
        rw [List.getElem?_map, ho1]
        rfl
      rw [hfl] at h1g
      have hlenf : w0.funcs.length ≤ h1 := by
        unfold World.funcs
        rw [List.length_map]
        omega
      rw [List.getElem?_append_right hlenf] at h1g
      have hmem : o1.handler_func_ ∈ l := List.getElem?_mem h1g
      intro heq
      rw [heq] at hmem
      exact hnc (hg _ hmem)


/-- C16 at a concrete completion: in `sample_running` the handler calls `stop()`
during its invocation and returns. -/
theorem reentrant_stop_witness :
    ∃ (op : wait_op) (w0 w1 : World) (o : handler_impl) (evs : List Event),
      sample_running.take_wait 0 = some (op, w0) ∧
      sample_running.step (Action.complete 0 error_code.success
        { calls := [Call.stop], outcome := none }) = some w1 ∧
      sample_running.handlers[0]? = some o ∧
      run_lock_ops true [] (internal_timer.lock_ops w0 0
        { calls := [Call.stop], outcome := none }) = some [] ∧
      w1.log = sample_running.log ++
        Event.invoke 0 0 o.handler_func_ error_code.success sample_running.now :: evs ∧
      (∀ ev ∈ evs, ev.is_invoke = false ∧ ev.engine ≠ 0) ∧
      (internal_timer.fire w0 0 error_code.success
        { calls := [Call.stop], outcome := none }).1.lock (some 0) = none ∧
      w1 = (internal_timer.fire w0 0 error_code.success
        { calls := [Call.stop], outcome := none }).1 ∧
      w1.facade.handler_ ≠ some 0 ∧ w1.use_count 0 = 0 ∧
      (∃ t1 : internal_timer, w1.engines[0]? = some t1 ∧ t1.timer_.waits = [] ∧
        t1.handler_ = some 0) ∧
      ∀ (rest : List Action) (w2 : World), w1.exec rest = some w2 →
        ∃ evs2 : List Event, w2.log = w1.log ++ evs2 ∧
          (∀ ev ∈ evs2, ev.engine ≠ 0) ∧
          (∀ ev ∈ evs2, ∀ (e1 g : Nat) (err : error_code) (tm : Time),
            ev ≠ Event.invoke e1 0 g err tm) ∧
          (o.handler_func_ ∉
              ({ calls := [Call.stop], outcome := none } : handler_action).calls.flatMap
                Call.started →
            (∀ a ∈ rest, o.handler_func_ ∉ a.started) →
            ∀ ev ∈ evs2, ∀ (e1 h1 : Nat) (err : error_code) (tm : Time),
              ev ≠ Event.invoke e1 h1 o.handler_func_ err tm) :=
  reentrant_stop sample_running
    (Reachable.step (Action.complete 0 error_code.success handler_action.plain)
      (Reachable.step (Action.advance 1000)
        (Reachable.step (Action.call (Call.start 1000 7)) Reachable.init rfl) rfl) rfl)
    0 { timer_ := { expiry := some 2000,
                    waits := [{ deadline := some 2000, cancelled := false }] },
        handler_ := some 0, interval_ := 1000 }
    0 rfl (by simp) rfl error_code.success { calls := [Call.stop], outcome := none }
    (by simp)


/-! ## Cancellation comes after revocation -/

theorem cancel_safe_init : CancelSafe none World.init := by
  constructor
  · intro e t op h ht
    simp [World.init] at ht
  · intro e t h ht
    simp [World.init] at ht

theorem CancelSafe.of_cleanup {held : Option Nat} {w : World} (hi : Coherent held w)
    (hc : CancelSafe held w) : CancelSafe held (basic_repeating_timer.cleanup w) := by
  constructor
  · intro k tc op hh htc hop hcan hth
    rw [cleanup_engine] at htc
    cases ht : w.engines[k]? with
    | none => simp [ht] at htc
    | some t =>
      simp only [ht, Option.map_some', Option.some.injEq] at htc
      rw [cleanup_use_count]
      by_cases hk : w.facade.timer_ = some k
      · rw [if_pos hk] at htc
        have hth0 : t.handler_ = some hh := by rw [← hth, ← htc]
        obtain ⟨t', ht', hown⟩ := hi.owned k hk
        rw [ht] at ht'
        cases ht'
        have hfh : w.facade.handler_ = some hh := by rw [← hown, hth0]
        rw [if_pos hfh]
        by_cases hheld : held = some hh
        · have := hc.idle k t hh ht hth0 hheld
          rw [← htc] at hop
          simp [deadline_timer.cancel, this] at hop
        · have := hi.counts hh
          simp only [hfh, hheld, if_true, if_false] at this
          omega
      · rw [if_neg hk] at htc
        subst htc
        have := hc.revoked k t op hh ht hop hcan hth
        rw [this]
        split <;> rfl
  · intro k tc hh htc hth hheld
    rw [cleanup_engine] at htc
    cases ht : w.engines[k]? with
    | none => simp [ht] at htc
    | some t =>
      simp only [ht, Option.map_some', Option.some.injEq] at htc
      have hth0 : t.handler_ = some hh := by
        rw [← hth, ← htc]; split <;> rfl
      have := hc.idle k t hh ht hth0 hheld
      rw [← htc]
      split
      · simp [deadline_timer.cancel, this]
      · exact this

theorem CancelSafe.of_start {held : Option Nat} {w : World} (hi : Coherent held w)
    (hc : CancelSafe held w) (T : Duration) (f : Nat) :
    CancelSafe held (basic_repeating_timer.start w T f) := by
  have ci := hi.cleanup
  have cc := hc.of_cleanup hi
  have hheld : held ≠ some w.handlers.length := by
    intro hh
    have h1 := hi.counts w.handlers.length
    have h2 : w.use_count w.handlers.length = 0 := by
      unfold World.use_count
      rw [List.getElem?_eq_none (Nat.le_refl _)]
    rw [h2, hh] at h1
    simp at h1
  constructor
  · intro k ts op hh hts hop hcan hth
    rw [start_engine] at hts
    by_cases hk : k = w.engines.length
    · rw [if_pos hk] at hts
      simp only [Option.some.injEq] at hts
      rw [← hts] at hop
      simp only [fresh_engine, List.mem_singleton] at hop
      rw [hop] at hcan
      cases hcan
    · rw [if_neg hk] at hts
      have hlt := ci.valid k ts hh hts hth
      rw [cleanup_handlers_length] at hlt
      rw [start_use_count, if_neg (Nat.ne_of_lt hlt)]
      exact cc.revoked k ts op hh hts hop hcan hth
  · intro k ts hh hts hth hhe
    rw [start_engine] at hts
    by_cases hk : k = w.engines.length
    · rw [if_pos hk] at hts
      simp only [Option.some.injEq] at hts
      rw [← hts] at hth
      simp only [fresh_engine, Option.some.injEq] at hth
      rw [← hth] at hhe
      exact absurd hhe hheld
    · rw [if_neg hk] at hts
      exact cc.idle k ts hh hts hth hhe

theorem CancelSafe.of_change_interval {held : Option Nat} {w : World} (hc : CancelSafe held w)
    (T : Duration) : CancelSafe held (basic_repeating_timer.change_interval w T) := by
  have hu : ∀ h, (basic_repeating_timer.change_interval w T).use_count h = w.use_count h := by
    intro h
    unfold World.use_count
    rw [(change_interval_rest w T).2.2.1]
  constructor
  · intro k tc op hh htc hop hcan hth
    rw [change_interval_engine] at htc
    cases ht : w.engines[k]? with
    | none => simp [ht] at htc
    | some t =>
      simp only [ht, Option.map_some', Option.some.injEq] at htc
      rw [hu]
      apply hc.revoked k t op hh ht
      · rw [← htc] at hop
        split at hop <;> exact hop
      · exact hcan
      · rw [← hth, ← htc]; split <;> rfl
  · intro k tc hh htc hth hhe
    rw [change_interval_engine] at htc
    cases ht : w.engines[k]? with
    | none => simp [ht] at htc
    | some t =>
      simp only [ht, Option.map_some', Option.some.injEq] at htc
      have hth0 : t.handler_ = some hh := by
        rw [← hth, ← htc]; split <;> rfl
      have := hc.idle k t hh ht hth0 hhe
      rw [← htc]
      split <;> exact this

theorem CancelSafe.of_call {held : Option Nat} {w : World} (hi : Coherent held w)
    (hc : CancelSafe held w) (c : Call) : CancelSafe held (w.call c) := by
  cases c with
  | start T f => exact hc.of_start hi T f
  | stop => exact hc.of_cleanup hi
  | cancel => exact hc.of_cleanup hi
  | change_interval T => exact hc.of_change_interval T

theorem CancelSafe.of_calls {held : Option Nat} (cs : List Call) :
    ∀ {w : World}, Coherent held w → CancelSafe held w → CancelSafe held (w.calls cs) := by
  induction cs with
  | nil => intro w _ hc; exact hc
  | cons c cs ih =>
    intro w hi hc
    exact ih (hi.call c) (hc.of_call hi c)


theorem CancelSafe.of_acquire {w : World} (hc : CancelSafe none w) {h : Nat}
    (hp : 0 < w.use_count h)
    (hidle : ∀ (e : Nat) (t : internal_timer), w.engines[e]? = some t →
      t.handler_ = some h → t.timer_.waits = []) :
    CancelSafe (some h) (w.acquire h) := by
  constructor
  · intro k t op hh ht hop hcan hth
    have h0 := hc.revoked k t op hh ht hop hcan hth
    have hne : h ≠ hh := by
      intro heq
      rw [heq] at hp
      omega
    rw [use_count_acquire_ne w hne]
    exact h0
  · intro k t hh ht hth hhe
    simp only [Option.some.injEq] at hhe
    rw [← hhe] at hth
    exact hidle k t ht hth

theorem CancelSafe.of_release {w : World} {h : Nat} (hc : CancelSafe (some h) w) :
    CancelSafe none (w.release h) := by
  constructor
  · intro k t op hh ht hop hcan hth
    by_cases hne : h = hh
    · have := hc.idle k t hh ht hth (by rw [hne])
      rw [this] at hop
      cases hop
    · rw [use_count_release_ne w hne]
      exact hc.revoked k t op hh ht hop hcan hth
  · intro k t hh _ _ hhe
    cases hhe

theorem CancelSafe.with_log {held : Option Nat} {w : World} (hc : CancelSafe held w)
    (l : List Event) : CancelSafe held { w with log := l } :=
  ⟨hc.revoked, hc.idle⟩

theorem CancelSafe.with_now {held : Option Nat} {w : World} (hc : CancelSafe held w)
    (t : Time) : CancelSafe held { w with now := t } :=
  ⟨hc.revoked, hc.idle⟩

theorem CancelSafe.of_arm {w : World} (hc : CancelSafe none w) (self : Nat) :
    CancelSafe none (internal_timer.arm w self) := by
  cases hs : w.engines[self]? with
  | none =>
    have : internal_timer.arm w self = w := by
      unfold internal_timer.arm; simp [hs]
    rw [this]; exact hc
  | some ts =>
    have hu : ∀ h, (internal_timer.arm w self).use_count h = w.use_count h := by
      intro h
      rw [arm_eq w self ts hs]
      rfl
    constructor
    · intro k t op hh ht hop hcan hth
      rw [hu]
      rw [arm_engine w self ts hs] at ht
      by_cases hk : self = k
      · rw [if_pos hk] at ht
        simp only [Option.some.injEq] at ht
        rw [← ht] at hop hth
        simp only [List.mem_append, List.mem_singleton] at hop
        rcases hop with hop | hop
        · exact hc.revoked self ts op hh hs hop hcan hth
        · rw [hop] at hcan
          cases hcan
      · rw [if_neg hk] at ht
        exact hc.revoked k t op hh ht hop hcan hth
    · intro k t hh _ _ hhe
      cases hhe

theorem CancelSafe.of_take_wait {w w0 : World} {e : Nat} {op : wait_op}
    (hc : CancelSafe none w) (htw : w.take_wait e = some (op, w0)) : CancelSafe none w0 := by
  obtain ⟨t, rest, ht, hw, hw0⟩ := take_wait_eq htw
  constructor
  · intro k tk op1 hh htk hop hcan hth
    rw [hw0, with_engine_get] at htk
    have hu : w0.use_count hh = w.use_count hh := by rw [hw0]; rfl
    rw [hu]
    by_cases hk : e = k
    · subst hk
      simp only [if_true, ht, Option.map_some', Option.some.injEq] at htk
      rw [← htk] at hop hth
      exact hc.revoked e t op1 hh ht (by rw [hw]; exact List.mem_cons_of_mem _ hop) hcan hth
    · rw [if_neg hk] at htk
      exact hc.revoked k tk op1 hh htk hop hcan hth
  · intro k t hh _ _ hhe
    cases hhe

/-- The completion callback of an engine without an outstanding wait keeps
the invariant. -/
theorem CancelSafe.of_handle_timeout {w : World} (hi : Coherent none w)
    (hc : CancelSafe none w) (self : Nat) (error : error_code) (act : handler_action)
    (t : internal_timer) (ht : w.engines[self]? = some t) (hidle : t.timer_.waits = []) :
    CancelSafe none (internal_timer.handle_timeout w self error act).1 := by
  have hfire : CancelSafe none (internal_timer.fire w self error act).1 := by
    cases hl : w.lock t.handler_ with
    | none =>
      rw [fire_expired w self error act t ht hl]
      exact hc
    | some h =>
      obtain ⟨hth, hp⟩ := lock_eq_some.mp hl
      have hlt := use_count_lt hp
      obtain ⟨o, ho⟩ : ∃ o, w.handlers[h]? = some o :=
        ⟨w.handlers[h], List.getElem?_eq_some_iff.mpr ⟨hlt, rfl⟩⟩
      rw [fire_resolved w self error act t h ht hl]
      simp only
      rw [handler_eq w self h error act o ho]
      have hown : w.facade.timer_ = some self :=
        hi.unique self t ht (by rw [hth]; rfl) (by rw [hth, hi.live hp])
      have hidle' : ∀ (e : Nat) (t1 : internal_timer), w.engines[e]? = some t1 →
          t1.handler_ = some h → t1.timer_.waits = [] := by
        intro e t1 ht1 hth1
        have := hi.unique e t1 ht1 (by rw [hth1]; rfl) (by rw [hth1, hi.live hp])
        rw [hown] at this
        simp only [Option.some.injEq] at this
        subst this
        rw [ht] at ht1
        cases ht1
        exact hidle
      have c1 : CancelSafe (some h) { w.acquire h with
          log := w.log ++ [Event.invoke self h o.handler_func_ error w.now] } :=
        (hc.of_acquire hp hidle').with_log _
      have i1 : Coherent (some h) { w.acquire h with
          log := w.log ++ [Event.invoke self h o.handler_func_ error w.now] } :=
        (hi.acquire hp).of_log _
      exact (CancelSafe.of_calls act.calls i1 c1).of_release
  rw [handle_timeout_eq]
  split
  · unfold internal_timer.reschedule
    split
    · split
      · exact hfire
      · split
        · exact hfire
        · rw [arm_acquire_release]
          exact hfire.of_arm self
    · exact hfire
  · exact hfire

theorem CancelSafe.of_step {w w1 : World} (hi : Coherent none w) (hc : CancelSafe none w)
    {a : Action} (hs : w.step a = some w1) : CancelSafe none w1 := by
  cases a with
  | call c =>
    simp only [World.step, Option.some.injEq] at hs
    subst hs
    exact hc.of_call hi c
  | advance d =>
    simp only [World.step, Option.some.injEq] at hs
    subst hs
    exact hc.with_now _
  | complete e error act =>
    simp only [World.step] at hs
    cases htw : w.take_wait e with
    | none => simp [htw] at hs
    | some p =>
      obtain ⟨op, w0⟩ := p
      simp only [htw, Option.some.injEq] at hs
      obtain ⟨t, _, _, _, hg0, c0, _⟩ := take_wait_coherent hi htw
      rw [← hs]
      exact (hc.of_take_wait htw).of_handle_timeout c0 e error act _ hg0 rfl


/-- One step that respects the contract of the single-shot timer, from a world
that satisfies both invariants: every invocation that it logs has status
ok. -/
theorem honest_step {w w1 : World} (hi : Coherent none w) (hc : CancelSafe none w)
    {a : Action} (hh : w.honest a = true) (hs : w.step a = some w1) :
    ∃ evs : List Event, w1.log = w.log ++ evs ∧
      ∀ ev ∈ evs, ∀ (e h f : Nat) (err : error_code) (tm : Time),
        ev = Event.invoke e h f err tm → err.ok = true := by
  obtain ⟨_, _, evs, hlog, hev⟩ := step_props hi hs
  refine ⟨evs, hlog, ?_⟩
  intro ev hmem e h f err tm heq
  rcases hev ev hmem with ⟨hni, _⟩ | ⟨error, act, t, h0, o, ha, ht, hne, hl, _, hcase⟩
  · rw [heq] at hni
    cases hni
  · rcases hcase with hinv | ⟨_, d, hw⟩
    · rw [heq] at hinv
      simp only [Event.invoke.injEq] at hinv
      rw [hinv.2.2.2.1]
      rw [ha] at hh
      simp only [World.honest, Bool.or_eq_true] at hh
      rcases hh with hok | hcan
      · exact hok
      · exfalso
        cases htw : w.take_wait ev.engine with
        | none => simp [htw] at hcan
        | some p =>
          obtain ⟨op, w0⟩ := p
          simp only [htw] at hcan
          obtain ⟨t', rest, ht', hw', _⟩ := take_wait_eq htw
          rw [ht] at ht'
          cases ht'
          obtain ⟨hth, hp⟩ := lock_eq_some.mp hl
          have := hc.revoked ev.engine t op h0 ht (by rw [hw']; exact List.mem_cons_self _ _)
            hcan hth
          omega
    · rw [heq] at hw
      cases hw

theorem honest_run_props (as : List Action) : ∀ {w w1 : World}, Coherent none w →
    CancelSafe none w → w.honest_run as = true → w.exec as = some w1 →
    Coherent none w1 ∧ CancelSafe none w1 ∧
    ∃ evs : List Event, w1.log = w.log ++ evs ∧
      ∀ ev ∈ evs, ∀ (e h f : Nat) (err : error_code) (tm : Time),
        ev = Event.invoke e h f err tm → err.ok = true := by
  induction as with
  | nil =>
    intro w w1 hi hc _ hx
    simp only [World.exec, Option.some.injEq] at hx
    subst hx
    exact ⟨hi, hc, [], by simp, by simp⟩
  | cons a as ih =>
    intro w w2 hi hc hh hx
    simp only [World.exec] at hx
    cases hs : w.step a with
    | none => simp [hs] at hx
    | some w1 =>
      simp only [hs] at hx
      simp only [World.honest_run, hs, Bool.and_eq_true] at hh
      obtain ⟨evs1, hl1, hev1⟩ := honest_step hi hc hh.1 hs
      obtain ⟨c2, s2, evs2, hl2, hev2⟩ :=
        ih (step_props hi hs).1 (hc.of_step hi hs) hh.2 hx
      refine ⟨c2, s2, evs1 ++ evs2, by rw [hl2, hl1, List.append_assoc], ?_⟩
      intro ev hmem
      rcases List.mem_append.mp hmem with hm | hm
      · exact hev1 ev hm
      · exact hev2 ev hm

/-- C19 (through the facade's control surface the handler never observes a
cancellation). Take any run from construction made of `start`, `stop`,
`cancel`, `change_interval`, time passing and completions, in which a
completion carries a status other than ok only if the wait that completes was
cancelled by the engine's `cancel()`. Then every handler invocation of the run
has status ok. The reason is an invariant of the worlds so reached: a wait
that was cancelled belongs to an engine whose handler reference is expired,
because `start` and `stop` drop the owning reference before they cancel. -/
theorem handler_never_sees_cancellation (as : List Action) (w1 : World)
    (hx : World.init.exec as = some w1) (hh : World.init.honest_run as = true) :
    (∀ ev ∈ w1.log, ∀ (e h f : Nat) (err : error_code) (tm : Time),
      ev = Event.invoke e h f err tm → err.ok = true) ∧
    (∀ (e : Nat) (t : internal_timer) (op : wait_op), w1.engines[e]? = some t →
      op ∈ t.timer_.waits → op.cancelled = true → w1.lock t.handler_ = none) := by
  obtain ⟨_, s1, evs, hlog, hev⟩ := honest_run_props as Coherent.init cancel_safe_init hh hx
  constructor
  · intro ev hmem
    rw [hlog] at hmem
    simp only [World.init, List.nil_append] at hmem
    exact hev ev hmem
  · intro e t op ht hop hcan
    rw [lock_eq_none]
    intro h hth
    exact s1.revoked e t op h ht hop hcan hth

/-- C19 at a concrete run: `start(1000, 7)`, a tick, `stop()`, and then the
wait that was outstanding completes with the status `operation_aborted`. -/
theorem handler_never_sees_cancellation_witness :
    (∀ ev ∈ sample_stopped.log, ∀ (e h f : Nat) (err : error_code) (tm : Time),
      ev = Event.invoke e h f err tm → err.ok = true) ∧
    (∀ (e : Nat) (t : internal_timer) (op : wait_op), sample_stopped.engines[e]? = some t →
      op ∈ t.timer_.waits → op.cancelled = true → sample_stopped.lock t.handler_ = none) :=
  handler_never_sees_cancellation
    [Action.call (Call.start 1000 7), Action.advance 1000,
      Action.complete 0 error_code.success handler_action.plain, Action.call Call.stop,
      Action.complete 0 error_code.operation_aborted handler_action.plain]
    sample_stopped (by rfl) (by rfl)


/-! ## Timed runs -/

/-- When the callable takes no time, the timed callback is the callback of a
step. -/
theorem handle_timeout_busy_zero (w : World) (self : Nat) (error : error_code) :
    internal_timer.handle_timeout_busy w self error 0 =
      internal_timer.handle_timeout w self error handler_action.plain := by
  have h0 : ∀ w1 : World, ({ w1 with now := w1.now + ((0 : Nat) : Int) } : World) = w1 := by
    intro w1
    cases w1
    simp
  unfold internal_timer.handle_timeout_busy internal_timer.handle_timeout
  cases (internal_timer.fire w self error handler_action.plain).2 <;> simp only [h0]

theorem dispatch_eq (w : World) (e : Nat) (late busy : Nat)
    (t : internal_timer) (op : wait_op) (rest : List wait_op) (D : Time)
    (ht : w.engines[e]? = some t) (hw : t.timer_.waits = op :: rest)
    (hd : op.deadline = some D) (hnow : w.now ≤ D + late) :
    w.dispatch e late busy =
      some (internal_timer.handle_timeout_busy
        (World.with_engine { w with now := D + late } e
          (fun t => { t with timer_ := { t.timer_ with waits := rest } }))
        e error_code.success busy).1 := by
  unfold World.dispatch
  simp only [ht, hw, hd, if_pos hnow]
  have htw : World.take_wait { w with now := D + late } e =
      some (op, World.with_engine { w with now := D + late } e
        (fun t => { t with timer_ := { t.timer_ with waits := rest } })) := by
    unfold World.take_wait
    simp only [ht, hw]
  rw [htw]

/-- When the callable takes no time, a dispatch is time passing followed by a
completion step. -/
theorem dispatch_zero (w : World) (e : Nat) (late : Nat)
    (t : internal_timer) (op : wait_op) (rest : List wait_op) (D : Time)
    (ht : w.engines[e]? = some t) (hw : t.timer_.waits = op :: rest)
    (hd : op.deadline = some D) (hnow : w.now ≤ D + late) :
    w.dispatch e late 0 =
      w.exec [Action.advance (D + late - w.now).toNat,
        Action.complete e error_code.success handler_action.plain] := by
  rw [dispatch_eq w e late 0 t op rest D ht hw hd hnow, handle_timeout_busy_zero]
  have hn : w.now + ((D + (late : Int) - w.now).toNat : Int) = D + late := by
    have h0 : (0 : Int) ≤ D + (late : Int) - w.now := by
      have : (w.now : Int) ≤ D + (late : Int) := hnow
      linarith
    rw [Int.toNat_of_nonneg h0]
    ring
  have htw : World.take_wait { w with now := D + late } e =
      some (op, World.with_engine { w with now := D + late } e
        (fun t => { t with timer_ := { t.timer_ with waits := rest } })) := by
    unfold World.take_wait
    simp only [ht, hw]
  simp only [World.exec, World.step, hn, htw]

theorem dispatch_idle (w : World) (e : Nat) (late busy : Nat)
    (t : internal_timer) (ht : w.engines[e]? = some t) (hw : t.timer_.waits = []) :
    w.dispatch e late busy = none := by
  unfold World.dispatch
  simp only [ht, hw]

theorem dispatch_past (w : World) (e : Nat) (late busy : Nat)
    (t : internal_timer) (op : wait_op) (rest : List wait_op) (D : Time)
    (ht : w.engines[e]? = some t) (hw : t.timer_.waits = op :: rest)
    (hd : op.deadline = some D) (hnow : ¬ (w.now ≤ D + late)) :
    w.dispatch e late busy = none := by
  unfold World.dispatch
  simp only [ht, hw, hd, if_neg hnow]

/-- A timed run for an engine without an outstanding wait contains no tick and
logs nothing. -/
theorem beats_idle (bs : List Beat) : ∀ {w w1 : World} (e : Nat) (t : internal_timer),
    w.engines[e]? = some t → t.timer_.waits = [] → w.beats e bs = some w1 →
    w1.log = w.log ∧ ∀ (I : Duration) (D : Time), beat_times I D bs = [] := by
  induction bs with
  | nil =>
    intro w w1 e t _ _ hx
    simp only [World.beats, Option.some.injEq] at hx
    subst hx
    exact ⟨rfl, fun _ _ => rfl⟩
  | cons b bs ih =>
    intro w w2 e t ht hidle hx
    simp only [World.beats] at hx
    cases b with
    | tick late busy =>
      simp only [World.beat, dispatch_idle w e late busy t ht hidle] at hx
      cases hx
    | retune T =>
      have hs : w.beat e (Beat.retune T) =
          some (basic_repeating_timer.change_interval w T) := rfl
      rw [hs] at hx
      simp only at hx
      obtain ⟨t1, ht1, hidle1⟩ :=
        step_idle (a := Action.call (Call.change_interval T)) rfl e t ht hidle
      obtain ⟨hl, hb⟩ := ih e t1 ht1 hidle1 hx
      exact ⟨hl.trans (change_interval_rest w T).2.2.2, fun I D => hb T D⟩

/-- The timed callback of engine `self`, whose handler reference resolves to
`h`: the invocation is logged at the time at which the callback begins, and, if
the status is ok, one wait is submitted `busy` later, due one stored interval
after the time of the submission. -/
theorem handle_timeout_busy_eq (w : World) (self : Nat) (error : error_code) (busy : Nat)
    (t : internal_timer) (h : Nat) (o : handler_impl)
    (ht : w.engines[self]? = some t) (hl : w.lock t.handler_ = some h)
    (ho : w.handlers[h]? = some o) :
    (internal_timer.handle_timeout_busy w self error busy).1 =
      if error.ok = true then
        internal_timer.arm { w with
          now := w.now + busy,
          log := w.log ++ [Event.invoke self h o.handler_func_ error w.now] } self
      else
        { w with
          now := w.now + busy,
          log := w.log ++ [Event.invoke self h o.handler_func_ error w.now] } := by
  have hfired : (handler_impl.handler (w.acquire h) self h error handler_action.plain).1.release h =
      { w with log := w.log ++ [Event.invoke self h o.handler_func_ error w.now] } := by
    rw [handler_eq w self h error handler_action.plain o ho]
    exact release_acquire_log w h _
  unfold internal_timer.handle_timeout_busy
  rw [fire_resolved w self error handler_action.plain t h ht hl, hfired]
  have hp : handler_action.plain.outcome ≠ some thrown.other := by
    simp [handler_action.plain]
  simp only [if_neg hp]
  have ht1 : ({ w with
      now := w.now + busy,
      log := w.log ++ [Event.invoke self h o.handler_func_ error w.now] } :
      World).engines[self]? = some t := ht
  have hl1 : World.lock { w with
      now := w.now + busy,
      log := w.log ++ [Event.invoke self h o.handler_func_ error w.now] } t.handler_ =
      some h := hl
  rw [reschedule_eq _ self error t ht1, hl1]
  by_cases hok : error.ok = true
  · rw [if_pos hok, if_pos ⟨hok, rfl⟩]
  · rw [if_neg hok, if_neg (fun c => hok c.1)]

/-- A tick of the current cycle, dispatched `late` after the deadline `D` of the
outstanding wait, the callable taking the time `busy`: the invocation takes
place at `D + late`, the re-arm at `D + late + busy`, and the next wait is due
one stored interval after the re-arm. -/
theorem tick_beat {w : World} {e h f : Nat} {I : Duration} (hi : Coherent none w)
    (ha : Active w e h f I) (t : internal_timer) (op : wait_op) (D : Time) (late busy : Nat)
    (ht : w.engines[e]? = some t) (hw : t.timer_.waits = [op])
    (hd : op.deadline = some D) (hnow : w.now ≤ D + late) :
    ∃ w2 : World, w.dispatch e late busy = some w2 ∧ Coherent none w2 ∧ Active w2 e h f I ∧
      w2.now = D + late + busy ∧
      w2.log = w.log ++ [Event.invoke e h f error_code.success (D + late),
        Event.wait e (some (D + late + busy + I)) (D + late + busy)] ∧
      ∃ t1 : internal_timer, w2.engines[e]? = some t1 ∧
        t1.timer_.waits = [{ deadline := some (D + late + busy + I), cancelled := false }] := by
  rw [dispatch_eq w e late busy t op [] D ht hw hd hnow]
  obtain ⟨t', ht', hth, hti⟩ := ha.engine
  rw [ht] at ht'
  cases ht'
  obtain ⟨w0, hw0⟩ : ∃ w0 : World, w0 = World.with_engine { w with now := D + late } e
      (fun t => { t with timer_ := { t.timer_ with waits := [] } }) := ⟨_, rfl⟩
  rw [← hw0]
  obtain ⟨t0, hgen⟩ : ∃ t0 : internal_timer,
      t0 = { t with timer_ := { t.timer_ with waits := [] } } := ⟨_, rfl⟩
  have hi0 : Coherent none w0 := by
    rw [hw0]
    exact (hi.of_now (D + late)).with_engine e _ (fun _ => rfl) (fun _ => by simp)
  have ht0 : w0.engines[e]? = some t0 := by
    rw [hw0, with_engine_get, if_pos rfl, hgen]
    show (w.engines[e]?).map _ = _
    rw [ht]
    rfl
  have e1 : t0.handler_ = some h := by rw [hgen]; exact hth
  have e2 : t0.interval_ = I := by rw [hgen]; exact hti
  have e3 : t0.timer_.waits = [] := by rw [hgen]
  have hh0 : w0.handlers = w.handlers := by rw [hw0]; rfl
  have hf0 : w0.facade = w.facade := by rw [hw0]; rfl
  have hl0 : w0.log = w.log := by rw [hw0]; rfl
  have hn0 : w0.now = D + late := by rw [hw0]; rfl
  have ho0 : w0.handlers[h]? = some { handler_func_ := f, use_count := 1 } := by
    rw [hh0]; exact ha.handler
  have hres : w0.lock t0.handler_ = some h := by
    rw [e1, lock_eq_some]
    refine ⟨rfl, ?_⟩
    rw [use_count_eq_of_get ho0]
    exact Nat.one_pos
  rw [handle_timeout_busy_eq w0 e error_code.success busy t0 h _ ht0 hres ho0]
  have hok : error_code.success.ok = true := rfl
  rw [if_pos hok]
  obtain ⟨w1, hw1⟩ : ∃ w1 : World, w1 = { w0 with
      now := w0.now + busy,
      log := w0.log ++ [Event.invoke e h f error_code.success w0.now] } := ⟨_, rfl⟩
  have hw1' : ({ w0 with
      now := w0.now + busy,
      log := w0.log ++ [Event.invoke e h ({ handler_func_ := f, use_count := 1 } :
        handler_impl).handler_func_ error_code.success w0.now] } : World) = w1 := by
    rw [hw1]
  rw [hw1']
  have hi1 : Coherent none w1 := by
    rw [hw1]
    exact (hi0.of_log (w0.log ++ [Event.invoke e h f error_code.success w0.now])).of_now
      (w0.now + (busy : Int))
  have ht1 : w1.engines[e]? = some t0 := by rw [hw1]; exact ht0
  have hn1 : w1.now = D + late + busy := by rw [hw1]; show w0.now + (busy : Int) = _; rw [hn0]
  have hlog1 : w1.log = w.log ++ [Event.invoke e h f error_code.success (D + late)] := by
    rw [hw1]
    show w0.log ++ [Event.invoke e h f error_code.success w0.now] = _
    rw [hl0, hn0]
  have harm := arm_eq w1 e t0 ht1
  have hae := arm_engine w1 e t0 ht1 e
  rw [if_pos rfl] at hae
  refine ⟨_, rfl, hi1.arm e t0 ht1 e3, ?_, ?_, ?_, _, hae, ?_⟩
  · refine ⟨?_, ⟨_, hae, e1, e2⟩, ?_⟩
    · rw [harm]
      show w1.facade = _
      rw [hw1]
      show w0.facade = _
      rw [hf0]
      exact ha.facade
    · rw [harm]
      show w1.handlers[h]? = _
      rw [hw1]
      exact ho0
  · rw [harm]
    exact hn1
  · rw [harm]
    show w1.log ++ [Event.wait e (some (w1.now + t0.interval_)) w1.now] = _
    rw [hlog1, hn1, e2]
    simp
  · show t0.timer_.waits ++ [{ deadline := some (w1.now + t0.interval_), cancelled := false }] = _
    rw [e3, hn1, e2]
    rfl

/-- The invocations of a timed run of the current cycle take place at the
times that `beat_times` gives, each with status ok. -/
theorem beats_invocations (bs : List Beat) : ∀ {w w1 : World} (e h f : Nat) (I : Duration)
    (D : Time) (t : internal_timer) (op : wait_op), Coherent none w → Active w e h f I →
    w.engines[e]? = some t → t.timer_.waits = [op] → op.deadline = some D →
    w.beats e bs = some w1 →
    ∃ evs : List Event, w1.log = w.log ++ evs ∧
      evs.filter Event.is_invoke =
        (beat_times I D bs).map (fun tm => Event.invoke e h f error_code.success tm) := by
  induction bs with
  | nil =>
    intro w w1 e h f I D t op _ _ _ _ _ hx
    simp only [World.beats, Option.some.injEq] at hx
    subst hx
    exact ⟨[], by simp, rfl⟩
  | cons b bs ih =>
    intro w w3 e h f I D t op hi ha ht hw hd hx
    simp only [World.beats] at hx
    cases b with
    | tick late busy =>
      by_cases hnow : w.now ≤ D + late
      · obtain ⟨w2, hdis, hi2, ha2, _, hlog2, t1, ht1, hw1⟩ :=
          tick_beat hi ha t op D late busy ht hw hd hnow
        simp only [World.beat, hdis] at hx
        obtain ⟨evs, hlog3, hf3⟩ :=
          ih e h f I (D + late + busy + I) t1 _ hi2 ha2 ht1 hw1 rfl hx
        refine ⟨Event.invoke e h f error_code.success (D + late) ::
          Event.wait e (some (D + late + busy + I)) (D + late + busy) :: evs, ?_, ?_⟩
        · rw [hlog3, hlog2]
          simp
        · simp only [beat_times, List.map_cons, List.filter_cons, Event.is_invoke, if_true]
          rw [← hf3]
          simp
      · simp only [World.beat, dispatch_past w e late busy t op [] D ht hw hd hnow] at hx
        cases hx
    | retune T =>
      have hs : w.beat e (Beat.retune T) =
          some (basic_repeating_timer.change_interval w T) := rfl
      rw [hs] at hx
      simp only at hx
      have hrest := change_interval_rest w T
      have hown : w.facade.timer_ = some e := by rw [ha.facade]
      have heng : (basic_repeating_timer.change_interval w T).engines[e]? =
          some { t with interval_ := T } := by
        rw [change_interval_engine, ht]
        simp [hown]
      obtain ⟨te, hte, hteh, _⟩ := ha.engine
      rw [ht] at hte
      cases hte
      have ha2 : Active (basic_repeating_timer.change_interval w T) e h f T :=
        ⟨by rw [hrest.2.1]; exact ha.facade, ⟨_, heng, hteh, rfl⟩,
          by rw [hrest.2.2.1]; exact ha.handler⟩
      obtain ⟨evs, hlog3, hf3⟩ :=
        ih e h f T D _ op (hi.change_interval T) ha2 heng hw hd hx
      exact ⟨evs, by rw [hlog3, hrest.2.2.2], hf3⟩

/-- A timed run of the current cycle can be carried out as soon as no interval
is negative. -/
theorem beats_total (bs : List Beat) : ∀ {w : World} (e h f : Nat) (I : Duration)
    (D : Time) (t : internal_timer) (op : wait_op), Coherent none w → Active w e h f I →
    w.engines[e]? = some t → t.timer_.waits = [op] → op.deadline = some D →
    w.now ≤ D → 0 ≤ I → (∀ b ∈ bs, b.steady) → ∃ w1 : World, w.beats e bs = some w1 := by
  induction bs with
  | nil =>
    intro w e h f I D t op _ _ _ _ _ _ _ _
    exact ⟨w, rfl⟩
  | cons b bs ih =>
    intro w e h f I D t op hi ha ht hw hd hnow hI hq
    have hqb := hq b (List.mem_cons_self b bs)
    have hqs : ∀ b1 ∈ bs, b1.steady := fun b1 hb1 => hq b1 (List.mem_cons_of_mem b hb1)
    cases b with
    | tick late busy =>
      have hnow1 : w.now ≤ D + late := by
        have : (0 : Int) ≤ (late : Int) := Int.ofNat_nonneg late
        have h1 : (w.now : Int) ≤ D := hnow
        show (w.now : Int) ≤ D + (late : Int)
        linarith
      obtain ⟨w2, hdis, hi2, ha2, hn2, _, t1, ht1, hw1⟩ :=
        tick_beat hi ha t op D late busy ht hw hd hnow1
      have hnow2 : w2.now ≤ D + late + busy + I := by
        rw [hn2]
        show (D : Int) + (late : Int) + (busy : Int) ≤ D + late + busy + I
        have : (0 : Int) ≤ I := hI
        linarith
      obtain ⟨w3, hx⟩ :=
        ih e h f I (D + late + busy + I) t1 _ hi2 ha2 ht1 hw1 rfl hnow2 hI hqs
      exact ⟨w3, by simp only [World.beats, World.beat, hdis, hx]⟩
    | retune T =>
      have hT : 0 ≤ T := hqb
      have hrest := change_interval_rest w T
      have hown : w.facade.timer_ = some e := by rw [ha.facade]
      have heng : (basic_repeating_timer.change_interval w T).engines[e]? =
          some { t with interval_ := T } := by
        rw [change_interval_engine, ht]
        simp [hown]
      obtain ⟨te, hte, hteh, _⟩ := ha.engine
      rw [ht] at hte
      cases hte
      have ha2 : Active (basic_repeating_timer.change_interval w T) e h f T :=
        ⟨by rw [hrest.2.1]; exact ha.facade, ⟨_, heng, hteh, rfl⟩,
          by rw [hrest.2.2.1]; exact ha.handler⟩
      obtain ⟨w3, hx⟩ := ih e h f T D _ op (hi.change_interval T) ha2 heng hw hd
        (by rw [hrest.1]; exact hnow) hT hqs
      refine ⟨w3, ?_⟩
      have hs : w.beat e (Beat.retune T) =
          some (basic_repeating_timer.change_interval w T) := rfl
      simp only [World.beats, hs, hx]

/-- The first invocation of a timed run is not before the deadline of the
outstanding wait. -/
theorem beat_times_head (bs : List Beat) : ∀ (I : Duration) (D tm : Time),
    (beat_times I D bs).head? = some tm → D ≤ tm := by
  induction bs with
  | nil => intro I D tm h; simp [beat_times] at h
  | cons b bs ih =>
    intro I D tm h
    cases b with
    | tick late busy =>
      simp only [beat_times, List.head?_cons, Option.some.injEq] at h
      rw [← h]
      show (D : Int) ≤ D + (late : Int)
      have : (0 : Int) ≤ (late : Int) := Int.ofNat_nonneg late
      linarith
    | retune T =>
      simp only [beat_times] at h
      exact ih T D tm h

/-- Tick number `k` (counted from 0) of a timed run takes place at the first
deadline, plus the intervals stored at the re-arms of the ticks before it,
plus the lateness of the ticks up to it, plus the time that the callables of
the ticks before it took. -/
theorem beat_times_closed (bs : List Beat) : ∀ (I : Duration) (D : Time) (k : Nat),
    k < (beat_ticks I bs).length →
    (beat_times I D bs)[k]? =
      some (D + (((beat_ticks I bs).take k).map (fun p => p.1)).sum +
        (((beat_ticks I bs).take (k + 1)).map (fun p => (p.2.1 : Int))).sum +
        (((beat_ticks I bs).take k).map (fun p => (p.2.2 : Int))).sum) := by
  induction bs with
  | nil => intro I D k hk; simp [beat_ticks] at hk
  | cons b bs ih =>
    intro I D k hk
    cases b with
    | retune T =>
      simp only [beat_ticks] at hk ⊢
      simp only [beat_times]
      exact ih T D k hk
    | tick late busy =>
      simp only [beat_ticks] at hk ⊢
      simp only [beat_times]
      cases k with
      | zero =>
        simp only [List.getElem?_cons_zero, List.take_zero, List.map_nil, List.sum_nil,
          List.take_succ_cons, List.map_cons, List.sum_cons, Option.some.injEq]
        show (D : Int) + (late : Int) = D + 0 + ((late : Int) + 0) + 0
        ring
      | succ k =>
        have hk1 : k < (beat_ticks I bs).length := by simpa using hk
        simp only [List.getElem?_cons_succ, List.take_succ_cons, List.map_cons, List.sum_cons]
        rw [ih I (D + late + busy + I) k hk1]
        simp only [Option.some.injEq]
        show (D : Int) + (late : Int) + (busy : Int) + I + _ + _ + _ =
          D + ((I : Int) + _) + ((late : Int) + _) + ((busy : Int) + _)
        ring

/-- Without interval changes and without lateness: tick number `k` (counted
from 0) takes place `k` intervals after the first deadline, plus the time that
the callables of the ticks before it took. -/
theorem beat_times_punctual (T : Duration) : ∀ (busys : List Nat) (D : Time),
    beat_times T D (busys.map (Beat.tick 0)) =
      (List.range busys.length).map (fun (k : Nat) =>
        D + (k : Int) * T + ((busys.take k).map (fun (b : Nat) => (b : Int))).sum) := by
  intro busys
  induction busys with
  | nil => intro D; rfl
  | cons b busys ih =>
    intro D
    simp only [List.map_cons, beat_times, List.length_cons, List.range_succ_eq_map,
      List.map_map]
    rw [ih]
    congr 1
    · show (D : Int) + ((0 : Nat) : Int) = D + ((0 : Nat) : Int) * T + 0
      simp
    · apply List.map_congr_left
      intro k _
      simp only [Function.comp, List.take_succ_cons, List.map_cons, List.sum_cons]
      show (D : Int) + ((0 : Nat) : Int) + (b : Int) + T + (k : Int) * T + _ =
        D + ((k + 1 : Nat) : Int) * T + ((b : Int) + _)
      push_cast
      ring

/-- C18, as the code has it (deadlines are relative to the re-arm time). Take
`start(T, f)` in any reachable world, at time `t0`.
* Every re-arm: for every world, engine and status, the second block of the
  callback either changes nothing or submits exactly one wait whose deadline
  is the time of the re-arm plus the interval stored at that moment.
* For every timed run of the started cycle (ticks dispatched any `late` after
  their deadline, whose callable takes any time `busy` before the re-arm, and
  `change_interval` calls between ticks), the invocations of the run are those
  of the callable `f`, with status ok, at the times that `beat_times` gives from
  the first deadline `t0 + T`: each tick at its deadline plus its lateness, the
  next deadline being the time of the re-arm of that tick plus the interval
  stored then.
* Such a run can be carried out whenever no interval is negative.
* Consecutive invocations are separated by at least the interval stored at
  the re-arm of the earlier one.
* Tick number `k` (from 0) takes place at `t0`, plus `T` and the intervals stored
  at the re-arms of the ticks before it, plus the lateness of the ticks up to
  it, plus the time that the callables of the ticks before it took: lateness
  and run time accumulate and are never compensated. -/
theorem deadlines_relative_to_rearm (w0 : World) (hr : Reachable w0) (T : Duration) (f : Nat) :
    (∀ (w : World) (self : Nat) (error : error_code) (t : internal_timer),
      w.engines[self]? = some t →
      internal_timer.reschedule w self error = w ∨
      ((internal_timer.reschedule w self error).engines[self]? =
          some { t with timer_ :=
            { expiry := some (w.now + t.interval_),
              waits := t.timer_.waits ++
                [{ deadline := some (w.now + t.interval_), cancelled := false }] } } ∧
        (internal_timer.reschedule w self error).log =
          w.log ++ [Event.wait self (some (w.now + t.interval_)) w.now])) ∧
    (∀ (bs : List Beat) (w1 : World),
      (basic_repeating_timer.start w0 T f).beats w0.engines.length bs = some w1 →
      ∃ evs : List Event, w1.log = (basic_repeating_timer.start w0 T f).log ++ evs ∧
        evs.filter Event.is_invoke =
          (beat_times T (w0.now + T) bs).map (fun tm =>
            Event.invoke w0.engines.length w0.handlers.length f error_code.success tm)) ∧
    (0 ≤ T → ∀ bs : List Beat, (∀ b ∈ bs, b.steady) →
      ∃ w1 : World, (basic_repeating_timer.start w0 T f).beats w0.engines.length bs = some w1) ∧
    (∀ (I : Duration) (D : Time) (late busy : Nat) (bs : List Beat) (tm : Time),
      beat_times I D (Beat.tick late busy :: bs) =
        (D + late) :: beat_times I (D + late + busy + I) bs ∧
      ((beat_times I (D + late + busy + I) bs).head? = some tm → D + late + I ≤ tm)) ∧
    (∀ (bs : List Beat) (k : Nat), k < (beat_ticks T bs).length →
      (beat_times T (w0.now + T) bs)[k]? =
        some (w0.now + T + (((beat_ticks T bs).take k).map (fun p => p.1)).sum +
          (((beat_ticks T bs).take (k + 1)).map (fun p => (p.2.1 : Int))).sum +
          (((beat_ticks T bs).take k).map (fun p => (p.2.2 : Int))).sum)) := by
  have hi := hr.coherent.start T f
  have ha := active_start w0 T f
  have heng : (basic_repeating_timer.start w0 T f).engines[w0.engines.length]? =
      some (fresh_engine w0.now T w0.handlers.length) := by
    rw [start_engine]; simp
  have hnow : (basic_repeating_timer.start w0 T f).now = w0.now := by rw [start_eq]
  refine ⟨?_, ?_, ?_, ?_, ?_⟩
  · intro w self error t ht
    rw [reschedule_eq w self error t ht]
    by_cases hc : error.ok = true ∧ (w.lock t.handler_).isSome = true
    · rw [if_pos hc]
      right
      have hae := arm_engine w self t ht self
      rw [if_pos rfl] at hae
      exact ⟨hae, by rw [arm_eq w self t ht]⟩
    · rw [if_neg hc]
      exact Or.inl rfl
  · intro bs w1 hx
    exact beats_invocations bs _ _ f T (w0.now + T) _ _ hi ha heng rfl rfl hx
  · intro hT bs hs
    refine beats_total bs _ _ f T (w0.now + T) _ _ hi ha heng rfl rfl ?_ hT hs
    rw [hnow]
    show (w0.now : Int) ≤ w0.now + T
    have : (0 : Int) ≤ T := hT
    linarith
  · intro I D late busy bs tm
    refine ⟨rfl, ?_⟩
    intro hh
    have h1 := beat_times_head bs I (D + late + busy + I) tm hh
    have h2 : (D : Int) + (late : Int) + (busy : Int) + I ≤ tm := h1
    have h3 : (0 : Int) ≤ (busy : Int) := Int.ofNat_nonneg busy
    show (D : Int) + (late : Int) + I ≤ tm
    linarith
  · intro bs k hk
    exact beat_times_closed bs T (w0.now + T) k hk

/-- C18 as stated fails: after `start(1000, 7)` at time 0 the first completion
is dispatched 5 after its deadline and the callable takes 3, and the second
completion is dispatched at its deadline. The second invocation is at 2008,
not at `t0` + the intervals + the lateness = 0 + (1000 + 1000) + (5 + 0). -/
theorem deadlines_shift_by_run_time :
    ((basic_repeating_timer.start World.init 1000 7).beats 0
        [Beat.tick 5 3, Beat.tick 0 0]).map (fun w => w.log.filter Event.is_invoke) =
      some [Event.invoke 0 0 7 error_code.success 1005,
        Event.invoke 0 0 7 error_code.success 2008] ∧
    (2008 : Time) ≠ 0 + (1000 + 1000) + (5 + 0) :=
  ⟨by rfl, by decide⟩

/-- C18 at a concrete run: `start(1000, 7)` at time 0, a tick 5 late whose
callable takes 3, `change_interval(500)`, and a tick on time: invocations at
1005 and 2008. -/
theorem deadlines_relative_to_rearm_witness :
    (∃ evs : List Event,
      sample_late.log = (basic_repeating_timer.start World.init 1000 7).log ++ evs ∧
      evs.filter Event.is_invoke =
        (beat_times 1000 (World.init.now + 1000)
          [Beat.tick 5 3, Beat.retune 500, Beat.tick 0 0]).map (fun tm =>
          Event.invoke World.init.engines.length World.init.handlers.length 7
            error_code.success tm)) ∧
    ∃ w1 : World, (basic_repeating_timer.start World.init 1000 7).beats
      World.init.engines.length [Beat.tick 5 3, Beat.retune 500, Beat.tick 0 0] = some w1 :=
  ⟨(deadlines_relative_to_rearm World.init Reachable.init 1000 7).2.1
      [Beat.tick 5 3, Beat.retune 500, Beat.tick 0 0] sample_late (by rfl),
    (deadlines_relative_to_rearm World.init Reachable.init 1000 7).2.2.1 (by decide)
      [Beat.tick 5 3, Beat.retune 500, Beat.tick 0 0]
      (by intro b hb; simp at hb; rcases hb with h | h | h <;> subst h <;>
        simp [Beat.steady])⟩

/-! ## Periodicity -/

theorem sum_take_replicate_zero (n k : Nat) :
    (((List.replicate n 0).take k).map (fun (b : Nat) => (b : Int))).sum = 0 := by
  apply List.sum_eq_zero
  intro x hx
  obtain ⟨b, hb, rfl⟩ := List.mem_map.mp hx
  have hb1 := List.mem_of_mem_take hb
  rw [List.eq_of_mem_replicate hb1]
  rfl

/-- C11, as the code has it. Take `start(T, f)` in any reachable world, at time
`t0`, with no facade call afterwards, every completion being dispatched exactly
at its deadline with status ok, and every invocation returning after the
callable has taken some time (`busys` lists those times, tick by tick).
* For every `T` and every such run, the invocations of the run are exactly
  those of the callable `f`, with status ok, number `k` (from 1) at time
  `t0 + k * T` plus the time that the invocations before it took.
* When the callable takes no time, that is `t0 + k * T`.
* For `0 ≤ T` such a run can be carried out for any number of ticks.
* For `T < 0` the first wait is already overdue when it is submitted, and no
  completion can be dispatched exactly at its deadline. -/
theorem periodicity (w0 : World) (hr : Reachable w0) (T : Duration) (f : Nat) :
    (∀ (busys : List Nat) (w1 : World),
      (basic_repeating_timer.start w0 T f).beats w0.engines.length
        (busys.map (Beat.tick 0)) = some w1 →
      ∃ evs : List Event,
        w1.log = (basic_repeating_timer.start w0 T f).log ++ evs ∧
        evs.filter Event.is_invoke =
          (List.range busys.length).map (fun (k : Nat) =>
            Event.invoke w0.engines.length w0.handlers.length f error_code.success
              (w0.now + ((k : Int) + 1) * T +
                ((busys.take k).map (fun (b : Nat) => (b : Int))).sum))) ∧
    (∀ (n : Nat) (w1 : World),
      (basic_repeating_timer.start w0 T f).beats w0.engines.length
        ((List.replicate n 0).map (Beat.tick 0)) = some w1 →
      ∃ evs : List Event,
        w1.log = (basic_repeating_timer.start w0 T f).log ++ evs ∧
        evs.filter Event.is_invoke =
          (List.range n).map (fun (k : Nat) =>
            Event.invoke w0.engines.length w0.handlers.length f error_code.success
              (w0.now + ((k : Int) + 1) * T))) ∧
    (0 ≤ T → ∀ busys : List Nat,
      ∃ w1 : World, (basic_repeating_timer.start w0 T f).beats w0.engines.length
        (busys.map (Beat.tick 0)) = some w1) ∧
    (T < 0 → ∀ busy : Nat,
      (basic_repeating_timer.start w0 T f).dispatch w0.engines.length 0 busy = none) := by
  have hi := hr.coherent.start T f
  have ha := active_start w0 T f
  have heng : (basic_repeating_timer.start w0 T f).engines[w0.engines.length]? =
      some (fresh_engine w0.now T w0.handlers.length) := by
    rw [start_engine]; simp
  have hnow : (basic_repeating_timer.start w0 T f).now = w0.now := by rw [start_eq]
  have main : ∀ (busys : List Nat) (w1 : World),
      (basic_repeating_timer.start w0 T f).beats w0.engines.length
        (busys.map (Beat.tick 0)) = some w1 →
      ∃ evs : List Event,
        w1.log = (basic_repeating_timer.start w0 T f).log ++ evs ∧
        evs.filter Event.is_invoke =
          (List.range busys.length).map (fun (k : Nat) =>
            Event.invoke w0.engines.length w0.handlers.length f error_code.success
              (w0.now + ((k : Int) + 1) * T +
                ((busys.take k).map (fun (b : Nat) => (b : Int))).sum)) := by
    intro busys w1 hx
    obtain ⟨evs, hlog, hev⟩ := beats_invocations (busys.map (Beat.tick 0)) _ _ f T
      (w0.now + T) _ _ hi ha heng rfl rfl hx
    refine ⟨evs, hlog, ?_⟩
    rw [hev, beat_times_punctual, List.map_map]
    apply List.map_congr_left
    intro k _
    simp only [Function.comp]
    congr 1
    show (w0.now : Int) + T + (k : Int) * T + _ = w0.now + ((k : Int) + 1) * T + _
    ring
  refine ⟨main, ?_, ?_, ?_⟩
  · intro n w1 hx
    obtain ⟨evs, hlog, hev⟩ := main (List.replicate n 0) w1 hx
    refine ⟨evs, hlog, ?_⟩
    rw [hev, List.length_replicate]
    apply List.map_congr_left
    intro k _
    rw [sum_take_replicate_zero]
    congr 1
    show (w0.now : Int) + ((k : Int) + 1) * T + 0 = w0.now + ((k : Int) + 1) * T
    ring
  · intro hT busys
    have hs : ∀ b ∈ busys.map (Beat.tick 0), b.steady := by
      intro b hb
      obtain ⟨a, _, rfl⟩ := List.mem_map.mp hb
      trivial
    have hle : (basic_repeating_timer.start w0 T f).now ≤ w0.now + T := by
      rw [hnow]
      show (w0.now : Int) ≤ w0.now + T
      have : (0 : Int) ≤ T := hT
      linarith
    exact beats_total (busys.map (Beat.tick 0)) _ _ f T (w0.now + T) _ _
      hi ha heng rfl rfl hle hT hs
  · intro hT busy
    refine dispatch_past _ _ 0 busy _ _ [] (w0.now + T) heng rfl rfl ?_
    rw [hnow]
    intro hle
    have h1 : (w0.now : Int) ≤ w0.now + T + ((0 : Nat) : Int) := hle
    have h2 : (T : Int) < 0 := hT
    simp at h1
    linarith

/-- C11 as stated fails: after `start(1000, 7)` at time 0 every completion is
dispatched exactly at its deadline with status ok, and the first invocation
takes 7. The invocations are at 1000, 2007 and 3007: the second one is not at
`t0 + 2 * T` = 2000. -/
theorem periodicity_drifts_with_run_time :
    ((basic_repeating_timer.start World.init 1000 7).beats 0
        [Beat.tick 0 7, Beat.tick 0 0, Beat.tick 0 0]).map
      (fun w => w.log.filter Event.is_invoke) =
      some [Event.invoke 0 0 7 error_code.success 1000,
        Event.invoke 0 0 7 error_code.success 2007,
        Event.invoke 0 0 7 error_code.success 3007] ∧
    (2007 : Time) ≠ 0 + 2 * 1000 :=
  ⟨by rfl, by decide⟩

/-- C11 at a concrete run: `start(1000, 7)` at time 0 and three ticks whose
callable takes 2, 0 and 3: the run can be carried out, and its invocations are
at 1000, 2002 and 3002. -/
theorem periodicity_witness :
    (∃ evs : List Event,
      sample_three_ticks.log = (basic_repeating_timer.start World.init 1000 7).log ++ evs ∧
      evs.filter Event.is_invoke =
        (List.range [2, 0, 3].length).map (fun (k : Nat) =>
          Event.invoke World.init.engines.length World.init.handlers.length 7
            error_code.success (World.init.now + ((k : Int) + 1) * 1000 +
              (([2, 0, 3].take k).map (fun (b : Nat) => (b : Int))).sum))) ∧
    ∃ w1 : World,
      (basic_repeating_timer.start World.init 1000 7).beats World.init.engines.length
        ([2, 0, 3].map (Beat.tick 0)) = some w1 :=
  ⟨(periodicity World.init Reachable.init 1000 7).1 [2, 0, 3] sample_three_ticks (by rfl),
    (periodicity World.init Reachable.init 1000 7).2.2.1 (by decide) [2, 0, 3]⟩

/-! ## Engines whose handler is gone, in any world -/

theorem frame_with_log (w : World) (l : List Event) : Frame w { w with log := l } :=
  Frame.of_engines rfl (le_refl _) (fun _ t ht => ⟨t, ht, rfl⟩)

theorem frame_with_now (w : World) (tm : Time) : Frame w { w with now := tm } :=
  Frame.of_engines rfl (le_refl _) (fun _ t ht => ⟨t, ht, rfl⟩)

theorem reschedule_cases (w : World) (self : Nat) (error : error_code) :
    internal_timer.reschedule w self error = w ∨
    internal_timer.reschedule w self error = internal_timer.arm w self := by
  cases ht : w.engines[self]? with
  | none =>
    left
    unfold internal_timer.reschedule
    simp [ht]
  | some t =>
    rw [reschedule_eq w self error t ht]
    split
    · exact Or.inr rfl
    · exact Or.inl rfl

theorem arm_events (w : World) (self : Nat) :
    ∃ evs : List Event, (internal_timer.arm w self).log = w.log ++ evs ∧
      ∀ ev ∈ evs, ev.engine = self := by
  cases ht : w.engines[self]? with
  | none =>
    refine ⟨[], ?_, by simp⟩
    unfold internal_timer.arm
    simp [ht]
  | some t =>
    rw [arm_eq w self t ht]
    exact ⟨_, rfl, by intro ev hev; simp at hev; subst hev; rfl⟩

theorem reschedule_events (w : World) (self : Nat) (error : error_code) :
    ∃ evs : List Event, (internal_timer.reschedule w self error).log = w.log ++ evs ∧
      ∀ ev ∈ evs, ev.engine = self := by
  rcases reschedule_cases w self error with h | h
  · rw [h]; exact ⟨[], by simp, by simp⟩
  · rw [h]; exact arm_events w self

theorem frame_reschedule (w : World) (self : Nat) (error : error_code) :
    Frame w (internal_timer.reschedule w self error) := by
  rcases reschedule_cases w self error with h | h
  · rw [h]; exact Frame.refl w
  · rw [h]; exact frame_arm w self

/-- The first block of the callback, in any world: objects stay in place, and
its events belong to the engine or to engines created during the call. -/
theorem fire_any (w : World) (self : Nat) (error : error_code) (act : handler_action) :
    Frame w (internal_timer.fire w self error act).1 ∧
    ∃ evs : List Event, (internal_timer.fire w self error act).1.log = w.log ++ evs ∧
      ∀ ev ∈ evs, ev.engine = self ∨ w.engines.length ≤ ev.engine := by
  cases hs : w.engines[self]? with
  | none =>
    have : internal_timer.fire w self error act = (w, none) := by
      unfold internal_timer.fire; simp [hs]
    rw [this]
    exact ⟨Frame.refl w, [], by simp, by simp⟩
  | some ts =>
    cases hl : w.lock ts.handler_ with
    | none =>
      rw [fire_expired w self error act ts hs hl]
      exact ⟨Frame.refl w, [], by simp, by simp⟩
    | some h =>
      rw [fire_resolved w self error act ts h hs hl]
      have hp : 0 < w.use_count h := (lock_eq_some.mp hl).2
      have e1 : (handler_impl.handler (w.acquire h) self h error act).1 =
          World.calls { w.acquire h with log := w.log ++
            [Event.invoke self h (match (w.acquire h).handlers[h]? with
              | some o => o.handler_func_
              | none => 0) error w.now] } act.calls := rfl
      refine ⟨?_, ?_⟩
      · rw [e1]
        exact (((frame_acquire w h hp).trans (frame_with_log _ _)).trans
          (frame_calls act.calls _)).trans (frame_release _ h)
      · obtain ⟨evs, hlog, hevs⟩ := calls_log act.calls ({ w.acquire h with log := w.log ++
            [Event.invoke self h (match (w.acquire h).handlers[h]? with
              | some o => o.handler_func_
              | none => 0) error w.now] } : World)
        refine ⟨Event.invoke self h (match (w.acquire h).handlers[h]? with
              | some o => o.handler_func_
              | none => 0) error w.now :: evs, ?_, ?_⟩
        · show (handler_impl.handler (w.acquire h) self h error act).1.log = _
          rw [e1, hlog]
          simp
        · intro ev hev
          rcases List.mem_cons.mp hev with h1 | h1
          · left; rw [h1]; rfl
          · right
            have := (hevs ev h1).2
            simpa [World.acquire, length_modify_at] using this

/-- The completion callback, in any world. -/
theorem handle_timeout_any (w : World) (self : Nat) (error : error_code)
    (act : handler_action) :
    Frame w (internal_timer.handle_timeout w self error act).1 ∧
    ∃ evs : List Event, (internal_timer.handle_timeout w self error act).1.log = w.log ++ evs ∧
      ∀ ev ∈ evs, ev.engine = self ∨ w.engines.length ≤ ev.engine := by
  obtain ⟨hf, evs, hlog, hev⟩ := fire_any w self error act
  rw [handle_timeout_eq]
  split
  · obtain ⟨evs2, hlog2, hev2⟩ :=
      reschedule_events (internal_timer.fire w self error act).1 self error
    refine ⟨hf.trans (frame_reschedule _ self error), evs ++ evs2, ?_, ?_⟩
    · rw [hlog2, hlog, List.append_assoc]
    · intro ev hm
      rcases List.mem_append.mp hm with h1 | h1
      · exact hev ev h1
      · exact Or.inl (hev2 ev h1)
  · exact ⟨hf, evs, hlog, hev⟩

/-- A step in any world: objects stay in place. -/
theorem frame_step {w w1 : World} {a : Action} (hs : w.step a = some w1) : Frame w w1 := by
  cases a with
  | call c =>
    simp only [World.step, Option.some.injEq] at hs
    subst hs
    exact frame_call w c
  | advance d =>
    simp only [World.step, Option.some.injEq] at hs
    subst hs
    exact frame_with_now w _
  | complete e1 error act =>
    simp only [World.step] at hs
    cases htw : w.take_wait e1 with
    | none => simp [htw] at hs
    | some p =>
      obtain ⟨op, w0⟩ := p
      simp only [htw, Option.some.injEq] at hs
      obtain ⟨t1, rest, ht1, hw1, hw0⟩ := take_wait_eq htw
      subst hs
      have f0 : Frame w w0 := by
        rw [hw0]
        exact frame_with_engine w e1 _ (fun _ => rfl)
      exact f0.trans (handle_timeout_any w0 e1 error act).1

/-- A step in any world produces no event of an engine whose weak reference
does not resolve. -/
theorem silent_step {w w1 : World} {a : Action} (hs : w.step a = some w1) (e : Nat)
    (t : internal_timer) (ht : w.engines[e]? = some t) (hd : w.lock t.handler_ = none) :
    ∃ evs : List Event, w1.log = w.log ++ evs ∧ ∀ ev ∈ evs, ev.engine ≠ e := by
  have hlt : e < w.engines.length := by
    by_contra hge
    rw [List.getElem?_eq_none (Nat.le_of_not_lt hge)] at ht
    cases ht
  cases a with
  | call c =>
    simp only [World.step, Option.some.injEq] at hs
    subst hs
    obtain ⟨evs, hlog, hev⟩ := call_log w c
    refine ⟨evs, hlog, ?_⟩
    intro ev hm heq
    have := (hev ev hm).2
    omega
  | advance d =>
    simp only [World.step, Option.some.injEq] at hs
    subst hs
    exact ⟨[], by simp, by simp⟩
  | complete e1 error act =>
    simp only [World.step] at hs
    cases htw : w.take_wait e1 with
    | none => simp [htw] at hs
    | some p =>
      obtain ⟨op, w0⟩ := p
      simp only [htw, Option.some.injEq] at hs
      obtain ⟨t1, rest, ht1, hw1, hw0⟩ := take_wait_eq htw
      subst hs
      have hlog0 : w0.log = w.log := by rw [hw0]; rfl
      have hh0 : w0.handlers = w.handlers := by rw [hw0]; rfl
      have hlen0 : w0.engines.length = w.engines.length := by
        rw [hw0]; simp [World.with_engine, length_modify_at]
      by_cases heq : e1 = e
      · subst heq
        rw [ht] at ht1
        cases ht1
        have h0 : w0.engines[e1]? =
            some { t with timer_ := { t.timer_ with waits := rest } } := by
          rw [hw0, with_engine_get]
          simp [ht]
        have hl0 : w0.lock ({ t with timer_ := { t.timer_ with waits := rest } } :
            internal_timer).handler_ = none := by
          rw [lock_congr hh0]
          exact hd
        rw [handle_timeout_expired w0 e1 error act _ h0 hl0]
        exact ⟨[], by simp [hlog0], by simp⟩
      · obtain ⟨_, evs, hlog, hev⟩ := handle_timeout_any w0 e1 error act
        refine ⟨evs, by rw [hlog, hlog0], ?_⟩
        intro ev hm hee
        rcases hev ev hm with h1 | h1
        · exact heq (h1.symm.trans hee)
        · omega

/-- Gone is terminal, in any world: when the weak reference of an engine
designates a handler object that was created and has no owner, no run
produces an event of that engine. -/
theorem silent_run (as : List Action) : ∀ {w w1 : World} (e : Nat) (t : internal_timer),
    w.engines[e]? = some t → (∀ h, t.handler_ = some h → h < w.handlers.length) →
    w.lock t.handler_ = none → w.exec as = some w1 →
    ∃ evs : List Event, w1.log = w.log ++ evs ∧ ∀ ev ∈ evs, ev.engine ≠ e := by
  induction as with
  | nil =>
    intro w w1 e t _ _ _ hx
    simp only [World.exec, Option.some.injEq] at hx
    subst hx
    exact ⟨[], by simp, by simp⟩
  | cons a as ih =>
    intro w w2 e t ht hv hd hx
    simp only [World.exec] at hx
    cases hs : w.step a with
    | none => simp [hs] at hx
    | some w1 =>
      simp only [hs] at hx
      have hf := frame_step hs
      obtain ⟨evs, hlog, hev⟩ := silent_step hs e t ht hd
      obtain ⟨t1, ht1, hh1⟩ := hf.engine e t ht
      have hv1 : ∀ h, t1.handler_ = some h → h < w1.handlers.length := by
        intro h hh
        rw [hh1] at hh
        exact lt_of_lt_of_le (hv h hh) hf.handlers_le
      have hd1 : w1.lock t1.handler_ = none := by
        rw [lock_eq_none]
        intro h hh
        rw [hh1] at hh
        exact hf.dead h (hv h hh) (lock_eq_none.mp hd h hh)
      obtain ⟨evs2, hlog2, hev2⟩ := ih e t1 ht1 hv1 hd1 hx
      refine ⟨evs ++ evs2, by rw [hlog2, hlog, List.append_assoc], ?_⟩
      intro ev hm
      rcases List.mem_append.mp hm with h1 | h1
      · exact hev ev h1
      · exact hev2 ev h1

/-! ## The race of `stop()` with a completion callback -/

theorem reset_handler_props (w : World) :
    (basic_repeating_timer.reset_handler w).engines = w.engines ∧
    (basic_repeating_timer.reset_handler w).log = w.log ∧
    (basic_repeating_timer.reset_handler w).now = w.now ∧
    (basic_repeating_timer.reset_handler w).facade.timer_ = w.facade.timer_ ∧
    (basic_repeating_timer.reset_handler w).facade.handler_ = none ∧
    (basic_repeating_timer.reset_handler w).handlers.length = w.handlers.length ∧
    ∀ k : Nat, (basic_repeating_timer.reset_handler w).use_count k =
      if w.facade.handler_ = some k then w.use_count k - 1 else w.use_count k := by
  unfold basic_repeating_timer.reset_handler
  cases hh : w.facade.handler_ with
  | none => exact ⟨rfl, rfl, rfl, rfl, hh, rfl, fun k => by simp⟩
  | some h =>
    refine ⟨rfl, rfl, rfl, rfl, rfl, ?_, ?_⟩
    · simp [World.release, length_modify_at]
    · intro k
      by_cases hk : h = k
      · subst hk
        simp only [if_true]
        exact use_count_release_self w h
      · have : ¬ (some h = some k) := fun h1 => hk (Option.some.inj h1)
        simp only [this, if_false]
        exact use_count_release_ne w hk

/-- A call on the facade keeps the owners of a handler object other than the
facade member. -/
theorem call_counts (w : World) (c : Call) (h : Nat) (hlt : h < w.handlers.length) (n : Nat)
    (hc : w.use_count h = (if w.facade.handler_ = some h then 1 else 0) + n) :
    (w.call c).use_count h = (if (w.call c).facade.handler_ = some h then 1 else 0) + n := by
  have hcl : (basic_repeating_timer.cleanup w).use_count h = n := by
    rw [cleanup_use_count]
    by_cases hf : w.facade.handler_ = some h
    · rw [if_pos hf] at hc ⊢
      omega
    · rw [if_neg hf] at hc ⊢
      omega
  cases c with
  | start T f =>
    show (basic_repeating_timer.start w T f).use_count h =
      (if (basic_repeating_timer.start w T f).facade.handler_ = some h then 1 else 0) + n
    rw [start_use_count, start_facade]
    have h1 : h ≠ w.handlers.length := Nat.ne_of_lt hlt
    have h2 : ¬ (some w.handlers.length = some h) := fun h3 => h1 (Option.some.inj h3).symm
    simp only [h1, h2, if_false]
    omega
  | stop =>
    show (basic_repeating_timer.cleanup w).use_count h =
      (if (basic_repeating_timer.cleanup w).facade.handler_ = some h then 1 else 0) + n
    rw [cleanup_facade]
    simp only [reduceCtorEq, if_false]
    omega
  | cancel =>
    show (basic_repeating_timer.cleanup w).use_count h =
      (if (basic_repeating_timer.cleanup w).facade.handler_ = some h then 1 else 0) + n
    rw [cleanup_facade]
    simp only [reduceCtorEq, if_false]
    omega
  | change_interval T =>
    show (basic_repeating_timer.change_interval w T).use_count h =
      (if (basic_repeating_timer.change_interval w T).facade.handler_ = some h then 1 else 0) + n
    obtain ⟨_, hf, hh, _⟩ := change_interval_rest w T
    rw [hf]
    unfold World.use_count
    rw [hh]
    exact hc

theorem pending_holds {ta : timeout_pc} (hp : ta.pending = true) : ta.holds_engine = true := by
  cases ta <;> simp [timeout_pc.pending] at hp <;> rfl

theorem must_wait_congr {e : Nat} {w w1 : World} (hf : w1.facade = w.facade) (sa : stop_pc) :
    sa.must_wait e w1 ↔ sa.must_wait e w := by
  cases sa <;> simp only [stop_pc.must_wait, hf]

theorem must_wait_not_past {e : Nat} {w : World} {sa : stop_pc}
    (hp : sa.past_reset = false) (ht : w.facade.timer_ = some e) : sa.must_wait e w := by
  cases sa <;> simp [stop_pc.past_reset] at hp <;> exact ht

/-- The invariant carries over to a state whose world has the same facade,
the same owners, and the same weak reference in the engine. -/
theorem RaceSafe.transfer {e : Nat} {r0 : Option Nat} {w w1 : World} {sa sa1 : stop_pc}
    {ta ta1 : timeout_pc} (hi : RaceSafe e r0 ⟨w, sa, ta⟩)
    (hf : w1.facade = w.facade) (hc : ∀ h, w1.use_count h = w.use_count h)
    (hl : w1.handlers.length = w.handlers.length)
    (he : ∀ t, w.engines[e]? = some t →
      ∃ t1 : internal_timer, w1.engines[e]? = some t1 ∧ t1.handler_ = t.handler_)
    (hheld : ta1.held = ta.held)
    (hrev : sa1.past_reset = true → sa.past_reset = true)
    (hpend : ta1.pending = true → sa1.must_wait e w1) : RaceSafe e r0 ⟨w1, sa1, ta1⟩ := by
  obtain ⟨⟨t, ht, hth⟩, hval, hown, hcnt, hrv, hownd, _⟩ := hi
  obtain ⟨t1, ht1, hth1⟩ := he t ht
  refine ⟨⟨t1, ht1, hth1.trans hth⟩, ?_, ?_, ?_, ?_, ?_, hpend⟩
  · intro h hh
    show h < w1.handlers.length
    rw [hl]
    exact hval h hh
  · show ta1.held = none ∨ ta1.held = r0
    rw [hheld]
    exact hown
  · intro h hh
    show w1.use_count h = (if w1.facade.handler_ = some h then 1 else 0) +
      (if ta1.held = some h then 1 else 0)
    rw [hc, hf, hheld]
    exact hcnt h hh
  · intro hp h hh
    show w1.facade.handler_ ≠ some h
    rw [hf]
    exact hrv (hrev hp) h hh
  · intro h hh hfh
    show w1.facade.timer_ = some e
    rw [hf] at hfh ⊢
    exact hownd h hh hfh

/-- A statement of `stop()` keeps the invariant, produces no event, and leaves
the callback where it is. -/
theorem RaceSafe.stop_step {e : Nat} {r0 : Option Nat} {r r1 : Race} (hi : RaceSafe e r0 r)
    (hs : r.stop_step e = some r1) :
    RaceSafe e r0 r1 ∧ r1.w.log = r.w.log ∧ r1.timeout_at = r.timeout_at ∧
      (r.stop_at = stop_pc.returned → r1.stop_at = stop_pc.returned) := by
  obtain ⟨w, sa, ta⟩ := r
  have hi0 := hi
  obtain ⟨⟨t, ht, hth⟩, hval, hown, hcnt, hrev, hownd, hpend⟩ := hi
  cases sa with
  | enter =>
    simp only [Race.stop_step, Option.some.injEq] at hs
    subst hs
    refine ⟨hi0.transfer rfl (fun _ => rfl) rfl (fun t ht => ⟨t, ht, rfl⟩) rfl
      (by intro h; simp [stop_pc.past_reset] at h) hpend, rfl, rfl, by intro h; cases h⟩
  | reset_handler =>
    simp only [Race.stop_step, Option.some.injEq] at hs
    subst hs
    obtain ⟨hen, hlog, _, htm, hhd, hlen, huc⟩ := reset_handler_props w
    have ht1 : (basic_repeating_timer.reset_handler w).engines[e]? = some t := by
      rw [hen]; exact ht
    refine ⟨⟨⟨t, ht1, hth⟩, ?_, hown, ?_, ?_, ?_, ?_⟩, hlog, rfl, by intro h; cases h⟩
    · intro h hh
      show h < (basic_repeating_timer.reset_handler w).handlers.length
      rw [hlen]
      exact hval h hh
    · intro h hh
      show (basic_repeating_timer.reset_handler w).use_count h =
        (if (basic_repeating_timer.reset_handler w).facade.handler_ = some h then 1 else 0) +
        (if ta.held = some h then 1 else 0)
      have hc := hcnt h hh
      simp only at hc
      rw [huc, hhd]
      simp only [reduceCtorEq, if_false]
      by_cases hf : w.facade.handler_ = some h
      · rw [if_pos hf] at hc ⊢
        omega
      · rw [if_neg hf] at hc ⊢
        omega
    · intro _ h _
      show (basic_repeating_timer.reset_handler w).facade.handler_ ≠ some h
      rw [hhd]
      exact fun h1 => by cases h1
    · intro h _ hfh
      have : (basic_repeating_timer.reset_handler w).facade.handler_ = some h := hfh
      rw [hhd] at this
      cases this
    · intro hp
      show (basic_repeating_timer.reset_handler w).facade.timer_ = some e
      rw [htm]
      exact hpend hp
  | test_timer =>
    simp only [Race.stop_step] at hs
    cases htm : w.facade.timer_ with
    | none =>
      simp only [htm, Option.some.injEq] at hs
      subst hs
      refine ⟨hi0.transfer rfl (fun _ => rfl) rfl (fun t ht => ⟨t, ht, rfl⟩) rfl
        (fun _ => rfl) ?_, rfl, rfl, by intro h; cases h⟩
      intro hp
      have h1 : w.facade.timer_ = some e := hpend hp
      rw [htm] at h1
      cases h1
    | some c =>
      simp only [htm, Option.some.injEq] at hs
      subst hs
      refine ⟨hi0.transfer rfl (fun _ => rfl) rfl (fun t ht => ⟨t, ht, rfl⟩) rfl
        (fun _ => rfl) ?_, rfl, rfl, by intro h; cases h⟩
      intro hp
      have h1 : w.facade.timer_ = some e := hpend hp
      rw [htm] at h1
      exact Option.some.inj h1
  | cancel_enter c =>
    simp only [Race.stop_step] at hs
    split at hs
    · cases hs
    · rename_i hnb
      simp only [Option.some.injEq] at hs
      subst hs
      refine ⟨hi0.transfer rfl (fun _ => rfl) rfl (fun t ht => ⟨t, ht, rfl⟩) rfl
        (fun _ => rfl) ?_, rfl, rfl, by intro h; cases h⟩
      intro hp
      have h1 : c = e := hpend hp
      exact hnb ⟨h1, pending_holds hp⟩
  | cancel_timer c =>
    simp only [Race.stop_step, Option.some.injEq] at hs
    subst hs
    refine ⟨hi0.transfer rfl (fun _ => rfl) rfl ?_ rfl (fun _ => rfl) ?_, rfl, rfl,
      by intro h; cases h⟩
    · intro t1 ht1
      show ∃ t2 : internal_timer, (w.with_engine c _).engines[e]? = some t2 ∧ _
      rw [with_engine_get]
      by_cases hce : c = e
      · rw [if_pos hce, ht1]
        exact ⟨_, rfl, rfl⟩
      · rw [if_neg hce]
        exact ⟨t1, ht1, rfl⟩
    · intro hp
      exact (hpend hp).elim
  | cancel_leave c =>
    simp only [Race.stop_step, Option.some.injEq] at hs
    subst hs
    refine ⟨hi0.transfer rfl (fun _ => rfl) rfl (fun t ht => ⟨t, ht, rfl⟩) rfl
      (fun _ => rfl) ?_, rfl, rfl, by intro h; cases h⟩
    intro hp
    exact (hpend hp).elim
  | reset_timer =>
    simp only [Race.stop_step, Option.some.injEq] at hs
    subst hs
    refine ⟨⟨⟨t, ht, hth⟩, hval, hown, hcnt, fun _ => hrev rfl, ?_, ?_⟩, rfl, rfl,
      by intro h; cases h⟩
    · intro h hh hfh
      exact absurd hfh (hrev rfl h hh)
    · intro hp
      exact (hpend hp).elim
  | leave =>
    simp only [Race.stop_step, Option.some.injEq] at hs
    subst hs
    refine ⟨hi0.transfer rfl (fun _ => rfl) rfl (fun t ht => ⟨t, ht, rfl⟩) rfl
      (fun _ => rfl) ?_, rfl, rfl, by intro h; cases h⟩
    intro hp
    exact (hpend hp).elim
  | returned =>
    simp only [Race.stop_step, Option.some.injEq] at hs
    subst hs
    exact ⟨hi0, rfl, rfl, fun h => h⟩

theorem engine_lt {w : World} {e : Nat} {t : internal_timer} (ht : w.engines[e]? = some t) :
    e < w.engines.length := by
  by_contra hge
  rw [List.getElem?_eq_none (Nat.le_of_not_lt hge)] at ht
  cases ht

/-- The callback takes ownership of the handler object: the facade member is
still that object, so `stop()` has not executed `handler_.reset()` and has yet
to pass the guard of `internal_timer::cancel`. -/
theorem RaceSafe.take_handler {e : Nat} {r0 : Option Nat} {w : World} {sa : stop_pc}
    {ta ta1 : timeout_pc} (hi : RaceSafe e r0 ⟨w, sa, ta⟩) (hta : ta.held = none)
    {t : internal_timer} (ht : w.engines[e]? = some t) {h : Nat}
    (hl : w.lock t.handler_ = some h) (hta1 : ta1.held = some h) :
    RaceSafe e r0 ⟨w.acquire h, sa, ta1⟩ := by
  obtain ⟨⟨t0, ht0, hth⟩, hval, hown, hcnt, hrev, hownd, hpend⟩ := hi
  rw [ht] at ht0
  cases ht0
  obtain ⟨hh, hp⟩ := lock_eq_some.mp hl
  have hr0 : r0 = some h := hth.symm.trans hh
  have hc := hcnt h hr0
  simp only [hta, reduceCtorEq, if_false, Nat.add_zero] at hc
  have hfh : w.facade.handler_ = some h := by
    by_contra hne
    rw [if_neg hne] at hc
    omega
  refine ⟨⟨t, ht, hth⟩, ?_, Or.inr (hta1.trans hr0.symm), ?_, hrev, hownd, ?_⟩
  · intro k hk
    show k < (w.acquire h).handlers.length
    simp only [World.acquire, length_modify_at]
    exact hval k hk
  · intro k hk
    have hkh : k = h := Option.some.inj (hk.symm.trans hr0)
    subst hkh
    show (w.acquire k).use_count k = (if w.facade.handler_ = some k then 1 else 0) +
      (if ta1.held = some k then 1 else 0)
    rw [use_count_acquire_self w k hp, hc, hta1]
    simp
  · intro _
    have hnp : sa.past_reset = false := by
      cases hpr : sa.past_reset with
      | false => rfl
      | true => exact absurd hfh (hrev hpr h hr0)
    exact must_wait_not_past hnp (hownd h hr0 hfh)

/-- The local `shared_ptr` of the callback leaves scope. -/
theorem RaceSafe.drop_handler {e : Nat} {r0 : Option Nat} {w : World} {sa : stop_pc}
    {ta ta1 : timeout_pc} (hi : RaceSafe e r0 ⟨w, sa, ta⟩) {h : Nat} (hta : ta.held = some h)
    (hta1 : ta1.held = none) (hp1 : ta1.pending = false) :
    RaceSafe e r0 ⟨w.release h, sa, ta1⟩ := by
  obtain ⟨⟨t, ht, hth⟩, hval, hown, hcnt, hrev, hownd, hpend⟩ := hi
  have hr0 : r0 = some h := by
    rcases hown with h1 | h1
    · rw [hta] at h1; cases h1
    · exact h1.symm.trans hta
  refine ⟨⟨t, ht, hth⟩, ?_, Or.inl hta1, ?_, hrev, hownd, ?_⟩
  · intro k hk
    show k < (w.release h).handlers.length
    simp only [World.release, length_modify_at]
    exact hval k hk
  · intro k hk
    have hkh : k = h := Option.some.inj (hk.symm.trans hr0)
    subst hkh
    have hc := hcnt k hr0
    simp only [hta, if_true] at hc
    show (w.release k).use_count k = (if w.facade.handler_ = some k then 1 else 0) +
      (if ta1.held = some k then 1 else 0)
    rw [use_count_release_self, hc, hta1]
    simp
  · intro hp
    rw [hp1] at hp
    cases hp

/-- A call that the callable makes on the facade while `stop()` does not hold
the facade's `lock_`. -/
theorem RaceSafe.facade_call {e : Nat} {r0 : Option Nat} {w : World} {sa : stop_pc}
    {h : Nat} {cs cs1 : List Call} (hi : RaceSafe e r0 ⟨w, sa, timeout_pc.calling h cs⟩)
    (c : Call) : RaceSafe e r0 ⟨w.call c, sa, timeout_pc.calling h cs1⟩ := by
  obtain ⟨⟨t, ht, hth⟩, hval, hown, hcnt, hrev, hownd, hpend⟩ := hi
  have hf := frame_call w c
  obtain ⟨t1, ht1, hth1⟩ := hf.engine e t ht
  refine ⟨⟨t1, ht1, hth1.trans hth⟩, ?_, hown, ?_, ?_, ?_, ?_⟩
  · intro k hk
    exact lt_of_lt_of_le (hval k hk) hf.handlers_le
  · intro k hk
    exact call_counts w c k (hval k hk) _ (hcnt k hk)
  · intro hp k hk
    exact call_revoked w c k (hval k hk) (Or.inl (hrev hp k hk))
  · intro k hk hfk
    cases c with
    | start T f => exact absurd hfk (call_revoked w _ k (hval k hk) (Or.inr rfl))
    | stop => exact absurd hfk (call_revoked w _ k (hval k hk) (Or.inr rfl))
    | cancel => exact absurd hfk (call_revoked w _ k (hval k hk) (Or.inr rfl))
    | change_interval T =>
      have hfc : (basic_repeating_timer.change_interval w T).facade = w.facade :=
        (change_interval_rest w T).2.1
      have hfk1 : (basic_repeating_timer.change_interval w T).facade.handler_ = some k := hfk
      show (basic_repeating_timer.change_interval w T).facade.timer_ = some e
      rw [hfc] at hfk1 ⊢
      exact hownd k hk hfk1
  · intro hp
    cases hp

/-- A statement of the callback keeps the invariant and leaves `stop()` where
it is; once `stop()` has returned, it produces no event of the engine. -/
theorem RaceSafe.timeout_step {e : Nat} {r0 : Option Nat} {r r1 : Race}
    {error : error_code} {act : handler_action} (hi : RaceSafe e r0 r)
    (hs : r.timeout_step e error act = some r1) :
    RaceSafe e r0 r1 ∧ r1.stop_at = r.stop_at ∧
    ∃ evs : List Event, r1.w.log = r.w.log ++ evs ∧
      (r.stop_at = stop_pc.returned → ∀ ev ∈ evs, ev.engine ≠ e) := by
  obtain ⟨w, sa, ta⟩ := r
  have hi0 := hi
  obtain ⟨⟨t, ht, hth⟩, hval, hown, hcnt, hrev, hownd, hpend⟩ := hi
  have quiet : ∀ w1 : World, w1.log = w.log →
      ∃ evs : List Event, w1.log = w.log ++ evs ∧
        (sa = stop_pc.returned → ∀ ev ∈ evs, ev.engine ≠ e) :=
    fun w1 h1 => ⟨[], by simp [h1], by simp⟩
  cases ta with
  | enter =>
    simp only [Race.timeout_step] at hs
    split at hs
    · cases hs
    · simp only [Option.some.injEq] at hs
      subst hs
      exact ⟨hi0.transfer rfl (fun _ => rfl) rfl (fun t ht => ⟨t, ht, rfl⟩) rfl
        (fun h => h) (by intro h; cases h), rfl, quiet w rfl⟩
  | lock_first =>
    simp only [Race.timeout_step, ht] at hs
    cases hl : w.lock t.handler_ with
    | none =>
      simp only [hl, Option.some.injEq] at hs
      subst hs
      exact ⟨hi0.transfer rfl (fun _ => rfl) rfl (fun t ht => ⟨t, ht, rfl⟩) rfl
        (fun h => h) (by intro h; cases h), rfl, quiet w rfl⟩
    | some h =>
      simp only [hl, Option.some.injEq] at hs
      subst hs
      exact ⟨hi0.take_handler rfl ht hl rfl, rfl, quiet _ rfl⟩
  | invoke h =>
    simp only [Race.timeout_step, Option.some.injEq] at hs
    subst hs
    refine ⟨hi0.transfer rfl (fun _ => rfl) rfl (fun t ht => ⟨t, ht, rfl⟩) rfl
      (fun h => h) (by intro h; cases h), rfl, _, rfl, ?_⟩
    intro hret
    have hm : sa.must_wait e w := hpend rfl
    rw [show sa = stop_pc.returned from hret] at hm
    exact hm.elim
  | calling h cs =>
    cases cs with
    | nil =>
      simp only [Race.timeout_step] at hs
      split at hs
      · simp only [Option.some.injEq] at hs
        subst hs
        exact ⟨hi0.drop_handler rfl rfl rfl, rfl, quiet _ rfl⟩
      · simp only [Option.some.injEq] at hs
        subst hs
        exact ⟨hi0.drop_handler rfl rfl rfl, rfl, quiet _ rfl⟩
    | cons c cs =>
      simp only [Race.timeout_step] at hs
      split at hs
      · cases hs
      · simp only [Option.some.injEq] at hs
        subst hs
        refine ⟨hi0.facade_call c, rfl, ?_⟩
        obtain ⟨evs, hlog, hev⟩ := call_log w c
        refine ⟨evs, hlog, ?_⟩
        intro _ ev hm heq
        have h1 := (hev ev hm).2
        have h2 : e < w.engines.length := engine_lt ht
        omega
  | test_error =>
    simp only [Race.timeout_step] at hs
    split at hs
    · simp only [Option.some.injEq] at hs
      subst hs
      exact ⟨hi0.transfer rfl (fun _ => rfl) rfl (fun t ht => ⟨t, ht, rfl⟩) rfl
        (fun h => h) (by intro h; cases h), rfl, quiet w rfl⟩
    · simp only [Option.some.injEq] at hs
      subst hs
      exact ⟨hi0.transfer rfl (fun _ => rfl) rfl (fun t ht => ⟨t, ht, rfl⟩) rfl
        (fun h => h) (by intro h; cases h), rfl, quiet w rfl⟩
  | lock_second =>
    simp only [Race.timeout_step, ht] at hs
    cases hl : w.lock t.handler_ with
    | none =>
      simp only [hl, Option.some.injEq] at hs
      subst hs
      exact ⟨hi0.transfer rfl (fun _ => rfl) rfl (fun t ht => ⟨t, ht, rfl⟩) rfl
        (fun h => h) (by intro h; cases h), rfl, quiet w rfl⟩
    | some h =>
      simp only [hl, Option.some.injEq] at hs
      subst hs
      exact ⟨hi0.take_handler rfl ht hl rfl, rfl, quiet _ rfl⟩
  | rearm h =>
    simp only [Race.timeout_step, Option.some.injEq] at hs
    subst hs
    have harm := arm_eq w e t ht
    refine ⟨hi0.transfer (by rw [harm]) (fun k => by rw [harm]; rfl) (by rw [harm]) ?_ rfl
      (fun h => h) (by intro h; cases h), rfl, ?_⟩
    · intro t1 ht1
      have e1 : t1 = t := Option.some.inj (ht1.symm.trans ht)
      have := arm_engine w e t ht e
      rw [if_pos rfl] at this
      exact ⟨_, this, by rw [e1]⟩
    · obtain ⟨evs, hlog, _⟩ := arm_events w e
      refine ⟨evs, hlog, ?_⟩
      intro hret
      have hm : sa.must_wait e w := hpend rfl
      rw [show sa = stop_pc.returned from hret] at hm
      exact hm.elim
  | drop_second h =>
    simp only [Race.timeout_step, Option.some.injEq] at hs
    subst hs
    exact ⟨hi0.drop_handler rfl rfl rfl, rfl, quiet _ rfl⟩
  | leave =>
    simp only [Race.timeout_step, Option.some.injEq] at hs
    subst hs
    exact ⟨hi0.transfer rfl (fun _ => rfl) rfl (fun t ht => ⟨t, ht, rfl⟩) rfl
      (fun h => h) (by intro h; cases h), rfl, quiet w rfl⟩
  | returned =>
    simp only [Race.timeout_step, Option.some.injEq] at hs
    subst hs
    exact ⟨hi0, rfl, quiet w rfl⟩

/-- A move of the race keeps the invariant; `stop()` stays returned once it
has returned, and from then on no event of the engine is produced. -/
theorem RaceSafe.move {e : Nat} {r0 : Option Nat} {r r1 : Race} {error : error_code}
    {act : handler_action} (hi : RaceSafe e r0 r) {m : Move}
    (hs : r.step e error act m = some r1) :
    RaceSafe e r0 r1 ∧ (r.stop_at = stop_pc.returned → r1.stop_at = stop_pc.returned) ∧
    ∃ evs : List Event, r1.w.log = r.w.log ++ evs ∧
      (r.stop_at = stop_pc.returned → ∀ ev ∈ evs, ev.engine ≠ e) := by
  cases m with
  | caller =>
    obtain ⟨h1, h2, _, h4⟩ := hi.stop_step hs
    exact ⟨h1, h4, [], by simp [h2], by simp⟩
  | context =>
    obtain ⟨h1, h2, h3⟩ := hi.timeout_step hs
    exact ⟨h1, fun h => h2.trans h, h3⟩
  | advance d =>
    obtain ⟨w, sa, ta⟩ := r
    simp only [Race.step, Option.some.injEq] at hs
    subst hs
    have hp := hi.pending
    exact ⟨hi.transfer rfl (fun _ => rfl) rfl (fun t ht => ⟨t, ht, rfl⟩) rfl (fun h => h)
      (fun h => (must_wait_congr rfl sa).mpr (hp h)), fun h => h, [], by simp, by simp⟩

/-- An interleaving keeps the invariant; `stop()` stays returned once it has
returned, and from then on no event of the engine is produced. -/
theorem RaceSafe.moves {e : Nat} {r0 : Option Nat} {error : error_code} {act : handler_action}
    (ms : List Move) : ∀ {r r1 : Race}, RaceSafe e r0 r → r.run e error act ms = some r1 →
    RaceSafe e r0 r1 ∧ (r.stop_at = stop_pc.returned → r1.stop_at = stop_pc.returned) ∧
    ∃ evs : List Event, r1.w.log = r.w.log ++ evs ∧
      (r.stop_at = stop_pc.returned → ∀ ev ∈ evs, ev.engine ≠ e) := by
  induction ms with
  | nil =>
    intro r r1 hi hx
    simp only [Race.run, Option.some.injEq] at hx
    subst hx
    exact ⟨hi, fun h => h, [], by simp, by simp⟩
  | cons m ms ih =>
    intro r r2 hi hx
    simp only [Race.run] at hx
    cases hs : r.step e error act m with
    | none => simp [hs] at hx
    | some r1 =>
      simp only [hs] at hx
      obtain ⟨hi1, hret1, evs1, hlog1, hev1⟩ := hi.move hs
      obtain ⟨hi2, hret2, evs2, hlog2, hev2⟩ := ih hi1 hx
      refine ⟨hi2, fun h => hret2 (hret1 h), evs1 ++ evs2,
        by rw [hlog2, hlog1, List.append_assoc], ?_⟩
      intro hret ev hm
      rcases List.mem_append.mp hm with h1 | h1
      · exact hev1 hret ev h1
      · exact hev2 (hret1 hret) ev h1

/-- The invariant holds when the race begins: the world is reachable, the
execution context has taken a wait of engine `e` off its timer, and neither
thread has executed a statement. -/
theorem race_start {w w0 : World} (hi : Coherent none w) {e : Nat} {op : wait_op}
    (htake : w.take_wait e = some (op, w0)) :
    ∃ t : internal_timer, w.engines[e]? = some t ∧
      RaceSafe e t.handler_ ⟨w0, stop_pc.enter, timeout_pc.enter⟩ := by
  obtain ⟨t, ht, _, _, ht0, hi0, _, _, _, _, _⟩ := take_wait_coherent hi htake
  refine ⟨t, ht, ⟨_, ht0, rfl⟩, ?_, Or.inl rfl, ?_, ?_, ?_, ?_⟩
  · intro h hh
    exact hi0.valid e _ h ht0 hh
  · intro h _
    have := hi0.counts h
    simpa [timeout_pc.held] using this
  · intro hp
    cases hp
  · intro h hh hfh
    exact hi0.unique e _ ht0 (by show t.handler_.isSome = true; rw [hh]; rfl)
      (by show t.handler_ = w0.facade.handler_; rw [hh]; exact hfh.symm)
  · intro hp
    cases hp

/-- Once `stop()` has executed `handler_.reset()` and the callback holds no
reference, the handler object of the engine has no owner. -/
theorem RaceSafe.gone {e : Nat} {r0 : Option Nat} {r : Race} (hi : RaceSafe e r0 r)
    (hs : r.stop_at.past_reset = true) (ht : r.timeout_at.held = none) :
    ∃ t : internal_timer, r.w.engines[e]? = some t ∧
      (∀ h, t.handler_ = some h → h < r.w.handlers.length) ∧ r.w.lock t.handler_ = none := by
  obtain ⟨t, hte, hth⟩ := hi.engine
  refine ⟨t, hte, ?_, ?_⟩
  · intro h hh
    exact hi.valid h (hth.symm.trans hh)
  · rw [lock_eq_none]
    intro h hh
    have hr0 : r0 = some h := hth.symm.trans hh
    have hc := hi.counts h hr0
    have hf := hi.revoked hs h hr0
    rw [if_neg hf, ht] at hc
    simpa using hc

/-- C14 (cancellation under a race). In a reachable world the execution
context has taken a wait of engine `e` off its timer and runs its callback, with
any status and any behaviour of the callable, on one thread, while `stop()` runs
on another; the statements of the two threads interleave in any order that
the mutexes allow, and time may pass between them. Take any interleaving `ms`
at the end of which `stop()` has returned, and any continuation `ms1` of it.
* `stop()` stays returned.
* The continuation produces no event of engine `e`: no handler invocation
  begins and no wait is submitted.
* Once the callback has returned too, no run of the system produces an event
  of engine `e`, whatever the calls and completions of the run. -/
theorem stop_race (w : World) (hr : Reachable w) (e : Nat) (op : wait_op) (w0 : World)
    (htake : w.take_wait e = some (op, w0)) (error : error_code) (act : handler_action)
    (ms ms1 : List Move) (r1 r2 : Race)
    (h1 : Race.run e error act ⟨w0, stop_pc.enter, timeout_pc.enter⟩ ms = some r1)
    (hret : r1.stop_at = stop_pc.returned)
    (h2 : r1.run e error act ms1 = some r2) :
    r2.stop_at = stop_pc.returned ∧
    (∃ evs : List Event, r2.w.log = r1.w.log ++ evs ∧ ∀ ev ∈ evs, ev.engine ≠ e) ∧
    (r2.timeout_at = timeout_pc.returned → ∀ (as : List Action) (w3 : World),
      r2.w.exec as = some w3 →
      ∃ evs : List Event, w3.log = r2.w.log ++ evs ∧ ∀ ev ∈ evs, ev.engine ≠ e) := by
  obtain ⟨t, _, hi0⟩ := race_start hr.coherent htake
  obtain ⟨hi1, _, _⟩ := RaceSafe.moves ms hi0 h1
  obtain ⟨hi2, hret2, evs, hlog, hev⟩ := RaceSafe.moves ms1 hi1 h2
  have hr2 := hret2 hret
  refine ⟨hr2, ⟨evs, hlog, hev hret⟩, ?_⟩
  intro hb as w3 hx
  obtain ⟨t2, ht2, hv2, hl2⟩ := hi2.gone (by rw [hr2]; rfl) (by rw [hb]; rfl)
  exact silent_run as e t2 ht2 hv2 hl2 hx

/-- C14 at a concrete interleaving: in `sample_running` the wait of engine 0
completes with status ok. The callback takes the engine's `lock_` and the
handler object; `stop()` resets the facade's handler and waits for the engine's
`lock_`; the callback invokes the handler, finds the handler gone at the re-arm
test and returns; `stop()` completes. -/
theorem stop_race_witness :
    ({ w := sample_raced, stop_at := stop_pc.returned,
       timeout_at := timeout_pc.returned } : Race).stop_at = stop_pc.returned ∧
    (∃ evs : List Event, sample_raced.log = sample_raced.log ++ evs ∧
      ∀ ev ∈ evs, ev.engine ≠ 0) ∧
    (timeout_pc.returned = timeout_pc.returned → ∀ (as : List Action) (w3 : World),
      sample_raced.exec as = some w3 →
      ∃ evs : List Event, w3.log = sample_raced.log ++ evs ∧ ∀ ev ∈ evs, ev.engine ≠ 0) :=
  stop_race sample_running
    (Reachable.step (Action.complete 0 error_code.success handler_action.plain)
      (Reachable.step (Action.advance 1000)
        (Reachable.step (Action.call (Call.start 1000 7)) Reachable.init rfl) rfl) rfl)
    0 { deadline := some 2000, cancelled := false } sample_in_flight (by rfl)
    error_code.success handler_action.plain
    [Move.context, Move.context, Move.caller, Move.caller, Move.caller,
      Move.context, Move.context, Move.context, Move.context, Move.context,
      Move.caller, Move.caller, Move.caller, Move.caller, Move.caller]
    [Move.caller, Move.context]
    { w := sample_raced, stop_at := stop_pc.returned, timeout_at := timeout_pc.returned }
    { w := sample_raced, stop_at := stop_pc.returned, timeout_at := timeout_pc.returned }
    (by rfl) rfl (by rfl)

/-! ## The race refines the atomic steps -/

theorem race_run_append (e : Nat) (error : error_code) (act : handler_action)
    (ms ms1 : List Move) : ∀ r : Race,
    r.run e error act (ms ++ ms1) =
      (r.run e error act ms).bind (fun r1 => r1.run e error act ms1) := by
  induction ms with
  | nil => intro r; rfl
  | cons m ms ih =>
    intro r
    simp only [List.cons_append, Race.run]
    cases r.step e error act m with
    | none => rfl
    | some r1 => exact ih r1

theorem race_returned (e : Nat) (error : error_code) (act : handler_action) (w : World)
    (sa : stop_pc) (k : Nat) :
    Race.run e error act ⟨w, sa, timeout_pc.returned⟩ (List.replicate k Move.context) =
      some ⟨w, sa, timeout_pc.returned⟩ := by
  induction k with
  | zero => rfl
  | succ k ih =>
    simp only [List.replicate, Race.run, Race.step, Race.timeout_step]
    exact ih

/-- The statements of `stop()`, executed without the other thread in between
when that thread does not hold the engine's `lock_`, amount to the method
`basic_repeating_timer.stop`. -/
theorem race_stop_alone (e : Nat) (error : error_code) (act : handler_action) (w : World)
    (ta : timeout_pc) (hta : ta.holds_engine = false) :
    Race.run e error act ⟨w, stop_pc.enter, ta⟩ (List.replicate 8 Move.caller) =
      some ⟨basic_repeating_timer.stop w, stop_pc.returned, ta⟩ := by
  simp only [List.replicate, Race.run, Race.step, Race.stop_step]
  cases htm : (basic_repeating_timer.reset_handler w).facade.timer_ with
  | none =>
    simp [Race.run, Race.step, Race.stop_step, basic_repeating_timer.stop,
      basic_repeating_timer.cleanup, htm]
  | some c =>
    simp [Race.run, Race.step, Race.stop_step, basic_repeating_timer.stop,
      basic_repeating_timer.cleanup, htm, hta]

/-- The calls of the callable, executed while `stop()` does not hold the
facade's `lock_`, amount to `World.calls`. -/
theorem race_calls (e : Nat) (error : error_code) (act : handler_action) (sa : stop_pc)
    (hsa : sa.holds_facade = false) (h : Nat) (ms : List Move) (cs : List Call) :
    ∀ w : World,
    Race.run e error act ⟨w, sa, timeout_pc.calling h cs⟩
        (List.replicate cs.length Move.context ++ ms) =
      Race.run e error act ⟨w.calls cs, sa, timeout_pc.calling h []⟩ ms := by
  induction cs with
  | nil => intro w; rfl
  | cons c cs ih =>
    intro w
    simp only [List.length_cons, List.replicate, List.cons_append, Race.run, Race.step,
      Race.timeout_step, hsa, Bool.false_eq_true, if_false]
    exact ih (w.call c)

theorem holds_engine_of_facade {sa : stop_pc} (hsa : sa.holds_facade = false) (e : Nat) :
    sa.holds_engine e = false := by
  cases sa <;> simp [stop_pc.holds_facade] at hsa <;> rfl

/-- The statements of the callback, executed without the other thread in
between when that thread holds no mutex, amount to the method
`internal_timer.handle_timeout`. -/
theorem race_callback_alone (e : Nat) (error : error_code) (act : handler_action) (w : World)
    (sa : stop_pc) (hsa : sa.holds_facade = false) :
    Race.run e error act ⟨w, sa, timeout_pc.enter⟩
        (List.replicate (act.calls.length + 9) Move.context) =
      some ⟨(internal_timer.handle_timeout w e error act).1, sa, timeout_pc.returned⟩ := by
  have hse := holds_engine_of_facade hsa e
  have hrep : List.replicate (act.calls.length + 9) Move.context =
      [Move.context, Move.context, Move.context] ++
        (List.replicate act.calls.length Move.context ++ List.replicate 6 Move.context) := by
    rw [← List.replicate_add]
    have : act.calls.length + 9 = (act.calls.length + 6) + 3 := by omega
    rw [this]
    rfl
  cases ht : w.engines[e]? with
  | none =>
    have hat : internal_timer.handle_timeout w e error act = (w, none) := by
      unfold internal_timer.handle_timeout internal_timer.fire internal_timer.reschedule
      simp [ht]
    rw [hat]
    simp only [List.replicate, Race.run, Race.step, Race.timeout_step, hse,
      Bool.false_eq_true, if_false, ht]
    by_cases hok : error.ok = true
    · simp only [hok, if_true, Race.run, Race.step, Race.timeout_step, ht]
      exact race_returned e error act w sa _
    · simp only [hok, if_false, Race.run, Race.step, Race.timeout_step, ht]
      exact race_returned e error act w sa _
  | some t =>
    cases hl : w.lock t.handler_ with
    | none =>
      rw [handle_timeout_expired w e error act t ht hl]
      simp only [List.replicate, Race.run, Race.step, Race.timeout_step, hse,
        Bool.false_eq_true, if_false, ht, hl]
      by_cases hok : error.ok = true
      · simp only [hok, if_true, Race.run, Race.step, Race.timeout_step, ht, hl]
        exact race_returned e error act w sa _
      · simp only [hok, if_false, Race.run, Race.step, Race.timeout_step, ht, hl]
        exact race_returned e error act w sa _
    | some h =>
      rw [hrep]
      simp only [List.cons_append, List.nil_append, Race.run, Race.step, Race.timeout_step,
        hse, Bool.false_eq_true, if_false, ht, hl]
      show Race.run e error act ⟨_, sa, timeout_pc.calling h act.calls⟩
        (List.replicate act.calls.length Move.context ++ List.replicate 6 Move.context) = _
      rw [race_calls e error act sa hsa h]
      rw [handle_timeout_resolved w e error act t h ht hl]
      show Race.run e error act
        ⟨(handler_impl.handler (w.acquire h) e h error act).1, sa, timeout_pc.calling h []⟩
        (List.replicate 6 Move.context) = _
      generalize (handler_impl.handler (w.acquire h) e h error act).1 = wc
      by_cases hout : act.outcome = some thrown.other
      · rw [if_pos hout]
        simp only [List.replicate, Race.run, Race.step, Race.timeout_step, hout]
      · rw [if_neg hout]
        have hstep : Race.timeout_step e error act ⟨wc, sa, timeout_pc.calling h []⟩ =
            some ⟨wc.release h, sa, timeout_pc.test_error⟩ := by
          cases hh : act.outcome with
          | none => simp only [Race.timeout_step, hh]
          | some x =>
            cases x with
            | std_exception => simp only [Race.timeout_step, hh]
            | other => exact absurd hh hout
        simp only [List.replicate, Race.run, Race.step, hstep]
        unfold internal_timer.reschedule
        by_cases hok : error.ok = true
        · simp only [hok, if_true, Race.run, Race.step, Race.timeout_step]
          cases ht2 : (wc.release h).engines[e]? with
          | none => simp only [Race.run, Race.step, Race.timeout_step]
          | some t2 =>
            simp only
            cases hl2 : (wc.release h).lock t2.handler_ with
            | none => simp only [Race.run, Race.step, Race.timeout_step]
            | some h2 => simp only [Race.run, Race.step, Race.timeout_step]
        · simp only [hok, if_false, Race.run, Race.step, Race.timeout_step,
            Bool.false_eq_true]

/-- Both sequential orders of the race are interleavings, and they end in the
worlds of the atomic steps: the callback and then `stop()`, or `stop()` and then
the callback. In particular `stop()` can return. -/
theorem race_sequential (e : Nat) (error : error_code) (act : handler_action) (w : World) :
    Race.run e error act ⟨w, stop_pc.enter, timeout_pc.enter⟩
        (List.replicate (act.calls.length + 9) Move.context ++
          List.replicate 8 Move.caller) =
      some ⟨basic_repeating_timer.stop (internal_timer.handle_timeout w e error act).1,
        stop_pc.returned, timeout_pc.returned⟩ ∧
    Race.run e error act ⟨w, stop_pc.enter, timeout_pc.enter⟩
        (List.replicate 8 Move.caller ++
          List.replicate (act.calls.length + 9) Move.context) =
      some ⟨(internal_timer.handle_timeout (basic_repeating_timer.stop w) e error act).1,
        stop_pc.returned, timeout_pc.returned⟩ := by
  constructor
  · rw [race_run_append, race_callback_alone e error act w stop_pc.enter rfl]
    exact race_stop_alone e error act _ timeout_pc.returned rfl
  · rw [race_run_append, race_stop_alone e error act w timeout_pc.enter rfl]
    exact race_callback_alone e error act _ stop_pc.returned rfl

/-- Not every interleaving lets `stop()` return. In `sample_in_flight` the
handler calls `change_interval` during the invocation: when `stop()` has taken
the facade's `lock_` and waits for the engine's `lock_`, which the callback
holds, the call of the handler waits for the facade's `lock_`, and neither
thread can move. -/
theorem race_can_block :
    (Race.run 0 error_code.success { calls := [Call.change_interval 5], outcome := none }
        ⟨sample_in_flight, stop_pc.enter, timeout_pc.enter⟩
        [Move.context, Move.context, Move.context, Move.caller, Move.caller,
          Move.caller]).map
      (fun r => (r.stop_at, r.timeout_at,
        r.step 0 error_code.success { calls := [Call.change_interval 5], outcome := none }
          Move.caller,
        r.step 0 error_code.success { calls := [Call.change_interval 5], outcome := none }
          Move.context)) =
      some (stop_pc.cancel_enter 0, timeout_pc.calling 0 [Call.change_interval 5],
        none, none) := by
  rfl

/-- When `stop()` waits for the `lock_` of the engine whose callback waits for
the facade's `lock_`, neither thread moves again: every interleaving from there
leaves both where they are. -/
theorem race_blocked (e : Nat) (error : error_code) (act : handler_action) (ms : List Move) :
    ∀ (r r1 : Race) (h : Nat) (c : Call) (cs : List Call),
    r.stop_at = stop_pc.cancel_enter e → r.timeout_at = timeout_pc.calling h (c :: cs) →
    r.run e error act ms = some r1 →
    r1.stop_at = stop_pc.cancel_enter e ∧ r1.timeout_at = timeout_pc.calling h (c :: cs) := by
  induction ms with
  | nil =>
    intro r r1 h c cs hs ht hx
    simp only [Race.run, Option.some.injEq] at hx
    subst hx
    exact ⟨hs, ht⟩
  | cons m ms ih =>
    intro r r2 h c cs hs ht hx
    obtain ⟨w, sa, ta⟩ := r
    simp only at hs ht
    subst hs
    subst ht
    cases m with
    | caller =>
      simp [Race.run, Race.step, Race.stop_step, timeout_pc.holds_engine] at hx
    | context =>
      simp [Race.run, Race.step, Race.timeout_step, stop_pc.holds_facade] at hx
    | advance d =>
      simp only [Race.run, Race.step] at hx
      exact ih _ r2 h c cs rfl rfl hx

/-- C12 (`stop()` and `change_interval` return normally), the code at the failing
input. In the reachable world `sample_running` the wait of engine 0 completes
with status ok on the thread of the execution context, and the handler calls
`change_interval(5)` on its own timer during the invocation; a second thread
calls `stop()`. In the interleaving where the callback has taken the engine's
`lock_` and begun the invocation, and `stop()` has taken the facade's `lock_` and
reached `timer_->cancel()`, each thread waits for the mutex that the other
holds: whatever happens afterwards, `stop()` never returns, and neither does
the `change_interval` call of the handler. -/
theorem stop_never_returns :
    Reachable sample_running ∧
    sample_running.take_wait 0 =
      some ({ deadline := some 2000, cancelled := false }, sample_in_flight) ∧
    ∃ r : Race,
      Race.run 0 error_code.success { calls := [Call.change_interval 5], outcome := none }
        ⟨sample_in_flight, stop_pc.enter, timeout_pc.enter⟩
        [Move.context, Move.context, Move.context, Move.caller, Move.caller,
          Move.caller] = some r ∧
      ∀ (ms : List Move) (r1 : Race),
        r.run 0 error_code.success { calls := [Call.change_interval 5], outcome := none }
          ms = some r1 →
        r1.stop_at = stop_pc.cancel_enter 0 ∧
        r1.timeout_at = timeout_pc.calling 0 [Call.change_interval 5] ∧
        r1.stop_at ≠ stop_pc.returned ∧ r1.timeout_at ≠ timeout_pc.returned := by
  refine ⟨Reachable.step (Action.complete 0 error_code.success handler_action.plain)
      (Reachable.step (Action.advance 1000)
        (Reachable.step (Action.call (Call.start 1000 7)) Reachable.init rfl) rfl) rfl,
    rfl, _, rfl, ?_⟩
  intro ms r1 hx
  obtain ⟨h1, h2⟩ := race_blocked 0 error_code.success
    { calls := [Call.change_interval 5], outcome := none } ms _ r1 0
    (Call.change_interval 5) [] rfl rfl hx
  refine ⟨h1, h2, ?_, ?_⟩
  · rw [h1]; exact fun h => by cases h
  · rw [h2]; exact fun h => by cases h

end RepTimer
